import Mathlib

/-!
# OOB downstream decoder (`oobin.c`): shallow embedding and verified properties

Conventions of the embedding.

* A byte buffer reached through a `uint8_t *` is a `List Nat`; the pointer
  `p + k` denotes the suffix `p.drop k`, and a callee that mutates memory
  through a pointer returns the updated suffix, which the caller splices back.
* Every read and write is checked: an access outside the buffer makes the
  whole computation `none`.  A result `some _` therefore certifies that the
  run stayed inside its buffers.
* C `int` parameters and results are `Int`. Signed overflow is undefined in C: where
  a sum can leave the range of `int` (the guard of line 292, for `len` above
  2147482878) the computation is `none`, so `some _` also certifies that the run stayed
  in the range of `int`. Every other index stays below the buffer size, and the
  statistics counters grow by at most one per 96 bytes of input;
  the counter of a counted loop `for (i = 0; i < n; i++)` is a `Nat`.
* A loop that is left by `break` is a recursive function with a fuel argument;
  running out of fuel is `none` as well, so `some _` also certifies termination.
* `uint8_t` / `uint16_t` stores are reduced `% 256` / `% 65536`.
-/

namespace Oobin

/-! ## Checked memory access -/

/-- Checked read of `buf[i]`. -/
def rd {α : Type} (buf : List α) (i : Nat) : Option α := buf[i]?

/-- Checked write `buf[i] = v`. -/
def wr {α : Type} (buf : List α) (i : Nat) (v : α) : Option (List α) :=
  if i < buf.length then some (buf.set i v) else none

/-- Checked read `buf[z]` at a C `int` index. -/
def rdZ (buf : List Nat) (z : Int) : Option Nat :=
  if 0 ≤ z then buf[z.toNat]? else none

/-- Checked write `buf[z] = v` at a C `int` index. -/
def wrZ (buf : List Nat) (z : Int) (v : Nat) : Option (List Nat) :=
  if 0 ≤ z then wr buf z.toNat v else none

/-- Runs `f` on the memory reached through the pointer `buf + off` and splices
the memory it returns back behind the untouched first `off` bytes. -/
def withPtr {α : Type} (buf : List Nat) (off : Int)
    (f : List Nat → Option (α × List Nat)) : Option (α × List Nat) :=
  if 0 ≤ off ∧ off ≤ buf.length then
    match f (buf.drop off.toNat) with
    | some (a, s) => some (a, buf.take off.toNat ++ s)
    | none => none
  else none

/-- The read-only view `buf + off`. -/
def ptrAt (buf : List Nat) (off : Int) : Option (List Nat) :=
  if 0 ≤ off ∧ off ≤ buf.length then some (buf.drop off.toNat) else none

/-- Model of `memcpy(dst, src, n)` and of `memmove(dst, src, n)`, `src` being the
source bytes as they were before the call. -/
def memcpy (dst src : List Nat) (n : Int) : Option (List Nat) :=
  if 0 ≤ n ∧ n ≤ src.length ∧ n ≤ dst.length then
    some (src.take n.toNat ++ dst.drop n.toNat)
  else none

/-! ## 3. Derandomizer -/

/-- The table `oob_rand_table[384]` (oobin.c, lines 165-191). -/
def oob_rand_table : List Nat :=
  [0x00,0x71,0xC5,0xBC,0x41,0x6E,0x34,0xC6,0x04,0xB6,0xE5,0x97,0x2D,0x7E,0x7D,0x02,
   0xED,0xAF,0xBE,0x65,0xE1,0xF4,0x99,0xF8,0x7A,0x3A,0x25,0xDA,0x98,0x6A,0x3A,0xC6,
   0x51,0xE0,0xE8,0xE6,0xAF,0xDD,0xE9,0x85,0x2D,0x81,0x87,0x15,0x7F,0x28,0x5A,0xD8,
   0x69,0xB4,0xEB,0xB3,0xEB,0x99,0x40,0x9F,0xF8,0x5E,0xA9,0x94,0xEA,0x74,0xFD,0x68,
   0x45,0x27,0x2B,0x46,0xBB,0x4F,0x7C,0x28,0x48,0x91,0xB1,0x2C,0x9D,0xF8,0x42,0xD8,
   0xFB,0xFA,0x2F,0x70,0x59,0xC4,0x0A,0x92,0x23,0x70,0x10,0xE3,0x68,0xF3,0xFA,0x5E,
   0xB5,0xE5,0x85,0x64,0xA6,0xE5,0x74,0xA6,0x06,0xFF,0xDE,0x84,0x23,0xB7,0x08,0x2A,
   0xDA,0xC3,0x04,0x80,0x3F,0xFE,0x85,0xE4,0xA1,0xF9,0x2F,0x62,0x10,0x1C,0x92,0xE4,
   0x68,0xD9,0x51,0x58,0x0D,0x24,0xD4,0xAE,0xE5,0x05,0x63,0xBA,0xBE,0xB0,0xB0,0xE5,
   0xB3,0xBE,0xCF,0x4D,0xEE,0x7A,0xFD,0x3D,0x13,0x2A,0x5A,0xC4,0x18,0xDB,0xFB,0xE8,
   0x66,0xA8,0xC1,0xB2,0x41,0x3B,0x62,0xCB,0x75,0x34,0x46,0x03,0xAA,0xBE,0x53,0x3B,
   0x9D,0x31,0x62,0xA6,0xC1,0xE7,0x17,0x36,0x13,0x49,0xD6,0xA0,0xC1,0xC3,0x84,0x87,
   0x23,0xA5,0x41,0xF2,0x42,0xB5,0x4F,0x29,0x7E,0x45,0xE0,0x33,0x8F,0x09,0x7F,0x82,
   0xF6,0xC2,0x8A,0xB1,0xAC,0x9A,0xE4,0x19,0x1C,0xED,0x19,0x63,0x10,0x12,0xAA,0x53,
   0xE0,0xF4,0x97,0xC0,0xCD,0xB2,0x08,0x1C,0x00,0xAA,0xAC,0x1A,0xE3,0x05,0x47,0x29,
   0x0F,0x80,0x5C,0x72,0xE1,0x3D,0xB9,0x86,0x40,0x27,0x1D,0x9C,0xD2,0xE7,0xE6,0xF4,
   0xB3,0x53,0x7C,0x82,0xE4,0x8B,0x52,0x29,0xDA,0xD1,0x4D,0x58,0xA7,0x88,0xCE,0x4D,
   0xE0,0x42,0x4A,0xB5,0x3E,0xEC,0xC2,0x04,0x8E,0x07,0x49,0x0D,0xC9,0x67,0x61,0xEF,
   0xF4,0xCC,0xAE,0x77,0x4B,0xA7,0x79,0x0C,0xED,0xFA,0xE8,0x68,0x90,0x76,0x3A,0x6C,
   0xFD,0xFA,0x0B,0xE3,0xE8,0xF4,0xE6,0x05,0x71,0xF3,0x66,0x28,0xC6,0xAE,0x1A,0xFF,
   0x74,0x28,0x39,0x54,0x0D,0x6D,0xF3,0xCC,0x84,0xDC,0x4D,0x1F,0xB8,0x5D,0x27,0xB9,
   0x08,0x7F,0x8C,0xCE,0x75,0x02,0x9C,0x6A,0x02,0x24,0x8F,0xC0,0x5F,0xFC,0xCC,0xDF,
   0xB2,0xF7,0xE6,0x17,0x38,0x2B,0xFE,0x5E,0x8D,0x07,0x5B,0x44,0x11,0xFF,0x17,0xA4,
   0x5D,0x8D,0x15,0x12,0x9C,0x89,0x89,0x5C,0x0D,0x1C,0x36,0x70,0xC5,0xB2,0x79,0xD9]

/-- The `case` labels of the `switch (i % 384)` in `oob_de_randomizer`: the
positions at which the randomizing action is gated out. -/
def is_gap (j : Nat) : Bool :=
  j == 94 || j == 95 || j == 190 || j == 191 || j == 286 || j == 287 || j == 382 || j == 383

/-- One iteration of the loop of `oob_de_randomizer`: the `switch` on `i % 384`. -/
def de_randomizer_step (data : List Nat) (i : Nat) : Option (List Nat) :=
  if is_gap (i % 384) then
    some data
  else do
    let b ← rd data i
    let t ← rd oob_rand_table (i % 384)
    wr data i ((b ^^^ t) % 256)

/-- Model of `oob_de_randomizer(data, len, frame_pos)` (oobin.c, lines 133-160). The body
never mentions `frame_pos`. Returns the C result and the updated buffer. -/
def oob_de_randomizer (data : List Nat) (len : Int) (_frame_pos : Int) :
    Option (Int × List Nat) :=
  match (List.range len.toNat).foldlM de_randomizer_step data with
  | some data1 => some (0, data1)
  | none => none

/-! ## The generator of the table -/

/-- One pass of the bit loop of `oob_calc_rand_table` on `(shift_reg, output_byte)`;
`shift_reg` is a `uint16_t`, `output_byte` a `uint8_t`. -/
def lfsr_bit_step (st : Nat × Nat) : Nat × Nat :=
  let shift_reg := st.1
  let output_byte := st.2
  let output_bit := shift_reg &&& 0x1
  let output_bit := output_bit ^^^ ((shift_reg &&& 0x200) >>> 9)
  let output_bit := output_bit ^^^ ((shift_reg &&& 0x400) >>> 10)
  let output_bit := output_bit ^^^ ((shift_reg &&& 0x1000) >>> 12)
  let shift_reg := (shift_reg >>> 1) % 65536
  let shift_reg := (shift_reg ||| (output_bit <<< 12)) % 65536
  let output_byte := (output_byte <<< 1) % 256
  let output_byte := (output_byte ||| output_bit) % 256
  (shift_reg, output_byte)

/-- The inner loop `for (i = 0; i < 8; i++)` started with `output_byte = 0`:
the register after the eight shifts and the byte produced. -/
def lfsr_byte (shift_reg : Nat) : Nat × Nat :=
  (List.range 8).foldl (fun st _ => lfsr_bit_step st) (shift_reg, 0)

/-- One iteration of the outer loop of `oob_calc_rand_table` on `(shift_reg, table)`. -/
def calc_rand_table_step (st : Nat × List Nat) (n : Nat) : Option (Nat × List Nat) :=
  match wr st.2 n (lfsr_byte st.1).2 with
  | some table1 => some ((lfsr_byte st.1).1, table1)
  | none => none

/-- Model of `oob_calc_rand_table(table)` (oobin.c, lines 196-238): the buffer after the call. -/
def oob_calc_rand_table (table : List Nat) : Option (List Nat) :=
  match (List.range 384).foldlM calc_rand_table_step (0x0201, table) with
  | some st => some st.2
  | none => none

/-! ## 1. De-interleaver -/

/-- The assignment `data_out[n*8 + i] = data_in[n*8 + i + i*96]`. -/
def de_interleaver_step (data_in : List Nat) (i : Nat) (data_out : List Nat) (n : Nat) :
    Option (List Nat) :=
  match rd data_in (n * 8 + i + i * 96) with
  | some v => wr data_out (n * 8 + i) v
  | none => none

/-- Model of `oob_de_interleaver(data_in, data_out)` (oobin.c, lines 28-43); the two
buffers do not overlap. Returns the C result and the updated `data_out`. -/
def oob_de_interleaver (data_in data_out : List Nat) : Option (Int × List Nat) :=
  match (List.range 8).foldlM
      (fun out i => (List.range 12).foldlM (de_interleaver_step data_in i) out) data_out with
  | some out => some (0, out)
  | none => none

/-! ## Synchronizer -/

/-- The loop of `oob_synchronize_bitstream`, entered with counter `i`; the second
byte is only read when the first one matches (`&&`). -/
def synchronize_loop (data : List Nat) (start_ofs len : Int) : Nat → Int → Option Int
  | 0, _ => none
  | fuel + 1, i =>
    if i + start_ofs + 384 ≤ len then
      match rdZ data (start_ofs + i) with
      | none => none
      | some a =>
        if a = 0x47 then
          match rdZ data (start_ofs + i + 192) with
          | none => none
          | some b =>
            if b = 0x64 then some i
            else synchronize_loop data start_ofs len fuel (i + 1)
        else synchronize_loop data start_ofs len fuel (i + 1)
    else some i

/-- Model of `oob_synchronize_bitstream(data, start_ofs, len)` (oobin.c, lines 243-256).
The loop condition is evaluated at most `len - start_ofs - 383 + 1` times. -/
def oob_synchronize_bitstream (data : List Nat) (start_ofs len : Int) : Option Int :=
  synchronize_loop data start_ofs len ((len - start_ofs - 383).toNat + 1) 0

/-! ## 2. Reed Solomon decoder -/

/-- The Reed-Solomon library `rscode-1.3/ecc.h` used by `oob_de_fec`, as a parameter:
its state `σ` (syndrome bytes, tables) and its four entry points. A routine that is
handed `data, nbytes` works on those `nbytes` bytes and returns them, same length. -/
structure Codec (σ : Type) where
  /-- The call `initialize_ecc()`. -/
  initialize_ecc : σ → σ
  /-- The call `decode_data(data, nbytes)`. -/
  decode_data : σ → List Nat → Int → σ × List Nat
  /-- The call `check_syndrome()`. -/
  check_syndrome : σ → Int
  /-- The call `correct_errors_erasures(codeword, csize, nerasures, erasures)`. -/
  correct_errors_erasures : σ → List Nat → Int → Int → List Int → σ × List Nat
  /-- Law: `decode_data` stays inside its `nbytes` bytes. -/
  decode_data_length : ∀ s b n, (decode_data s b n).2.length = b.length
  /-- Law: `correct_errors_erasures` stays inside its `csize` bytes. -/
  correct_length : ∀ s b n k e, (correct_errors_erasures s b n k e).2.length = b.length

/-- The globals of oobin.c: the three statistics counters (lines 77-79), the state of
the Reed-Solomon library, and the `static int oob_ecc_initialized` (line 270). -/
structure Globals (σ : Type) where
  /-- State of the library. -/
  ecc : σ
  /-- Counter `fec_error_count`. -/
  fec_error_count : Int
  /-- Counter `fec_total_block_count`. -/
  fec_total_block_count : Int
  /-- Counter `fec_corrected_block_count`. -/
  fec_corrected_block_count : Int
  /-- Flag `oob_ecc_initialized`. -/
  oob_ecc_initialized : Bool

/-- Model of `oob_de_fec(data_in)` (oobin.c, lines 85-121) on the memory at `data_in`:
the C result, the globals after the call, and the updated memory. `nerasures` is 0
and no entry of `erasures` is initialised. -/
def oob_de_fec {σ : Type} (C : Codec σ) (g : Globals σ) (data_in : List Nat) :
    Option ((Int × Globals σ) × List Nat) :=
  if 96 ≤ data_in.length then
    let g := { g with fec_total_block_count := g.fec_total_block_count + 1 }
    let d1 := C.decode_data g.ecc (data_in.take 96) 96
    if C.check_syndrome d1.1 ≠ 0 then
      let g := { g with fec_error_count := g.fec_error_count + 1 }
      let d2 := C.correct_errors_erasures d1.1 d1.2 96 0 []
      let d3 := C.decode_data d2.1 d2.2 96
      if C.check_syndrome d3.1 = 0 then
        some ((1, { g with ecc := d3.1,
                           fec_corrected_block_count := g.fec_corrected_block_count + 1 }),
              d3.2 ++ data_in.drop 96)
      else
        some ((-1, { g with ecc := d3.1 }), d3.2 ++ data_in.drop 96)
    else
      some ((0, { g with ecc := d1.1 }), d1.2 ++ data_in.drop 96)
  else none

/-! ## The chunk pipeline -/

/-- The variables of `oob_process_data_chunk` that its loop updates. -/
structure ChunkState (σ : Type) where
  /-- The input buffer `data`. -/
  data : List Nat
  /-- The local `data_work[384]`. -/
  data_work : List Nat
  /-- The local `fec_error[4]`. -/
  fec_error : List Int
  /-- The bytes stored through `ts_out` so far, in order. -/
  ts_out : List Nat
  /-- The value of `*out_len`. -/
  out_len : Int
  /-- The globals. -/
  g : Globals σ
  /-- Ghost: the number of loop bodies run to their end. -/
  frames : Nat

/-- Body of the loop at lines 303-307: `oob_de_interleaver` into `data_work + n*96`,
then `memcpy` back to `data + i + n*96`. -/
def deinterleave_block {σ : Type} (i : Int) (st : ChunkState σ) (n : Nat) :
    Option (ChunkState σ) :=
  match ptrAt st.data (i + n * 96) with
  | none => none
  | some src =>
    match withPtr st.data_work (n * 96) (oob_de_interleaver src) with
    | none => none
    | some (_, work) =>
      match ptrAt work (n * 96) with
      | none => none
      | some wsrc =>
        match withPtr st.data (i + n * 96)
            (fun dst => (memcpy dst wsrc 96).map (fun d => ((), d))) with
        | none => none
        | some (_, data) => some { st with data := data, data_work := work }

/-- Body of the loop at lines 315-316: `fec_error[n] = oob_de_fec(data + i + n*96)`. -/
def fec_block {σ : Type} (C : Codec σ) (i : Int) (st : ChunkState σ) (n : Nat) :
    Option (ChunkState σ) :=
  match withPtr st.data (i + n * 96) (oob_de_fec C st.g) with
  | none => none
  | some ((r, g), data) =>
    match wr st.fec_error n r with
    | none => none
    | some fe => some { st with data := data, g := g, fec_error := fe }

/-- Body of the loop at lines 333-339: set the Transport Error Indicator of packet `n`. -/
def tei_step {σ : Type} (i : Int) (st : ChunkState σ) (n : Nat) : Option (ChunkState σ) :=
  match rd st.fec_error (n * 2), rd st.fec_error (n * 2 + 1) with
  | some a, some b =>
    if a < 0 ∨ b < 0 then
      match rdZ st.data (i + n * 192 + 1) with
      | none => none
      | some v =>
        match wrZ st.data (i + n * 192 + 1) ((v ||| 0x80) % 256) with
        | none => none
        | some data => some { st with data := data }
    else some st
  | _, _ => none

/-- Body of the loop at lines 343-348: `memmove(ts_out, data + i + 96*n, 94)`, then
`ts_out += 94; *out_len += 94`. -/
def emit_block {σ : Type} (i : Int) (st : ChunkState σ) (n : Nat) : Option (ChunkState σ) :=
  match ptrAt st.data (i + 96 * n) with
  | none => none
  | some src =>
    if 94 ≤ src.length then
      some { st with ts_out := st.ts_out ++ src.take 94, out_len := st.out_len + 94 }
    else none

/-- Lines 303-348: the part of the loop body behind the `break`, for the frame at `i`. -/
def process_frame {σ : Type} (C : Codec σ) (do_fec : Int) (i : Int) (st : ChunkState σ) :
    Option (ChunkState σ) :=
  match (List.range 4).foldlM (deinterleave_block i) st with
  | none => none
  | some st1 =>
    match (if do_fec ≠ 0 then (List.range 4).foldlM (fec_block C i) st1 else some st1) with
    | none => none
    | some st2 =>
      match withPtr st2.data i (fun p => oob_de_randomizer p 384 0) with
      | none => none
      | some (_, data) =>
        match (if do_fec ≠ 0 then
            (List.range 2).foldlM (tei_step i) { st2 with data := data }
          else some { st2 with data := data }) with
        | none => none
        | some st3 =>
          match (List.range 4).foldlM (emit_block i) st3 with
          | none => none
          | some st4 => some { st4 with frames := st4.frames + 1 }

/-- The largest value of a C `int` (32 bits). -/
def INT_MAX : Int := 2147483647

/-- The loop `for (i = 0; i + 383 < len; i += 384)` of lines 287-350, entered with
counter `i`: the counter and the variables when the loop is left. The sum
`i+384+768` of line 292 is computed in `int`: when it exceeds `INT_MAX` the behaviour
is undefined in C and the result is `none` (as compiled the sum wraps to a negative
value, the loop does not break, and the body runs on a frame that lacks its
lookahead). The other sums of the loop are smaller than this one. -/
def chunk_loop {σ : Type} (C : Codec σ) (len do_fec : Int) :
    Nat → Int → ChunkState σ → Option (Int × ChunkState σ)
  | 0, _, _ => none
  | fuel + 1, i, st =>
    if i + 383 < len then
      match oob_synchronize_bitstream st.data i len with
      | none => none
      | some k =>
        if i + k + 384 + 768 > INT_MAX then none
        else if i + k + 384 + 768 > len then some (i + k, st)
        else
          match process_frame C do_fec (i + k) st with
          | none => none
          | some st1 => chunk_loop C len do_fec fuel (i + k + 384) st1
    else some (i, st)

/-- Model of `oob_process_data_chunk(data, len, ts_out, out_len, do_fec)` (oobin.c,
lines 264-363), run from the globals `g`: the C result and, in the state, the input
buffer, the bytes stored through `ts_out`, `*out_len` and the globals after the call.
Every pass of the loop adds at least 384 to `i`, so `len + 1` passes are enough. -/
def oob_process_data_chunk {σ : Type} (C : Codec σ) (g : Globals σ) (data : List Nat)
    (len : Int) (do_fec : Int) : Option (Int × ChunkState σ) :=
  let g1 : Globals σ :=
    if do_fec ≠ 0 ∧ g.oob_ecc_initialized = false then
      { g with ecc := C.initialize_ecc g.ecc, oob_ecc_initialized := true }
    else g
  match chunk_loop C len do_fec (len.toNat + 1) 0
      { data := data, data_work := List.replicate 384 0, fec_error := List.replicate 4 0,
        ts_out := [], out_len := 0, g := g1, frames := 0 } with
  | none => none
  | some (i, st) =>
    if len - i > 0 then
      match ptrAt st.data i with
      | none => none
      | some src =>
        match memcpy st.data src (len - i) with
        | none => none
        | some data1 => some (len - i, { st with data := data1 })
    else some (0, st)

/-! ## Auxiliary definitions used in the statements -/

/-- Proof device, not a model of the code: `chunk_loop` with the sum of line 292 taken
in the integers, so that it never overflows. `chunk_loop` returns what this loop returns
whenever it returns at all (`chunk_loop_refines`), and the two are equal for
`len ≤ 2147482878`, where the sum stays in the range of `int` (`chunk_loop_defined`). -/
def chunk_loop_ideal {σ : Type} (C : Codec σ) (len do_fec : Int) :
    Nat → Int → ChunkState σ → Option (Int × ChunkState σ)
  | 0, _, _ => none
  | fuel + 1, i, st =>
    if i + 383 < len then
      match oob_synchronize_bitstream st.data i len with
      | none => none
      | some k =>
        if i + k + 384 + 768 > len then some (i + k, st)
        else
          match process_frame C do_fec (i + k) st with
          | none => none
          | some st1 => chunk_loop_ideal C len do_fec fuel (i + k + 384) st1
    else some (i, st)

/-- Proof device, not a model of the code: `oob_process_data_chunk` over
`chunk_loop_ideal` (`call_refines`, `call_defined`). -/
def process_data_chunk_ideal {σ : Type} (C : Codec σ) (g : Globals σ) (data : List Nat)
    (len : Int) (do_fec : Int) : Option (Int × ChunkState σ) :=
  let g1 : Globals σ :=
    if do_fec ≠ 0 ∧ g.oob_ecc_initialized = false then
      { g with ecc := C.initialize_ecc g.ecc, oob_ecc_initialized := true }
    else g
  match chunk_loop_ideal C len do_fec (len.toNat + 1) 0
      { data := data, data_work := List.replicate 384 0, fec_error := List.replicate 4 0,
        ts_out := [], out_len := 0, g := g1, frames := 0 } with
  | none => none
  | some (i, st) =>
    if len - i > 0 then
      match ptrAt st.data i with
      | none => none
      | some src =>
        match memcpy st.data src (len - i) with
        | none => none
        | some data1 => some (len - i, { st with data := data1 })
    else some (0, st)

/-- The byte that one pass of the de-randomizer loop leaves at index `k`. -/
def derand_byte (k b : Nat) : Nat :=
  if is_gap (k % 384) = false then (b ^^^ oob_rand_table.getD (k % 384) 0) % 256 else b

/-- The register and the bytes produced after `n` passes of the outer loop of
`oob_calc_rand_table`, started from the seed `0x0201`. -/
def lfsr_bytes (n : Nat) : Nat × List Nat :=
  (List.range n).foldl
    (fun st _ => ((lfsr_byte st.1).1, st.2 ++ [(lfsr_byte st.1).2])) (0x0201, [])

/-- Reference depth-8 byte convolutional interleaver, written from the words of the
property: the byte at position `p` of the stream `S` of RS blocks is delayed by
`96 * (p mod 8)` bytes, so it stands at position `p + 96 * (p mod 8)` of the interleaved
stream; the positions that no byte of `S` reaches (delay lines initially empty) hold 0. -/
def ref_interleave (S : List Nat) : List Nat :=
  (List.range (S.length + 672)).map
    (fun q => if 96 * (q % 8) ≤ q then S.getD (q - 96 * (q % 8)) 0 else 0)

/-- The 96-byte block that `oob_de_interleaver` assembles from `data_in`. -/
def deinterleaved (data_in : List Nat) : List Nat :=
  (List.range 96).map (fun p => data_in.getD (p + 96 * (p % 8)) 0)

/-- The anchor test of the synchronizer at offset `k`: `data[start_ofs + k] == 0x47` and
`data[start_ofs + k + 192] == 0x64`. -/
def is_anchor (data : List Nat) (start_ofs k : Int) : Prop :=
  rdZ data (start_ofs + k) = some 0x47 ∧ rdZ data (start_ofs + k + 192) = some 0x64

instance (data : List Nat) (start_ofs k : Int) : Decidable (is_anchor data start_ofs k) := by
  unfold is_anchor
  exact inferInstance

/-- A sample input: 17 zero bytes, then a 384-byte frame with `0x47` at its offset 0
and `0x64` at its offset 192 (401 bytes). -/
def sample_unaligned : List Nat :=
  List.replicate 17 0 ++ [0x47] ++ List.replicate 191 0 ++ [0x64] ++ List.replicate 191 0

/-- The buffers `a` and `b` have the same length and the same bytes outside `[lo, hi)`. -/
def same_outside (a b : List Nat) (lo hi : Nat) : Prop :=
  a.length = b.length ∧ ∀ k, (k < lo ∨ hi ≤ k) → a.getD k 0 = b.getD k 0

/-- What the steps of one loop body before the emission keep: `s` differs from the
state `st0` at the start of the body only inside the frame `data[i .. i + 384)`, in
`data_work`, in `fec_error` and in the globals. -/
def frame_inv {σ : Type} (st0 : ChunkState σ) (i : Nat) (s : ChunkState σ) : Prop :=
  same_outside s.data st0.data i (i + 384) ∧ s.data_work.length = 384 ∧
    s.fec_error.length = 4 ∧ s.ts_out = st0.ts_out ∧ s.out_len = st0.out_len ∧
    s.frames = st0.frames

/-- What the emission loop has done after `n` blocks of the frame at `i`. -/
def emit_inv {σ : Type} (s0 : ChunkState σ) (n : Nat) (s : ChunkState σ) : Prop :=
  s.data = s0.data ∧ s.data_work = s0.data_work ∧ s.fec_error = s0.fec_error ∧
    s.g = s0.g ∧ s.frames = s0.frames ∧
    s.ts_out.length = s0.ts_out.length + 94 * n ∧ s.out_len = s0.out_len + 94 * n

/-- The state `s` after the complete loop body for the frame at `i`, against the state
`st0` before it. -/
def frame_post {σ : Type} (st0 : ChunkState σ) (i : Nat) (s : ChunkState σ) : Prop :=
  same_outside s.data st0.data i (i + 384) ∧ s.data_work.length = 384 ∧
    s.fec_error.length = 4 ∧ s.out_len = st0.out_len + 376 ∧
    s.frames = st0.frames + 1 ∧ s.ts_out.length = st0.ts_out.length + 376

/-- Invariant of the loop of `oob_process_data_chunk` at its head: the buffer still
holds `len` bytes, the locals keep their sizes, and `*out_len` and the number of bytes
stored through `ts_out` are both 376 times the number of loop bodies completed. -/
def chunk_inv {σ : Type} (len : Int) (s : ChunkState σ) : Prop :=
  len ≤ s.data.length ∧ s.data_work.length = 384 ∧ s.fec_error.length = 4 ∧
    s.out_len = 376 * (s.frames : Int) ∧ s.ts_out.length = 376 * s.frames

/-- An instance of the library interface that never reports an error and leaves the
block as it is; it serves to instantiate the theorems. -/
def null_codec : Codec Unit where
  initialize_ecc := fun s => s
  decode_data := fun s b _ => (s, b)
  check_syndrome := fun _ => 0
  correct_errors_erasures := fun s b _ _ _ => (s, b)
  decode_data_length := fun _ _ _ => rfl
  correct_length := fun _ _ _ _ _ => rfl

/-- The globals at program start: counters at 0, library not initialised. -/
def initial_globals : Globals Unit :=
  { ecc := (), fec_error_count := 0, fec_total_block_count := 0,
    fec_corrected_block_count := 0, oob_ecc_initialized := false }

/-- What the de-interleaving loop has done to the frame at `i` after `n` blocks: the
byte at `k` of the blocks done is the byte of the original buffer at
`k + 96 * ((k - i) mod 8)`. -/
def deinterleave_inv {σ : Type} (st0 : ChunkState σ) (i n : Nat) (s : ChunkState σ) : Prop :=
  s.data.length = st0.data.length ∧
    (∀ k, s.data.getD k 0 =
      if i ≤ k ∧ k < i + 96 * n then st0.data.getD (k + 96 * ((k - i) % 8)) 0
      else st0.data.getD k 0) ∧
    s.data_work.length = 384 ∧ s.fec_error = st0.fec_error ∧ s.ts_out = st0.ts_out ∧
    s.out_len = st0.out_len ∧ s.g = st0.g ∧ s.frames = st0.frames

/-- The variables of `oob_process_data_chunk` when its loop is entered (lines 273-280):
`*out_len = 0` and the library initialised on the first call with `do_fec`. -/
def start_state {σ : Type} (C : Codec σ) (g : Globals σ) (data : List Nat) (do_fec : Int) :
    ChunkState σ :=
  { data := data, data_work := List.replicate 384 0, fec_error := List.replicate 4 0,
    ts_out := [], out_len := 0,
    g := if do_fec ≠ 0 ∧ g.oob_ecc_initialized = false then
        { g with ecc := C.initialize_ecc g.ecc, oob_ecc_initialized := true }
      else g,
    frames := 0 }

/-- Lines 355-362: the result of `oob_process_data_chunk` when its loop is left with
counter `i` and variables `st`, the residual moved to the front of the buffer. -/
def finish {σ : Type} (len i : Int) (st : ChunkState σ) : Int × ChunkState σ :=
  if len - i > 0 then
    (len - i,
      { st with
        data := (st.data.drop i.toNat).take (len - i).toNat ++ st.data.drop (len - i).toNat })
  else (0, st)

/-- The state of the library and the block after the first `decode_data` of
`oob_de_fec` on the 96 bytes at `data_in`. -/
def fec_pass1 {σ : Type} (C : Codec σ) (g : Globals σ) (data_in : List Nat) : σ × List Nat :=
  C.decode_data g.ecc (data_in.take 96) 96

/-- The state of the library and the block after `correct_errors_erasures` with
`nerasures = 0` and the second `decode_data` of `oob_de_fec`. -/
def fec_pass2 {σ : Type} (C : Codec σ) (g : Globals σ) (data_in : List Nat) : σ × List Nat :=
  C.decode_data
    (C.correct_errors_erasures (fec_pass1 C g data_in).1 (fec_pass1 C g data_in).2 96 0 []).1
    (C.correct_errors_erasures (fec_pass1 C g data_in).1 (fec_pass1 C g data_in).2 96 0 []).2
    96

/-- The buffer after the de-interleaving loop (lines 303-307) on the frame at `i`:
byte `k` of the frame is the byte at `k + 96 * (k mod 8)` of the window. -/
def deint_frame (data : List Nat) (i : Nat) : List Nat :=
  data.take i ++
    ((List.range 384).map (fun k => data.getD (i + k + 96 * (k % 8)) 0) ++ (data.drop i).drop 384)

/-- The buffer after `oob_de_randomizer(data + i, 384, 0)`. -/
def derand_frame (data : List Nat) (i : Nat) : List Nat :=
  data.take i ++
    ((List.range 384).map (fun k => derand_byte k (data.getD (i + k) 0)) ++ (data.drop i).drop 384)

/-- The bytes stored through `ts_out` by the first `n` passes of the emission loop
(lines 343-348) for the frame at `i`. -/
def emit_blocks (data : List Nat) (i : Nat) : Nat → List Nat
  | 0 => []
  | n + 1 => emit_blocks data i n ++ (data.drop (i + 96 * n)).take 94

/-- The 376 bytes emitted for the frame at `i`. -/
def emit_frame (data : List Nat) (i : Nat) : List Nat := emit_blocks data i 4

/-- A sample input of 1152 bytes: one frame position with `0x47` at offset 0 and `0x64`
at offset 192, all other bytes 1, which is just enough lookahead for one frame. -/
def sample_aligned : List Nat :=
  [0x47] ++ List.replicate 191 1 ++ [0x64] ++ List.replicate 959 1

/-- Invariant used for the packets emitted without FEC: every packet emitted so far
starts with `0x47`; at most one frame fits when `len < 1536`; and a buffer that starts
with an anchor and holds 1152 bytes gets its first frame processed. -/
def sync_inv {σ : Type} (D : List Nat) (len : Int) (i : Int) (st : ChunkState σ) : Prop :=
  (∀ j : Nat, 188 * j < st.ts_out.length → st.ts_out.getD (188 * j) 0 = 0x47) ∧
    384 * (st.frames : Int) ≤ i ∧ (len < 1536 → st.frames ≤ 1) ∧
    (is_anchor D 0 0 → (i = 0 ∧ st.data = D) ∨ 1 ≤ st.frames)

/-- The call `oob_de_fec(data_in)` as a total function (its result on a block of at
least 96 bytes; it is not used on shorter ones). -/
def de_fec_total {σ : Type} (C : Codec σ) (g : Globals σ) (data_in : List Nat) :
    (Int × Globals σ) × List Nat :=
  (oob_de_fec C g data_in).getD ((0, g), data_in)

/-- Pass `n` of the loop at lines 315-316 on the globals, the buffer and `fec_error`. -/
def fec_stage {σ : Type} (C : Codec σ) (i : Nat) (acc : Globals σ × List Nat × List Int)
    (n : Nat) : Globals σ × List Nat × List Int :=
  ((de_fec_total C acc.1 (acc.2.1.drop (i + 96 * n))).1.2,
    acc.2.1.take (i + 96 * n) ++ (de_fec_total C acc.1 (acc.2.1.drop (i + 96 * n))).2,
    acc.2.2.set n (de_fec_total C acc.1 (acc.2.1.drop (i + 96 * n))).1.1)

/-- The globals, the buffer and `fec_error` after the four `oob_de_fec` calls on the
frame at `i`. -/
def fec_frame {σ : Type} (C : Codec σ) (i : Nat) (g : Globals σ) (data : List Nat)
    (fe : List Int) : Globals σ × List Nat × List Int :=
  (List.range 4).foldl (fec_stage C i) (g, data, fe)

/-- Pass `n` of the loop at lines 333-339 on the buffer. -/
def tei_stage (i : Nat) (fe : List Int) (data : List Nat) (n : Nat) : List Nat :=
  if fe.getD (n * 2) 0 < 0 ∨ fe.getD (n * 2 + 1) 0 < 0 then
    data.set (i + n * 192 + 1) ((data.getD (i + n * 192 + 1) 0 ||| 0x80) % 256)
  else data

/-- The buffer after the loop that sets the Transport Error Indicators. -/
def tei_frame (i : Nat) (fe : List Int) (data : List Nat) : List Nat :=
  (List.range 2).foldl (tei_stage i fe) data

/-- The globals, `fec_error` and the buffer after the loop body (lines 303-340) for the
frame at `i`, as a function of their values before it. -/
def frame_pure {σ : Type} (C : Codec σ) (do_fec : Int) (i : Nat) (g : Globals σ)
    (fe : List Int) (data : List Nat) : Globals σ × List Int × List Nat :=
  if do_fec ≠ 0 then
    ((fec_frame C i g (deint_frame data i) fe).1,
      (fec_frame C i g (deint_frame data i) fe).2.2,
      tei_frame i (fec_frame C i g (deint_frame data i) fe).2.2
        (derand_frame (fec_frame C i g (deint_frame data i) fe).2.1 i))
  else (g, fe, derand_frame (deint_frame data i) i)

/-- An instance of the library interface whose syndrome check always reports an error
and whose correction changes nothing: every block is uncorrectable. -/
def failing_codec : Codec Unit where
  initialize_ecc := fun s => s
  decode_data := fun s b _ => (s, b)
  check_syndrome := fun _ => 1
  correct_errors_erasures := fun s b _ _ _ => (s, b)
  decode_data_length := fun _ _ _ => rfl
  correct_length := fun _ _ _ _ _ => rfl

/-- The loop of `oob_process_data_chunk` entered with counter `i`, run with the number
of passes that is always enough from there. -/
def chunk_run {σ : Type} (C : Codec σ) (len do_fec : Int) (i : Int) (st : ChunkState σ) :
    Option (Int × ChunkState σ) :=
  chunk_loop_ideal C len do_fec ((len - i).toNat + 1) i st

/-- What the loop without FEC keeps: the globals are those at entry, the buffer is the
input from the counter on, and each block of 376 emitted bytes is the de-interleaved
and de-randomized payload of a frame of the input `D`. -/
def nofec_inv {σ : Type} (g : Globals σ) (D : List Nat) (len : Int) (i : Int)
    (st : ChunkState σ) : Prop :=
  st.g = g ∧ same_outside st.data D 0 i.toNat ∧
    ∀ f, f < st.frames → ∃ I : Nat, (I : Int) + 1152 ≤ len ∧
      (st.ts_out.drop (376 * f)).take 376 = emit_frame (derand_frame (deint_frame D I) I) I

/-- Modelled from the spec: the contract of the Reed-Solomon library `rscode-1.3`
(not part of the sources) with respect to an encoder that appends the two parity
bytes `parity p` to a 94-byte payload `p`. On such a codeword `decode_data` leaves the
block as it is and `check_syndrome` is then zero (section 4.D: `syndrome_is_zero`
tells whether the block is a valid codeword). -/
def rs_contract {σ : Type} (C : Codec σ) (parity : List Nat → List Nat) : Prop :=
  ∀ (s : σ) (p : List Nat), p.length = 94 →
    (parity p).length = 2 ∧ (C.decode_data s (p ++ parity p) 96).2 = p ++ parity p ∧
      C.check_syndrome (C.decode_data s (p ++ parity p) 96).1 = 0

/-- Modelled from the spec: block `n` of frame `f` of the reference encoder: the 94
payload bytes `S[376 f + 94 n ..]` randomized with the mask at frame positions
`96 n ..` (the two gap positions are left for parity), followed by their parity. -/
def ref_block (parity : List Nat → List Nat) (S : List Nat) (f n : Nat) : List Nat :=
  (List.range 94).map (fun j => derand_byte (96 * n + j) (S.getD (376 * f + 94 * n + j) 0)) ++
    parity ((List.range 94).map
      (fun j => derand_byte (96 * n + j) (S.getD (376 * f + 94 * n + j) 0)))

/-- Modelled from the spec: the randomized, RS-encoded stream of `N` frames before
interleaving: byte `q` is byte `q mod 96` of block `(q mod 384) / 96` of frame
`q / 384`. -/
def ref_frames (parity : List Nat → List Nat) (S : List Nat) (N : Nat) : List Nat :=
  (List.range (384 * N)).map
    (fun q => (ref_block parity S (q / 384) (q % 384 / 96)).getD (q % 96) 0)

/-- Modelled from the spec: the reference encoder (randomize with gaps, RS(96,94)
parity per 96-byte block, depth-8 convolutional interleave) of a stream `S` of `N`
pairs of TS packets. -/
def ref_encode (parity : List Nat → List Nat) (S : List Nat) (N : Nat) : List Nat :=
  ref_interleave (ref_frames parity S N)

/-- A payload of one pair of TS packets: each packet is the sync byte `0x47` followed by
187 zero bytes. -/
def sample_payload : List Nat :=
  [0x47] ++ List.replicate 187 0 ++ [0x47] ++ List.replicate 187 0

/-- A parity function for `null_codec`, which accepts every block: two zero bytes. -/
def sample_parity : List Nat → List Nat := fun _ => [0, 0]

/-- Invariant of the loop on a stream produced by the reference encoder: the frames
processed so far are the first ones, their payloads are what has been emitted, the
buffer is the encoded stream from the counter on, and no block was in error. -/
def roundtrip_inv {σ : Type} (g : Globals σ) (T S : List Nat) (N M : Nat) (i : Int)
    (st : ChunkState σ) : Prop :=
  st.frames ≤ M ∧ (st.frames < N → i = 384 * (st.frames : Int)) ∧
    (N ≤ st.frames → 384 * (N : Int) ≤ i) ∧
    st.ts_out = S.take (376 * st.frames) ∧ same_outside st.data T 0 i.toNat ∧
    st.g.fec_total_block_count = g.fec_total_block_count + 4 * (st.frames : Int) ∧
    st.g.fec_error_count = g.fec_error_count ∧
    st.g.fec_corrected_block_count = g.fec_corrected_block_count

/-- Number of frames the loop processes on the reference encoding of `N` frames followed
by `p < 480` more bytes: the guard of line 299 asks for 768 bytes after a frame, the
encoder supplies 672 after the last one. -/
def roundtrip_frames (N p : Nat) : Nat := if 96 ≤ p then N else N - 1

/-- The 384 bytes that the de-interleaving loop stores at the frame at `i`. -/
def deint_core (data : List Nat) (i : Nat) : List Nat :=
  (List.range 384).map (fun k => data.getD (i + k + 96 * (k % 8)) 0)

/-- The loop body after the de-interleaving (lines 309-340) as a function of the 384
de-interleaved bytes of the frame: globals, `fec_error` and the frame afterwards. -/
def frame_local {σ : Type} (C : Codec σ) (do_fec : Int) (g : Globals σ) (fe : List Int)
    (F : List Nat) : Globals σ × List Int × List Nat :=
  if do_fec ≠ 0 then
    ((fec_frame C 0 g F fe).1, (fec_frame C 0 g F fe).2.2,
      tei_frame 0 (fec_frame C 0 g F fe).2.2 (derand_frame (fec_frame C 0 g F fe).2.1 0))
  else (g, fe, derand_frame F 0)

/-- Invariant of the loop on a buffer `P` against the loop on the longer buffer
`P ++ Q`: the bytes from the counter on are still those of `P`, the library is
initialised when FEC is on, and the loop on `P ++ Q` reaches the same counter with the
same globals and the same emitted bytes, its buffer being the one of the short run
followed by `Q`. `W0` is the result of the loop on `P ++ Q`. -/
def ext_inv {σ : Type} (C : Codec σ) (lenW do_fec : Int) (P Q : List Nat)
    (W0 : Option (Int × ChunkState σ)) (i : Int) (st : ChunkState σ) : Prop :=
  st.data.length = P.length ∧ st.data.drop i.toNat = P.drop i.toNat ∧
    (do_fec ≠ 0 → st.g.oob_ecc_initialized = true) ∧
    ∃ sW : ChunkState σ, sW.data = st.data ++ Q ∧ sW.g = st.g ∧ sW.ts_out = st.ts_out ∧
      chunk_inv lenW sW ∧ W0 = chunk_run C lenW do_fec i sW

/-- Relation between the loop on a buffer and the loop on the same buffer without its
first `a` bytes, started with `T0` already emitted. -/
def shift_rel {σ : Type} (a : Nat) (T0 : List Nat) (s s' : ChunkState σ) : Prop :=
  s'.data = s.data.drop a ∧ s'.g = s.g ∧ s.ts_out = T0 ++ s'.ts_out

/-- Model of the loop of `main` (main.c, lines 121-146) from the globals `g`, with
`res` the `BytesRemaining` bytes at the front of `InData` and the list of the chunks that
the successive `fread` calls deliver: a read of less than one byte ends the program, the
call gets the residual followed by the chunk and the length `BytesRead + BytesRemaining`,
a negative result ends the loop, and the first `OutDataLen` bytes of `OutData` are
written when `OutDataLen > 0`. The result is all that was written and the globals at the
end. Only the first `BytesRead + BytesRemaining` bytes of `InData` are kept: the call
reads and writes no further (`call_beyond_len`). -/
def driver {σ : Type} (C : Codec σ) (do_fec : Int) :
    Globals σ → List Nat → List (List Nat) → Option (List Nat × Globals σ)
  | g, _, [] => some ([], g)
  | g, res, chunk :: rest =>
    if chunk.length < 1 then some ([], g)
    else
      match oob_process_data_chunk C g (res ++ chunk)
          ((chunk.length : Int) + (res.length : Int)) do_fec with
      | none => none
      | some (r, st) =>
        if r < 0 then some ([], st.g)
        else
          match driver C do_fec st.g (st.data.take r.toNat) rest with
          | none => none
          | some (out, g1) =>
            some ((if st.out_len > 0 then st.ts_out.take st.out_len.toNat else []) ++ out, g1)

/-- The globals with which the loop at lines 315-316 makes its call
`oob_de_fec(data + i + n*96)` for the frame at `i`: those left by the calls for the
blocks before `n`, starting from `g`; `data` is the buffer and `fe` is `fec_error` when
the loop is entered. -/
def fec_globals {σ : Type} (C : Codec σ) (i : Nat) (g : Globals σ) (data : List Nat)
    (fe : List Int) (n : Nat) : Globals σ :=
  ((List.range n).foldl (fec_stage C i) (g, data, fe)).1

/-- Two chunks of 1073741568 zero bytes each, 2147483136 bytes in all: each call of the
driver stays below the overflow, a single call on all the bytes does not. -/
def overflow_chunks : List (List Nat) :=
  [List.replicate 1073741568 0, List.replicate 1073741568 0]

/-! # Theorems -/

/-! ## Derandomizer -/

set_option maxRecDepth 10000 in
theorem rand_table_length : oob_rand_table.length = 384 := by decide

theorem rd_rand_table (j : Nat) (h : j < 384) :
    rd oob_rand_table j = some (oob_rand_table.getD j 0) := by
  have hl : j < oob_rand_table.length := by rw [rand_table_length]; exact h
  simp [rd, List.getD, List.getElem?_eq_getElem hl]

theorem de_randomizer_step_spec (d : List Nat) (i : Nat) (h : i < d.length) :
    ∃ out, de_randomizer_step d i = some out ∧ out.length = d.length ∧
      ∀ k, out.getD k 0 =
        if k = i ∧ is_gap (k % 384) = false then
          (d.getD k 0 ^^^ oob_rand_table.getD (k % 384) 0) % 256
        else d.getD k 0 := by
  unfold de_randomizer_step
  by_cases hg : is_gap (i % 384) = true
  · refine ⟨d, by simp [hg], rfl, ?_⟩
    intro k
    by_cases hk : k = i
    · subst hk; simp [hg]
    · simp [hk]
  · have hg2 : is_gap (i % 384) = false := by simpa using hg
    have hm : i % 384 < 384 := Nat.mod_lt _ (by decide)
    refine ⟨d.set i ((d.getD i 0 ^^^ oob_rand_table.getD (i % 384) 0) % 256), ?_, by simp, ?_⟩
    · simp [hg2, rd_rand_table _ hm, wr, h]
      simp [rd, List.getD, List.getElem?_eq_getElem h]
    · intro k
      by_cases hk : k = i
      · subst hk; simp [hg2, List.getD, h]
      · have : ¬ i = k := fun e => hk e.symm
        simp [hk, List.getD, List.getElem?_set, this]

theorem de_randomizer_fold (d : List Nat) (n : Nat) (h : n ≤ d.length) :
    ∃ out, (List.range n).foldlM de_randomizer_step d = some out ∧ out.length = d.length ∧
      ∀ k, out.getD k 0 = if k < n then derand_byte k (d.getD k 0) else d.getD k 0 := by
  induction n with
  | zero => exact ⟨d, by simp, rfl, by simp⟩
  | succ n ih =>
    obtain ⟨o1, h1, hl1, hv1⟩ := ih (by omega)
    obtain ⟨o2, h2, hl2, hv2⟩ := de_randomizer_step_spec o1 n (by omega)
    refine ⟨o2, ?_, by omega, ?_⟩
    · simp [List.range_succ, List.foldlM_append, h1, h2]
    · intro k
      rw [hv2 k, hv1 k]
      unfold derand_byte
      by_cases hk : k = n
      · subst hk; simp
      · by_cases hk2 : k < n
        · have : k < n + 1 := by omega
          simp [hk, hk2, this]
        · have : ¬ k < n + 1 := by omega
          simp [hk, hk2, this]

theorem oob_de_randomizer_spec (d : List Nat) (len p : Int) (h : len ≤ d.length) :
    ∃ out, oob_de_randomizer d len p = some (0, out) ∧ out.length = d.length ∧
      ∀ k, out.getD k 0 =
        if (k : Int) < len then derand_byte k (d.getD k 0) else d.getD k 0 := by
  obtain ⟨o, h1, hl, hv⟩ := de_randomizer_fold d len.toNat (by omega)
  refine ⟨o, by simp [oob_de_randomizer, h1], hl, ?_⟩
  intro k
  rw [hv k]
  by_cases hk : (k : Int) < len
  · have : k < len.toNat := by omega
    simp [hk, this]
  · have : ¬ k < len.toNat := by omega
    simp [hk, this]

theorem ext_getD {l1 l2 : List Nat} (hl : l1.length = l2.length)
    (h : ∀ k, l1.getD k 0 = l2.getD k 0) : l1 = l2 := by
  apply List.ext_getElem hl
  intro n h1 h2
  have := h n
  rwa [List.getD_eq_getElem _ _ h1, List.getD_eq_getElem _ _ h2] at this

set_option maxRecDepth 10000 in
theorem rand_table_bytes : ∀ b ∈ oob_rand_table, b < 256 := by decide

theorem derand_byte_gap (k b : Nat) (h : is_gap (k % 384) = true) : derand_byte k b = b := by
  simp [derand_byte, h]

theorem getD_lt_of_all (B : List Nat) (hb : ∀ b ∈ B, b < 256) (k : Nat) : B.getD k 0 < 256 := by
  by_cases hk : k < B.length
  · rw [List.getD_eq_getElem _ _ hk]; exact hb _ (List.getElem_mem hk)
  · simp [List.getD, List.getElem?_eq_none (Nat.le_of_not_lt hk)]

theorem rand_table_byte (j : Nat) : oob_rand_table.getD j 0 < 256 :=
  getD_lt_of_all _ rand_table_bytes j

theorem derand_byte_lt (k b : Nat) (hb : b < 256) : derand_byte k b < 256 := by
  unfold derand_byte
  split
  · exact Nat.mod_lt _ (by decide)
  · exact hb

theorem derand_byte_twice (k b : Nat) (hb : b < 256) :
    derand_byte k (derand_byte k b) = b := by
  unfold derand_byte
  by_cases hg : is_gap (k % 384) = false
  · have ht : oob_rand_table.getD (k % 384) 0 < 2 ^ 8 :=
      rand_table_byte _
    have hb2 : b < 2 ^ 8 := hb
    have hx : b ^^^ oob_rand_table.getD (k % 384) 0 < 256 := Nat.xor_lt_two_pow hb2 ht
    simp only [hg, if_true]
    rw [Nat.mod_eq_of_lt hx, Nat.xor_assoc, Nat.xor_self, Nat.xor_zero, Nat.mod_eq_of_lt hb]
  · simp [hg]

set_option maxRecDepth 10000 in
/-- Claim C1 (code evaluated at the failing input). On the one-byte buffer `[0x47]` with
`len = 1` and `frame_pos = 192` the function leaves the byte as it is (it XORs with
`oob_rand_table[0] = 0`), whereas `j = (frame_pos + 0) mod 384 = 192` is no gap position
and `0x47 XOR oob_rand_table[192]` is `0x64`. -/
theorem C1_de_randomizer_ignores_frame_pos :
    oob_de_randomizer [0x47] 1 192 = some (0, [0x47]) ∧
      is_gap ((192 + 0) % 384) = false ∧
      0x47 ^^^ oob_rand_table.getD ((192 + 0) % 384) 0 = 0x64 := by
  decide

/-- Claim C2. For every 384-byte buffer `B` and every `frame_pos`, two successive calls
`oob_de_randomizer(B, 384, frame_pos)` both succeed and give back `B`. -/
theorem C2_de_randomizer_twice (B : List Nat) (p : Int) (hlen : B.length = 384)
    (hb : ∀ b ∈ B, b < 256) :
    ∃ B1, oob_de_randomizer B 384 p = some (0, B1) ∧
      oob_de_randomizer B1 384 p = some (0, B) := by
  obtain ⟨B1, h1, hl1, hv1⟩ := oob_de_randomizer_spec B 384 p (by omega)
  obtain ⟨B2, h2, hl2, hv2⟩ := oob_de_randomizer_spec B1 384 p (by omega)
  refine ⟨B1, h1, ?_⟩
  have : B2 = B := by
    apply ext_getD (by omega)
    intro k
    rw [hv2 k, hv1 k]
    by_cases hk : (k : Int) < 384
    · simp only [hk, if_true]
      exact derand_byte_twice k _ (getD_lt_of_all B hb k)
    · simp [hk]
  rw [h2, this]

/-- Witness of claim C2 on the 384 bytes of the table itself, `frame_pos = 192`. -/
theorem C2_de_randomizer_twice_witness :
    oob_rand_table.length = 384 ∧ (∀ b ∈ oob_rand_table, b < 256) ∧
      ∃ B1, oob_de_randomizer oob_rand_table 384 192 = some (0, B1) ∧
        oob_de_randomizer B1 384 192 = some (0, oob_rand_table) :=
  ⟨rand_table_length, rand_table_bytes,
    C2_de_randomizer_twice oob_rand_table 192 rand_table_length rand_table_bytes⟩

/-- Claim C3. For every 384-byte buffer `B`, `oob_de_randomizer(B, 384, 0)` succeeds and
the bytes at 94, 95, 190, 191, 286, 287, 382 and 383 are the ones of `B`. -/
theorem C3_de_randomizer_gaps (B : List Nat) (hlen : B.length = 384) :
    ∃ B1, oob_de_randomizer B 384 0 = some (0, B1) ∧ B1.length = 384 ∧
      ∀ j ∈ [94, 95, 190, 191, 286, 287, 382, 383], B1[j]? = B[j]? := by
  obtain ⟨B1, h1, hl1, hv1⟩ := oob_de_randomizer_spec B 384 0 (by omega)
  refine ⟨B1, h1, by omega, ?_⟩
  intro j hj
  have hj2 : j < 384 ∧ is_gap (j % 384) = true := by
    simp only [List.mem_cons, List.mem_singleton, List.not_mem_nil, or_false] at hj
    rcases hj with h | h | h | h | h | h | h | h <;> subst h <;> decide
  have hv := hv1 j
  have hjl : (j : Int) < 384 := by omega
  rw [if_pos hjl, derand_byte_gap _ _ hj2.2] at hv
  have hB1 : j < B1.length := by omega
  have hB : j < B.length := by omega
  rw [List.getD_eq_getElem _ _ hB1, List.getD_eq_getElem _ _ hB] at hv
  rw [List.getElem?_eq_getElem hB1, List.getElem?_eq_getElem hB, hv]

/-- Witness of claim C3 on the 384 bytes of the table. -/
theorem C3_de_randomizer_gaps_witness :
    oob_rand_table.length = 384 ∧
      ∃ B1, oob_de_randomizer oob_rand_table 384 0 = some (0, B1) ∧ B1.length = 384 ∧
        ∀ j ∈ [94, 95, 190, 191, 286, 287, 382, 383], B1[j]? = oob_rand_table[j]? :=
  ⟨rand_table_length, C3_de_randomizer_gaps oob_rand_table rand_table_length⟩

theorem lfsr_bytes_succ (n : Nat) :
    lfsr_bytes (n + 1) =
      ((lfsr_byte (lfsr_bytes n).1).1, (lfsr_bytes n).2 ++ [(lfsr_byte (lfsr_bytes n).1).2]) := by
  simp [lfsr_bytes, List.range_succ, List.foldl_append]

theorem lfsr_bytes_length (n : Nat) : (lfsr_bytes n).2.length = n := by
  induction n with
  | zero => rfl
  | succ n ih => rw [lfsr_bytes_succ]; simp [ih]

theorem calc_rand_table_fold (table : List Nat) (n : Nat) (h : n ≤ table.length) :
    (List.range n).foldlM calc_rand_table_step (0x0201, table) =
      some ((lfsr_bytes n).1, (lfsr_bytes n).2 ++ table.drop n) := by
  induction n with
  | zero => simp [lfsr_bytes]
  | succ n ih =>
    have hn : n < table.length := by omega
    rw [List.range_succ, List.foldlM_append, ih (by omega)]
    have hlen := lfsr_bytes_length n
    have hset : ((lfsr_bytes n).2 ++ table.drop n).set n (lfsr_byte (lfsr_bytes n).1).2 =
        (lfsr_bytes (n + 1)).2 ++ table.drop (n + 1) := by
      rw [List.set_append_right _ _ (by omega), hlen, Nat.sub_self, lfsr_bytes_succ]
      rw [List.drop_eq_getElem_cons hn]
      simp only [List.set_cons_zero, List.append_assoc, List.singleton_append]
    simp [calc_rand_table_step, wr, hlen, hn, hset, lfsr_bytes_succ]

set_option maxRecDepth 100000 in
theorem lfsr_bytes_eq_table : (lfsr_bytes 384).2 = oob_rand_table := by decide

/-- Claim C4. Run on any buffer of at least 384 bytes, `oob_calc_rand_table` succeeds and
leaves in `table[0..384)` exactly the constant `oob_rand_table`, byte for byte (the
bytes behind index 383 are not touched). -/
theorem C4_calc_rand_table (table : List Nat) (h : 384 ≤ table.length) :
    oob_calc_rand_table table = some (oob_rand_table ++ table.drop 384) := by
  simp [oob_calc_rand_table, calc_rand_table_fold table 384 h, lfsr_bytes_eq_table]

set_option maxRecDepth 100000 in
/-- Witness of claim C4 on a zeroed 384-byte buffer. -/
theorem C4_calc_rand_table_witness :
    384 ≤ (List.replicate 384 0).length ∧
      oob_calc_rand_table (List.replicate 384 0) =
        some (oob_rand_table ++ (List.replicate 384 0).drop 384) :=
  ⟨by decide, C4_calc_rand_table (List.replicate 384 0) (by decide)⟩

theorem getD_set_nat (l : List Nat) (i k v : Nat) (h : i < l.length) :
    (l.set i v).getD k 0 = if k = i then v else l.getD k 0 := by
  by_cases hk : k = i
  · subst hk; simp [List.getD, h]
  · have : ¬ i = k := fun e => hk e.symm
    simp [hk, List.getD, List.getElem?_set, this]

theorem de_interleaver_step_spec (din out : List Nat) (i n : Nat)
    (h1 : n * 8 + i + i * 96 < din.length) (h2 : n * 8 + i < out.length) :
    de_interleaver_step din i out n =
      some (out.set (n * 8 + i) (din.getD (n * 8 + i + i * 96) 0)) := by
  simp [de_interleaver_step, rd, wr, h2, List.getElem?_eq_getElem h1, List.getD]

theorem de_interleaver_lane (din out : List Nat) (i : Nat) (hi : i < 8)
    (hin : 768 ≤ din.length) (hout : 96 ≤ out.length) (m : Nat) (hm : m ≤ 12) :
    ∃ o, (List.range m).foldlM (de_interleaver_step din i) out = some o ∧
      o.length = out.length ∧
      ∀ k, o.getD k 0 =
        if k % 8 = i ∧ k / 8 < m then din.getD (k + 96 * (k % 8)) 0 else out.getD k 0 := by
  induction m with
  | zero => exact ⟨out, by simp, rfl, by simp⟩
  | succ m ih =>
    obtain ⟨o1, h1, hl1, hv1⟩ := ih (by omega)
    refine ⟨o1.set (m * 8 + i) (din.getD (m * 8 + i + i * 96) 0), ?_, by simp [hl1], ?_⟩
    · rw [List.range_succ, List.foldlM_append, h1]
      simp [de_interleaver_step_spec din o1 i m (by omega) (by omega)]
    · intro k
      rw [getD_set_nat _ _ _ _ (by omega), hv1 k]
      by_cases hk : k = m * 8 + i
      · have e1 : k % 8 = i := by omega
        have e2 : k / 8 < m + 1 := by omega
        have e3 : k + 96 * (k % 8) = m * 8 + i + i * 96 := by omega
        rw [if_pos hk, if_pos ⟨e1, e2⟩, e3]
      · rw [if_neg hk]
        by_cases hc : k % 8 = i ∧ k / 8 < m
        · rw [if_pos hc, if_pos ⟨hc.1, by omega⟩]
        · rw [if_neg hc, if_neg (by omega)]

theorem de_interleaver_lanes (din out : List Nat)
    (hin : 768 ≤ din.length) (hout : 96 ≤ out.length) (j : Nat) (hj : j ≤ 8) :
    ∃ o, (List.range j).foldlM
        (fun out i => (List.range 12).foldlM (de_interleaver_step din i) out) out = some o ∧
      o.length = out.length ∧
      ∀ k, o.getD k 0 =
        if k < 96 ∧ k % 8 < j then din.getD (k + 96 * (k % 8)) 0 else out.getD k 0 := by
  induction j with
  | zero => exact ⟨out, by simp, rfl, by simp⟩
  | succ j ih =>
    obtain ⟨o1, h1, hl1, hv1⟩ := ih (by omega)
    obtain ⟨o2, h2, hl2, hv2⟩ :=
      de_interleaver_lane din o1 j (by omega) hin (by omega) 12 (by omega)
    refine ⟨o2, ?_, by omega, ?_⟩
    · have hr : List.range (j + 1) = List.range j ++ [j] := List.range_succ j
      rw [hr, List.foldlM_append, h1]
      simp [h2]
    · intro k
      rw [hv2 k, hv1 k]
      by_cases hc : k % 8 = j ∧ k / 8 < 12
      · rw [if_pos hc, if_pos (by omega)]
      · rw [if_neg hc]
        by_cases hd : k < 96 ∧ k % 8 < j
        · rw [if_pos hd, if_pos (by omega)]
        · rw [if_neg hd, if_neg (by omega)]

theorem deinterleaved_length (din : List Nat) : (deinterleaved din).length = 96 := by
  simp [deinterleaved]

theorem deinterleaved_getD (din : List Nat) (k : Nat) (hk : k < 96) :
    (deinterleaved din).getD k 0 = din.getD (k + 96 * (k % 8)) 0 := by
  have h : k < (deinterleaved din).length := by rw [deinterleaved_length]; exact hk
  rw [List.getD_eq_getElem _ _ h]
  simp [deinterleaved]

theorem getD_append_drop (a l : List Nat) (n k : Nat) (ha : a.length = n) :
    (a ++ l.drop n).getD k 0 = if k < n then a.getD k 0 else l.getD k 0 := by
  by_cases hk : k < n
  · rw [if_pos hk, List.getD_append _ _ _ _ (by omega)]
  · rw [if_neg hk, List.getD_append_right _ _ _ _ (by omega)]
    simp only [List.getD_eq_getElem?_getD, List.getElem?_drop, ha]
    congr 2
    omega

theorem oob_de_interleaver_spec (din out : List Nat)
    (hin : 768 ≤ din.length) (hout : 96 ≤ out.length) :
    oob_de_interleaver din out = some (0, deinterleaved din ++ out.drop 96) := by
  obtain ⟨o, h1, hl, hv⟩ := de_interleaver_lanes din out hin hout 8 (by omega)
  have : o = deinterleaved din ++ out.drop 96 := by
    apply ext_getD
    · simp [deinterleaved_length, hl]; omega
    · intro k
      rw [hv k, getD_append_drop _ _ 96 k (deinterleaved_length din)]
      by_cases hk : k < 96
      · rw [if_pos ⟨hk, by omega⟩, if_pos hk, deinterleaved_getD _ _ hk]
      · rw [if_neg (by omega), if_neg hk]
  simp [oob_de_interleaver, h1, this]

theorem getD_take_drop (l : List Nat) (a n k : Nat) (hk : k < n) :
    ((l.drop a).take n).getD k 0 = l.getD (a + k) 0 := by
  simp [List.getD, List.getElem?_take, hk, List.getElem?_drop]

theorem deinterleaved_congr (d1 d2 : List Nat) (h : d1.take 768 = d2.take 768) :
    deinterleaved d1 = deinterleaved d2 := by
  unfold deinterleaved
  apply List.map_congr_left
  intro p hp
  have hp2 : p < 96 := List.mem_range.mp hp
  have hlt : p + 96 * (p % 8) < 768 := by omega
  have e1 := getD_take_drop d1 0 768 _ hlt
  have e2 := getD_take_drop d2 0 768 _ hlt
  simp only [List.drop_zero, Nat.zero_add] at e1 e2
  rw [← e1, ← e2, h]

/-- Claim C5. For an input window of at least 768 bytes (and an output block of at least
96), `oob_de_interleaver` succeeds, returns 0 and sets `out[8n + i] = in[8n + i + 96i]`
for every lane `i < 8` and column `n < 12`; equivalently `out[p] = in[p + 96 (p mod 8)]`
for each `p < 96`, each `p` being the target `8n + i` of exactly one pair `(i, n)`;
the rest of `out` is untouched, and the result only depends on the first 768 input
bytes (any input with the same first 768 bytes gives the same result). -/
theorem C5_de_interleaver (din out : List Nat) (hin : 768 ≤ din.length)
    (hout : 96 ≤ out.length) :
    ∃ o, oob_de_interleaver din out = some (0, o) ∧ o.length = out.length ∧
      (∀ i < 8, ∀ n < 12, o[8 * n + i]? = din[8 * n + i + 96 * i]?) ∧
      (∀ p < 96, o[p]? = din[p + 96 * (p % 8)]?) ∧
      (∀ p < 96, ∃! q : Nat × Nat, q.1 < 8 ∧ q.2 < 12 ∧ 8 * q.2 + q.1 = p) ∧
      (∀ p, 96 ≤ p → o[p]? = out[p]?) ∧
      (∀ din2 : List Nat, din2.take 768 = din.take 768 →
        oob_de_interleaver din2 out = some (0, o)) := by
  have hlen : (deinterleaved din ++ out.drop 96).length = out.length := by
    simp [deinterleaved_length]; omega
  have hp : ∀ p < 96, (deinterleaved din ++ out.drop 96)[p]? = din[p + 96 * (p % 8)]? := by
    intro p hp
    have h1 : p < (deinterleaved din ++ out.drop 96).length := by omega
    have h2 : p + 96 * (p % 8) < din.length := by omega
    have e := getD_append_drop (deinterleaved din) out 96 p (deinterleaved_length din)
    rw [if_pos hp, deinterleaved_getD _ _ hp, List.getD_eq_getElem _ _ h1,
      List.getD_eq_getElem _ _ h2] at e
    rw [List.getElem?_eq_getElem h1, List.getElem?_eq_getElem h2, e]
  refine ⟨_, oob_de_interleaver_spec din out hin hout, hlen, ?_, hp, ?_, ?_, ?_⟩
  · intro i hi n hn
    have e : 8 * n + i + 96 * i = (8 * n + i) + 96 * ((8 * n + i) % 8) := by omega
    rw [e]
    exact hp _ (by omega)
  · intro p hp
    refine ⟨(p % 8, p / 8), ⟨by simp; omega, by simp; omega, by simp; omega⟩, ?_⟩
    rintro ⟨a, b⟩ ⟨h1, h2, h3⟩
    simp only at h1 h2 h3
    have ha : a = p % 8 := by omega
    have hb : b = p / 8 := by omega
    rw [ha, hb]
  · intro p hp
    rw [List.getElem?_append_right (by rw [deinterleaved_length]; exact hp),
      deinterleaved_length, List.getElem?_drop]
    congr 1
    omega
  · intro din2 h2
    have hl2 : 768 ≤ din2.length := by
      have := congrArg List.length h2
      simp only [List.length_take] at this
      omega
    rw [oob_de_interleaver_spec din2 out hl2 hout, deinterleaved_congr _ _ h2]

/-- Witness of claim C5: a 768-byte window of zeros and a 96-byte output block. -/
theorem C5_de_interleaver_witness :
    768 ≤ (List.replicate 768 0).length ∧ 96 ≤ (List.replicate 96 7).length ∧
    ∃ o, oob_de_interleaver (List.replicate 768 0) (List.replicate 96 7) = some (0, o) ∧
      o.length = (List.replicate 96 7).length ∧
      (∀ i < 8, ∀ n < 12, o[8 * n + i]? = (List.replicate 768 0)[8 * n + i + 96 * i]?) ∧
      (∀ p < 96, o[p]? = (List.replicate 768 0)[p + 96 * (p % 8)]?) ∧
      (∀ p < 96, ∃! q : Nat × Nat, q.1 < 8 ∧ q.2 < 12 ∧ 8 * q.2 + q.1 = p) ∧
      (∀ p, 96 ≤ p → o[p]? = (List.replicate 96 7)[p]?) ∧
      (∀ din2 : List Nat, din2.take 768 = (List.replicate 768 0).take 768 →
        oob_de_interleaver din2 (List.replicate 96 7) = some (0, o)) :=
  ⟨(List.length_replicate 768 0).ge, (List.length_replicate 96 7).ge,
    C5_de_interleaver _ _ (List.length_replicate 768 0).ge (List.length_replicate 96 7).ge⟩

theorem ref_interleave_length (S : List Nat) : (ref_interleave S).length = S.length + 672 := by
  simp [ref_interleave]

theorem ref_interleave_getD (S : List Nat) (q : Nat) (hq : q < S.length + 672) :
    (ref_interleave S).getD q 0 =
      if 96 * (q % 8) ≤ q then S.getD (q - 96 * (q % 8)) 0 else 0 := by
  have h : q < (ref_interleave S).length := by rw [ref_interleave_length]; exact hq
  rw [List.getD_eq_getElem _ _ h]
  simp [ref_interleave]

theorem deinterleaved_ref_interleave (S : List Nat) (n : Nat) (h : 96 * (n + 1) ≤ S.length) :
    deinterleaved (((ref_interleave S).drop (96 * n)).take 768) = (S.drop (96 * n)).take 96 := by
  apply ext_getD
  · simp [deinterleaved_length]; omega
  · intro k
    by_cases hk : k < 96
    · rw [deinterleaved_getD _ _ hk, getD_take_drop _ _ _ _ (by omega),
        ref_interleave_getD _ _ (by omega), getD_take_drop _ _ _ _ hk]
      have e1 : (96 * n + (k + 96 * (k % 8))) % 8 = k % 8 := by omega
      rw [e1, if_pos (by omega)]
      congr 1
      omega
    · have h1 : (deinterleaved (((ref_interleave S).drop (96 * n)).take 768)).length ≤ k := by
        rw [deinterleaved_length]; omega
      have h2 : ((S.drop (96 * n)).take 96).length ≤ k := by
        simp only [List.length_take]; omega
      simp [List.getD, List.getElem?_eq_none h1, List.getElem?_eq_none h2]

theorem rdZ_some (data : List Nat) (z : Int) (h0 : 0 ≤ z) (h1 : z < data.length) :
    rdZ data z = some (data.getD z.toNat 0) := by
  have h : z.toNat < data.length := by omega
  simp [rdZ, h0, List.getD, List.getElem?_eq_getElem h]

theorem synchronize_loop_spec (data : List Nat) (start_ofs len : Int)
    (hs : 0 ≤ start_ofs) (hl : len ≤ data.length) :
    ∀ (fuel : Nat) (i : Int), 0 ≤ i → (len - start_ofs - 383 - i).toNat + 1 ≤ fuel →
      ∃ k, synchronize_loop data start_ofs len fuel i = some k ∧ i ≤ k ∧
        (∀ j, i ≤ j → j < k → ¬ is_anchor data start_ofs j) ∧
        ((start_ofs + k + 384 ≤ len ∧ is_anchor data start_ofs k) ∨
          (¬ (start_ofs + k + 384 ≤ len) ∧ (k = i ∨ k = len - start_ofs - 383))) := by
  intro fuel
  induction fuel with
  | zero => intro i _ hf; omega
  | succ fuel ih =>
    intro i hi hf
    unfold synchronize_loop
    by_cases hc : i + start_ofs + 384 ≤ len
    · rw [if_pos hc]
      have hr1 := rdZ_some data (start_ofs + i) (by omega) (by omega)
      have hr2 := rdZ_some data (start_ofs + i + 192) (by omega) (by omega)
      have hnext : ¬ is_anchor data start_ofs i →
          ∃ k, synchronize_loop data start_ofs len fuel (i + 1) = some k ∧ i ≤ k ∧
            (∀ j, i ≤ j → j < k → ¬ is_anchor data start_ofs j) ∧
            ((start_ofs + k + 384 ≤ len ∧ is_anchor data start_ofs k) ∨
              (¬ (start_ofs + k + 384 ≤ len) ∧ (k = i ∨ k = len - start_ofs - 383))) := by
        intro hna
        obtain ⟨k, h1, h2, h3, h4⟩ := ih (i + 1) (by omega) (by omega)
        refine ⟨k, h1, by omega, ?_, ?_⟩
        · intro j hj1 hj2
          by_cases hji : j = i
          · rw [hji]; exact hna
          · exact h3 j (by omega) hj2
        · rcases h4 with h4 | ⟨h4, h5⟩
          · exact Or.inl h4
          · refine Or.inr ⟨h4, Or.inr ?_⟩
            rcases h5 with h5 | h5
            · omega
            · exact h5
      rw [hr1]
      simp only
      by_cases ha : data.getD (start_ofs + i).toNat 0 = 0x47
      · rw [if_pos ha, hr2]
        simp only
        by_cases hb : data.getD (start_ofs + i + 192).toNat 0 = 0x64
        · rw [if_pos hb]
          refine ⟨i, rfl, le_refl _, ?_, Or.inl ⟨by omega, ?_⟩⟩
          · intro j h1 h2; omega
          · exact ⟨by rw [hr1, ha], by rw [hr2, hb]⟩
        · rw [if_neg hb]
          apply hnext
          rintro ⟨_, h2⟩
          rw [hr2] at h2
          exact hb (Option.some.inj h2)
      · rw [if_neg ha]
        apply hnext
        rintro ⟨h1, _⟩
        rw [hr1] at h1
        exact ha (Option.some.inj h1)
    · rw [if_neg hc]
      refine ⟨i, rfl, le_refl _, ?_, Or.inr ⟨by omega, Or.inl rfl⟩⟩
      intro j h1 h2; omega

theorem oob_synchronize_bitstream_spec (data : List Nat) (start_ofs len : Int)
    (hs : 0 ≤ start_ofs) (hl : len ≤ data.length) :
    ∃ k, oob_synchronize_bitstream data start_ofs len = some k ∧ 0 ≤ k ∧
      (∀ j, 0 ≤ j → j < k → ¬ is_anchor data start_ofs j) ∧
      ((start_ofs + k + 384 ≤ len ∧ is_anchor data start_ofs k) ∨
        (¬ (start_ofs + k + 384 ≤ len) ∧ (k = 0 ∨ k = len - start_ofs - 383))) :=
  synchronize_loop_spec data start_ofs len hs hl _ 0 (le_refl _) (by omega)

/-- Claim C7. For a buffer holding `len` bytes and `start_ofs ≥ 0`: if some `k ≥ 0` has
`start_ofs + k + 384 ≤ len`, `data[start_ofs + k] == 0x47` and
`data[start_ofs + k + 192] == 0x64`, then `oob_synchronize_bitstream` returns such a
`k`, and it is the smallest one. -/
theorem C7_synchronize_smallest (data : List Nat) (start_ofs len : Int)
    (hs : 0 ≤ start_ofs) (hl : len ≤ data.length)
    (hex : ∃ k, 0 ≤ k ∧ start_ofs + k + 384 ≤ len ∧ is_anchor data start_ofs k) :
    ∃ k, oob_synchronize_bitstream data start_ofs len = some k ∧
      0 ≤ k ∧ start_ofs + k + 384 ≤ len ∧ is_anchor data start_ofs k ∧
      ∀ j, 0 ≤ j → start_ofs + j + 384 ≤ len → is_anchor data start_ofs j → k ≤ j := by
  obtain ⟨k, h1, h2, h3, h4⟩ := oob_synchronize_bitstream_spec data start_ofs len hs hl
  obtain ⟨k0, hk0, hk1, hk2⟩ := hex
  have hmin : ∀ j, 0 ≤ j → start_ofs + j + 384 ≤ len → is_anchor data start_ofs j → k ≤ j := by
    intro j hj0 _ hja
    by_contra hlt
    exact h3 j hj0 (by omega) hja
  rcases h4 with ⟨h5, h6⟩ | ⟨h5, _⟩
  · exact ⟨k, h1, h2, h5, h6, hmin⟩
  · exfalso
    have := hmin k0 hk0 hk1 hk2
    omega

set_option maxRecDepth 100000 in
/-- Witness of claim C7 on `sample_unaligned`, whose anchor is at `k = 17`. -/
theorem C7_synchronize_smallest_witness :
    (0 : Int) ≤ 0 ∧ (401 : Int) ≤ sample_unaligned.length ∧
    (∃ k, 0 ≤ k ∧ 0 + k + 384 ≤ 401 ∧ is_anchor sample_unaligned 0 k) ∧
    ∃ k, oob_synchronize_bitstream sample_unaligned 0 401 = some k ∧
      0 ≤ k ∧ 0 + k + 384 ≤ 401 ∧ is_anchor sample_unaligned 0 k ∧
      ∀ j, 0 ≤ j → 0 + j + 384 ≤ 401 → is_anchor sample_unaligned 0 j → k ≤ j :=
  ⟨by decide, by decide, ⟨17, by decide, by decide, by decide, by decide⟩,
    C7_synchronize_smallest sample_unaligned 0 401 (by decide) (by decide)
      ⟨17, by decide, by decide, by decide, by decide⟩⟩

theorem no_anchor_zeros (n : Nat) (s k : Int) : ¬ is_anchor (List.replicate n 0) s k := by
  rintro ⟨h, _⟩
  unfold rdZ at h
  split at h
  · rw [List.getElem?_replicate] at h
    split at h
    · exact absurd (Option.some.inj h) (by decide)
    · exact absurd h (by simp)
  · exact absurd h (by simp)

theorem same_outside_refl (a : List Nat) (lo hi : Nat) : same_outside a a lo hi :=
  ⟨rfl, fun _ _ => rfl⟩

theorem same_outside_trans {a b c : List Nat} {lo hi lo2 hi2 lo3 hi3 : Nat}
    (h1 : same_outside a b lo hi) (h2 : same_outside b c lo2 hi2)
    (hlo1 : lo3 ≤ lo) (hlo2 : lo3 ≤ lo2) (hhi1 : hi ≤ hi3) (hhi2 : hi2 ≤ hi3) :
    same_outside a c lo3 hi3 :=
  ⟨h1.1.trans h2.1, fun k hk =>
    (h1.2 k (by omega)).trans (h2.2 k (by omega))⟩

theorem foldlM_range_inv {α : Type} (f : α → Nat → Option α) (P : Nat → α → Prop)
    (m : Nat) (a : α) (h0 : P 0 a)
    (hstep : ∀ n, n < m → ∀ s, P n s → ∃ s1, f s n = some s1 ∧ P (n + 1) s1) :
    ∃ s1, (List.range m).foldlM f a = some s1 ∧ P m s1 := by
  induction m with
  | zero => exact ⟨a, by simp, h0⟩
  | succ m ih =>
    obtain ⟨s1, h1, hp1⟩ := ih (fun n hn s hs => hstep n (by omega) s hs)
    obtain ⟨s2, h2, hp2⟩ := hstep m (by omega) s1 hp1
    refine ⟨s2, ?_, hp2⟩
    have hr : List.range (m + 1) = List.range m ++ [m] := List.range_succ m
    rw [hr, List.foldlM_append, h1]
    simp [h2]

theorem ptrAt_nat (buf : List Nat) (n : Nat) (z : Int) (hz : z = n) (h : n ≤ buf.length) :
    ptrAt buf z = some (buf.drop n) := by
  subst hz
  have : (0 : Int) ≤ n ∧ (n : Int) ≤ buf.length := ⟨by omega, by omega⟩
  simp [ptrAt, this]

theorem withPtr_nat {α : Type} (buf : List Nat) (n : Nat) (z : Int) (hz : z = n)
    (h : n ≤ buf.length) (f : List Nat → Option (α × List Nat)) (a : α) (s : List Nat)
    (hf : f (buf.drop n) = some (a, s)) :
    withPtr buf z f = some (a, buf.take n ++ s) := by
  subst hz
  have : (0 : Int) ≤ n ∧ (n : Int) ≤ buf.length := ⟨by omega, by omega⟩
  simp [withPtr, this, hf]

/-- Splicing a block `blk` over `buf[n .. n + blk.length)`. -/
theorem splice_same_outside (buf blk : List Nat) (n m : Nat) (hb : blk.length = m)
    (h : n + m ≤ buf.length) :
    same_outside (buf.take n ++ (blk ++ (buf.drop n).drop m)) buf n (n + m) := by
  constructor
  · simp [hb]; omega
  · intro k hk
    simp only [List.getD_eq_getElem?_getD]
    congr 1
    rcases hk with hk | hk
    · rw [List.getElem?_append_left (by simp; omega), List.getElem?_take_of_lt hk]
    · rw [List.getElem?_append_right (by simp; omega),
        List.getElem?_append_right (by simp; omega)]
      simp only [List.length_take, List.getElem?_drop, hb]
      congr 1
      omega

theorem memcpy_spec (dst src : List Nat) (n : Nat) (hs : n ≤ src.length) (hd : n ≤ dst.length) :
    memcpy dst src n = some (src.take n ++ dst.drop n) := by
  have : (0 : Int) ≤ n ∧ (n : Int) ≤ src.length ∧ (n : Int) ≤ dst.length :=
    ⟨by omega, by omega, by omega⟩
  simp [memcpy, this]

theorem deinterleave_block_spec {σ : Type} (i n : Nat) (st : ChunkState σ) (hn : n < 4)
    (hd : i + 96 * n + 768 ≤ st.data.length) (hw : st.data_work.length = 384) :
    deinterleave_block (i : Int) st n = some { st with
      data := st.data.take (i + 96 * n) ++
        (deinterleaved (st.data.drop (i + 96 * n)) ++ (st.data.drop (i + 96 * n)).drop 96),
      data_work := st.data_work.take (96 * n) ++
        (deinterleaved (st.data.drop (i + 96 * n)) ++ (st.data_work.drop (96 * n)).drop 96) } := by
  have h1 : ptrAt st.data ((i : Int) + (n : Int) * 96) = some (st.data.drop (i + 96 * n)) :=
    ptrAt_nat _ _ _ (by push_cast; ring) (by omega)
  have hsrc : 768 ≤ (st.data.drop (i + 96 * n)).length := by
    simp only [List.length_drop]; omega
  have hwk : 96 ≤ (st.data_work.drop (96 * n)).length := by
    simp only [List.length_drop]; omega
  have h2 := withPtr_nat st.data_work (96 * n) ((n : Int) * 96) (by push_cast; ring) (by omega)
    (oob_de_interleaver (st.data.drop (i + 96 * n))) 0 _
    (oob_de_interleaver_spec _ _ hsrc hwk)
  have hlt : (st.data_work.take (96 * n)).length = 96 * n := by
    simp only [List.length_take]; omega
  have h3 : ptrAt (st.data_work.take (96 * n) ++
      (deinterleaved (st.data.drop (i + 96 * n)) ++ (st.data_work.drop (96 * n)).drop 96))
      ((n : Int) * 96) =
      some (deinterleaved (st.data.drop (i + 96 * n)) ++ (st.data_work.drop (96 * n)).drop 96) := by
    rw [ptrAt_nat _ (96 * n) _ (by push_cast; ring) (by simp; omega)]
    rw [List.drop_left' hlt]
  have h4 : memcpy (st.data.drop (i + 96 * n))
      (deinterleaved (st.data.drop (i + 96 * n)) ++ (st.data_work.drop (96 * n)).drop 96)
      96 = some (deinterleaved (st.data.drop (i + 96 * n)) ++
        (st.data.drop (i + 96 * n)).drop 96) := by
    have := memcpy_spec (st.data.drop (i + 96 * n))
      (deinterleaved (st.data.drop (i + 96 * n)) ++ (st.data_work.drop (96 * n)).drop 96) 96
      (by simp [deinterleaved_length]) (by omega)
    rw [List.take_left' (deinterleaved_length _)] at this
    exact this
  have h5 := withPtr_nat st.data (i + 96 * n) ((i : Int) + (n : Int) * 96)
    (by push_cast; ring) (by omega)
    (fun dst => (memcpy dst (deinterleaved (st.data.drop (i + 96 * n)) ++
      (st.data_work.drop (96 * n)).drop 96) 96).map (fun d => ((), d))) () _
    (by simp only []; rw [h4]; rfl)
  unfold deinterleave_block
  rw [h1]
  simp only []
  rw [h2]
  simp only []
  rw [h3]
  simp only []
  rw [h5]

theorem deinterleave_block_inv {σ : Type} (i n : Nat) (st0 s : ChunkState σ) (hn : n < 4)
    (hd : i + 1152 ≤ st0.data.length) (hs : frame_inv st0 i s) :
    ∃ s1, deinterleave_block (i : Int) s n = some s1 ∧ frame_inv st0 i s1 := by
  obtain ⟨⟨hl, hv⟩, hw, hf, ht, ho, hfr⟩ := hs
  refine ⟨_, deinterleave_block_spec i n s hn (by omega) hw, ?_, ?_, hf, ht, ho, hfr⟩
  · have hsp := splice_same_outside s.data (deinterleaved (s.data.drop (i + 96 * n)))
      (i + 96 * n) 96 (deinterleaved_length _) (by omega)
    exact same_outside_trans hsp ⟨hl, hv⟩ (by omega) (le_refl _) (by omega) (le_refl _)
  · simp [deinterleaved_length]; omega

theorem oob_de_fec_spec {σ : Type} (C : Codec σ) (g : Globals σ) (d : List Nat)
    (h : 96 ≤ d.length) :
    ∃ r g1 blk, oob_de_fec C g d = some ((r, g1), blk ++ d.drop 96) ∧ blk.length = 96 := by
  have hlen : (d.take 96).length = 96 := by simp only [List.length_take]; omega
  unfold oob_de_fec
  rw [if_pos h]
  simp only []
  split
  · split
    · exact ⟨_, _, _, rfl, by rw [C.decode_data_length, C.correct_length, C.decode_data_length, hlen]⟩
    · exact ⟨_, _, _, rfl, by rw [C.decode_data_length, C.correct_length, C.decode_data_length, hlen]⟩
  · exact ⟨_, _, _, rfl, by rw [C.decode_data_length, hlen]⟩

theorem fec_block_inv {σ : Type} (C : Codec σ) (i n : Nat) (st0 s : ChunkState σ) (hn : n < 4)
    (hd : i + 1152 ≤ st0.data.length) (hs : frame_inv st0 i s) :
    ∃ s1, fec_block C (i : Int) s n = some s1 ∧ frame_inv st0 i s1 := by
  obtain ⟨⟨hl, hv⟩, hw, hf, ht, ho, hfr⟩ := hs
  obtain ⟨r, g1, blk, h1, hb⟩ := oob_de_fec_spec C s.g (s.data.drop (i + 96 * n))
    (by simp only [List.length_drop]; omega)
  have h2 := withPtr_nat s.data (i + 96 * n) ((i : Int) + (n : Int) * 96)
    (by push_cast; ring) (by omega) (oob_de_fec C s.g) (r, g1) _ h1
  have h3 : wr s.fec_error n r = some (s.fec_error.set n r) := by
    simp [wr]; omega
  refine ⟨{ s with data := s.data.take (i + 96 * n) ++ (blk ++ (s.data.drop (i + 96 * n)).drop 96),
                   g := g1, fec_error := s.fec_error.set n r }, ?_, ?_, hw, ?_, ht, ho, hfr⟩
  · unfold fec_block
    rw [h2]
    simp only []
    rw [h3]
  · have hsp := splice_same_outside s.data blk (i + 96 * n) 96 hb (by omega)
    exact same_outside_trans hsp ⟨hl, hv⟩ (by omega) (le_refl _) (by omega) (le_refl _)
  · simp [hf]

theorem set_same_outside (l : List Nat) (idx v : Nat) (h : idx < l.length) :
    same_outside (l.set idx v) l idx (idx + 1) := by
  refine ⟨by simp, ?_⟩
  intro k hk
  rw [getD_set_nat _ _ _ _ h, if_neg (by omega)]

theorem derandomize_frame_inv {σ : Type} (i : Nat) (st0 s : ChunkState σ)
    (hd : i + 1152 ≤ st0.data.length) (hs : frame_inv st0 i s) :
    ∃ r data1, withPtr s.data (i : Int) (fun p => oob_de_randomizer p 384 0) = some (r, data1) ∧
      frame_inv st0 i { s with data := data1 } := by
  obtain ⟨⟨hl, hv⟩, hw, hf, ht, ho, hfr⟩ := hs
  obtain ⟨out, h1, hlo, hvo⟩ := oob_de_randomizer_spec (s.data.drop i) 384 0
    (by simp only [List.length_drop]; omega)
  have h2 := withPtr_nat s.data i (i : Int) rfl (by omega)
    (fun p => oob_de_randomizer p 384 0) 0 out h1
  refine ⟨0, _, h2, ⟨?_, ?_⟩, hw, hf, ht, ho, hfr⟩
  · simp only [List.length_append, List.length_take, hlo, List.length_drop]; omega
  · intro k hk
    rw [← hv k hk]
    simp only [List.getD_eq_getElem?_getD]
    rcases hk with hk | hk
    · rw [List.getElem?_append_left (by simp; omega), List.getElem?_take_of_lt hk]
    · rw [List.getElem?_append_right (by simp; omega)]
      have e := hvo (k - i)
      rw [if_neg (by omega)] at e
      simp only [List.getD_eq_getElem?_getD, List.getElem?_drop] at e
      have e1 : (List.take i s.data).length = i := by simp only [List.length_take]; omega
      have e2 : i + (k - i) = k := by omega
      rw [e1, e, e2]

theorem rdZ_nat (buf : List Nat) (n : Nat) (z : Int) (hz : z = n) (h : n < buf.length) :
    rdZ buf z = some (buf.getD n 0) := by
  subst hz
  rw [rdZ_some _ _ (by omega) (by omega)]
  simp

theorem wrZ_nat (buf : List Nat) (n : Nat) (z : Int) (hz : z = n) (h : n < buf.length)
    (v : Nat) : wrZ buf z v = some (buf.set n v) := by
  subst hz
  have : (0 : Int) ≤ (n : Int) := by omega
  simp [wrZ, wr, this, h]

theorem rd_some {α : Type} (buf : List α) (n : Nat) (h : n < buf.length) :
    ∃ a, rd buf n = some a :=
  ⟨buf[n], by simp [rd, List.getElem?_eq_getElem h]⟩

theorem tei_step_inv {σ : Type} (i n : Nat) (st0 s : ChunkState σ) (hn : n < 2)
    (hd : i + 1152 ≤ st0.data.length) (hs : frame_inv st0 i s) :
    ∃ s1, tei_step (i : Int) s n = some s1 ∧ frame_inv st0 i s1 := by
  obtain ⟨⟨hl, hv⟩, hw, hf, ht, ho, hfr⟩ := hs
  obtain ⟨a, ha⟩ := rd_some s.fec_error (n * 2) (by omega)
  obtain ⟨b, hb⟩ := rd_some s.fec_error (n * 2 + 1) (by omega)
  unfold tei_step
  rw [ha, hb]
  simp only []
  split
  · have hidx : (i : Int) + (n : Int) * 192 + 1 = ((i + n * 192 + 1 : Nat) : Int) := by
      push_cast; ring
    have hlt : i + n * 192 + 1 < s.data.length := by omega
    rw [rdZ_nat s.data _ _ hidx hlt]
    simp only []
    rw [wrZ_nat s.data _ _ hidx hlt]
    refine ⟨_, rfl, ?_, hw, hf, ht, ho, hfr⟩
    exact same_outside_trans (set_same_outside s.data _ _ hlt) ⟨hl, hv⟩
      (by omega) (le_refl _) (by omega) (le_refl _)
  · exact ⟨s, rfl, ⟨hl, hv⟩, hw, hf, ht, ho, hfr⟩

theorem emit_block_inv {σ : Type} (i n : Nat) (s0 s : ChunkState σ) (hn : n < 4)
    (hd : i + 384 ≤ s0.data.length) (hs : emit_inv s0 n s) :
    ∃ s1, emit_block (i : Int) s n = some s1 ∧ emit_inv s0 (n + 1) s1 := by
  obtain ⟨h1, h2, h3, h4, h5, h6, h7⟩ := hs
  have hp : ptrAt s.data ((i : Int) + 96 * (n : Int)) = some (s.data.drop (i + 96 * n)) :=
    ptrAt_nat _ _ _ (by push_cast; ring) (by rw [h1]; omega)
  have hl : 94 ≤ (s.data.drop (i + 96 * n)).length := by
    simp only [List.length_drop, h1]; omega
  unfold emit_block
  rw [hp]
  simp only []
  rw [if_pos hl]
  refine ⟨_, rfl, h1, h2, h3, h4, h5, ?_, ?_⟩
  · simp only [List.length_append, List.length_take, h6]; omega
  · simp only [h7]; push_cast; ring

theorem frame_inv_refl {σ : Type} (st : ChunkState σ) (i : Nat)
    (hw : st.data_work.length = 384) (hf : st.fec_error.length = 4) : frame_inv st i st :=
  ⟨same_outside_refl _ _ _, hw, hf, rfl, rfl, rfl⟩

theorem process_frame_spec {σ : Type} (C : Codec σ) (do_fec : Int) (i : Nat)
    (st : ChunkState σ) (hd : i + 1152 ≤ st.data.length)
    (hw : st.data_work.length = 384) (hf : st.fec_error.length = 4) :
    ∃ s, process_frame C do_fec (i : Int) st = some s ∧ frame_post st i s := by
  obtain ⟨st1, h1, hi1⟩ := foldlM_range_inv (deinterleave_block (i : Int))
    (fun _ s => frame_inv st i s) 4 st (frame_inv_refl st i hw hf)
    (fun n hn s hs => deinterleave_block_inv i n st s hn hd hs)
  have h2 : ∃ st2, (if do_fec ≠ 0 then (List.range 4).foldlM (fec_block C (i : Int)) st1
      else some st1) = some st2 ∧ frame_inv st i st2 := by
    by_cases hfec : do_fec ≠ 0
    · rw [if_pos hfec]
      exact foldlM_range_inv (fec_block C (i : Int)) (fun _ s => frame_inv st i s) 4 st1 hi1
        (fun n hn s hs => fec_block_inv C i n st s hn hd hs)
    · rw [if_neg hfec]
      exact ⟨st1, rfl, hi1⟩
  obtain ⟨st2, h2, hi2⟩ := h2
  obtain ⟨r, data1, h3, hi3⟩ := derandomize_frame_inv i st st2 hd hi2
  have h4 : ∃ st3, (if do_fec ≠ 0 then
      (List.range 2).foldlM (tei_step (i : Int)) { st2 with data := data1 }
      else some { st2 with data := data1 }) = some st3 ∧ frame_inv st i st3 := by
    by_cases hfec : do_fec ≠ 0
    · rw [if_pos hfec]
      exact foldlM_range_inv (tei_step (i : Int)) (fun _ s => frame_inv st i s) 2 _ hi3
        (fun n hn s hs => tei_step_inv i n st s hn hd hs)
    · rw [if_neg hfec]
      exact ⟨_, rfl, hi3⟩
  obtain ⟨st3, h4, hi4⟩ := h4
  obtain ⟨⟨hl, hv⟩, hw3, hf3, ht3, ho3, hfr3⟩ := hi4
  obtain ⟨st4, h5, hi5⟩ := foldlM_range_inv (emit_block (i : Int))
    (fun n s => emit_inv st3 n s) 4 st3 ⟨rfl, rfl, rfl, rfl, rfl, rfl, by simp⟩
    (fun n hn s hs => emit_block_inv i n st3 s hn (by omega) hs)
  obtain ⟨e1, e2, e3, _, e5, e6, e7⟩ := hi5
  refine ⟨{ st4 with frames := st4.frames + 1 }, ?_, ?_⟩
  · unfold process_frame
    rw [h1]
    simp only []
    rw [h2]
    simp only []
    rw [h3]
    simp only []
    rw [h4]
    simp only []
    rw [h5]
  · refine ⟨?_, ?_, ?_, ?_, ?_, ?_⟩
    · show same_outside st4.data st.data i (i + 384)
      rw [e1]; exact ⟨hl, hv⟩
    · show st4.data_work.length = 384
      rw [e2]; exact hw3
    · show st4.fec_error.length = 4
      rw [e3]; exact hf3
    · show st4.out_len = st.out_len + 376
      rw [e7, ho3]; norm_num
    · show st4.frames + 1 = st.frames + 1
      rw [e5, hfr3]
    · show st4.ts_out.length = st.ts_out.length + 376
      rw [e6, ht3]

theorem chunk_loop_spec {σ : Type} (C : Codec σ) (len do_fec : Int) :
    ∀ (fuel : Nat) (i : Int) (st : ChunkState σ), 0 ≤ i → chunk_inv len st →
      384 * (st.frames : Int) ≤ i → i ≤ max len 0 → (len - i).toNat + 1 ≤ fuel →
      ∃ i1 st1, chunk_loop_ideal C len do_fec fuel i st = some (i1, st1) ∧ chunk_inv len st1 ∧
        i ≤ i1 ∧ 384 * (st1.frames : Int) ≤ i1 ∧ i1 ≤ max len 0 ∧
        same_outside st1.data st.data i.toNat i1.toNat ∧
        (¬ (i1 + 383 < len) ∨ (i1 + 383 ≤ len ∧ len < i1 + 1152)) := by
  intro fuel
  induction fuel with
  | zero => intro i st _ _ _ _ hf; omega
  | succ fuel ih =>
    intro i st hi hinv hfr him hf
    obtain ⟨hl, hw, hfe, hout, hts⟩ := hinv
    unfold chunk_loop_ideal
    by_cases hc : i + 383 < len
    · rw [if_pos hc]
      obtain ⟨k, h1, h2, _, h4⟩ := oob_synchronize_bitstream_spec st.data i len hi hl
      rw [h1]
      simp only []
      by_cases hb : i + k + 384 + 768 > len
      · rw [if_pos hb]
        have hk : i + k + 383 ≤ len := by
          rcases h4 with ⟨h5, _⟩ | ⟨h5, h6⟩
          · omega
          · omega
        exact ⟨i + k, st, rfl, ⟨hl, hw, hfe, hout, hts⟩, by omega, by omega, by omega,
          same_outside_refl _ _ _, Or.inr ⟨hk, by omega⟩⟩
      · rw [if_neg hb]
        obtain ⟨I, hI⟩ := Int.eq_ofNat_of_zero_le (show 0 ≤ i + k by omega)
        rw [hI]
        obtain ⟨s, hs, hso, hw1, hfe1, hout1, hfr1, hts1⟩ :=
          process_frame_spec C do_fec I st (by omega) hw hfe
        rw [hs]
        simp only []
        have hinv1 : chunk_inv len s := by
          refine ⟨by rw [hso.1]; exact hl, hw1, hfe1, ?_, ?_⟩
          · rw [hout1, hfr1, hout]; push_cast; ring
          · rw [hts1, hfr1, hts]; ring
        obtain ⟨i2, s2, h7, hinv2, h8, h9, h9b, h10, h11⟩ :=
          ih ((I : Int) + 384) s (by omega) hinv1 (by rw [hfr1]; push_cast; omega)
            (by omega) (by omega)
        refine ⟨i2, s2, h7, hinv2, by omega, h9, h9b, ?_, h11⟩
        exact same_outside_trans h10 hso (by omega) (by omega) (le_refl _) (by omega)
    · rw [if_neg hc]
      exact ⟨i, st, rfl, ⟨hl, hw, hfe, hout, hts⟩, le_refl _, hfr, him,
        same_outside_refl _ _ _, Or.inl hc⟩

theorem oob_process_data_chunk_spec {σ : Type} (C : Codec σ) (g : Globals σ)
    (data : List Nat) (len do_fec : Int) (hl : len ≤ data.length) :
    ∃ r st, process_data_chunk_ideal C g data len do_fec = some (r, st) ∧
      0 ≤ r ∧ r < 1152 ∧ st.out_len = 376 * (st.frames : Int) ∧
      st.ts_out.length = 376 * st.frames ∧ 384 * (st.frames : Int) + r ≤ max len 0 ∧
      st.data.length = data.length := by
  unfold process_data_chunk_ideal
  simp only []
  obtain ⟨i1, st1, h1, ⟨hl1, hw1, hfe1, hout1, hts1⟩, h2, h3, h3b, h4, h5⟩ :=
    chunk_loop_spec C len do_fec (len.toNat + 1) 0
      { data := data, data_work := List.replicate 384 0, fec_error := List.replicate 4 0,
        ts_out := [], out_len := 0,
        g := if do_fec ≠ 0 ∧ g.oob_ecc_initialized = false then
            { g with ecc := C.initialize_ecc g.ecc, oob_ecc_initialized := true }
          else g,
        frames := 0 }
      (le_refl _) ⟨hl, List.length_replicate _ _, List.length_replicate _ _, by simp, by simp⟩
      (by simp) (by omega) (by omega)
  rw [h1]
  simp only []
  by_cases hr : len - i1 > 0
  · rw [if_pos hr]
    obtain ⟨I, hI⟩ := Int.eq_ofNat_of_zero_le h2
    obtain ⟨R, hR⟩ := Int.eq_ofNat_of_zero_le (show 0 ≤ len - i1 by omega)
    rw [ptrAt_nat st1.data I i1 hI (by omega)]
    simp only []
    rw [hR, memcpy_spec _ _ R (by simp only [List.length_drop]; omega) (by omega)]
    simp only []
    have h6 := h4.1
    simp only [] at h6
    refine ⟨_, _, rfl, by omega, by omega, hout1, hts1, by simp only []; omega, ?_⟩
    simp only [List.length_append, List.length_take, List.length_drop]
    omega
  · rw [if_neg hr]
    exact ⟨_, _, rfl, le_refl _, by omega, hout1, hts1, by omega, h4.1⟩

/-- The residual bound for the loop without the overflow check. -/
theorem ideal_residual_bound {σ : Type} (C : Codec σ) (g : Globals σ) (data : List Nat)
    (len do_fec : Int) (hl : len ≤ data.length) :
    ∃ r st, process_data_chunk_ideal C g data len do_fec = some (r, st) ∧
      0 ≤ r ∧ r < 768 + 384 := by
  obtain ⟨r, st, h, h0, h1, _⟩ := oob_process_data_chunk_spec C g data len do_fec hl
  exact ⟨r, st, h, h0, by omega⟩

/-- The value of `*out_len` for the loop without the overflow check. -/
theorem ideal_out_len_multiple {σ : Type} (C : Codec σ) (g : Globals σ) (data : List Nat)
    (len do_fec : Int) (hl : len ≤ data.length) :
    ∃ r st, process_data_chunk_ideal C g data len do_fec = some (r, st) ∧
      0 ≤ st.out_len ∧ st.out_len = 376 * (st.frames : Int) ∧
      (st.ts_out.length : Int) = st.out_len := by
  obtain ⟨r, st, h, _, _, h2, h3, _⟩ := oob_process_data_chunk_spec C g data len do_fec hl
  exact ⟨r, st, h, by omega, h2, by omega⟩

theorem splice_getD (buf blk : List Nat) (n m k : Nat) (hb : blk.length = m)
    (h : n + m ≤ buf.length) :
    (buf.take n ++ (blk ++ (buf.drop n).drop m)).getD k 0 =
      if k < n then buf.getD k 0 else if k < n + m then blk.getD (k - n) 0 else buf.getD k 0 := by
  have hln : (buf.take n).length = n := by simp only [List.length_take]; omega
  by_cases h1 : k < n
  · rw [if_pos h1, (splice_same_outside buf blk n m hb h).2 k (Or.inl h1)]
  · rw [if_neg h1]
    by_cases h2 : k < n + m
    · rw [if_pos h2, List.getD_append_right _ _ _ _ (by omega), hln,
        List.getD_append _ _ _ _ (by omega)]
    · rw [if_neg h2, (splice_same_outside buf blk n m hb h).2 k (Or.inr (by omega))]

theorem getD_drop (l : List Nat) (a k : Nat) : (l.drop a).getD k 0 = l.getD (a + k) 0 := by
  simp [List.getD, List.getElem?_drop]

theorem deinterleave_block_step {σ : Type} (i n : Nat) (st0 s : ChunkState σ) (hn : n < 4)
    (hd : i + 1056 ≤ st0.data.length) (hs : deinterleave_inv st0 i n s) :
    ∃ s1, deinterleave_block (i : Int) s n = some s1 ∧ deinterleave_inv st0 i (n + 1) s1 := by
  obtain ⟨hl, hv, hw, hf, ht, ho, hg, hfr⟩ := hs
  refine ⟨_, deinterleave_block_spec i n s hn (by omega) hw, ?_, ?_, ?_, hf, ht, ho, hg, hfr⟩
  · simp only [List.length_append, List.length_take, List.length_drop, deinterleaved_length]
    omega
  · intro k
    simp only []
    rw [splice_getD _ _ _ 96 k (deinterleaved_length _) (by omega)]
    by_cases h1 : k < i + 96 * n
    · rw [if_pos h1, hv k]
      by_cases h2 : i ≤ k
      · rw [if_pos ⟨h2, h1⟩, if_pos ⟨h2, by omega⟩]
      · rw [if_neg (by omega), if_neg (by omega)]
    · rw [if_neg h1]
      by_cases h2 : k < i + 96 * n + 96
      · rw [if_pos h2, deinterleaved_getD _ _ (by omega), getD_drop, hv, if_neg (by omega),
          if_pos ⟨by omega, by omega⟩]
        congr 1
        omega
      · rw [if_neg h2, hv k, if_neg (by omega), if_neg (by omega)]
  · simp only [List.length_append, List.length_take, List.length_drop, deinterleaved_length]
    omega

theorem deinterleave_frame_spec {σ : Type} (i : Nat) (st : ChunkState σ)
    (hd : i + 1056 ≤ st.data.length) (hw : st.data_work.length = 384) :
    ∃ s, (List.range 4).foldlM (deinterleave_block (i : Int)) st = some s ∧
      deinterleave_inv st i 4 s :=
  foldlM_range_inv (deinterleave_block (i : Int)) (fun n s => deinterleave_inv st i n s) 4 st
    ⟨rfl, fun k => by rw [if_neg (by omega)], hw, rfl, rfl, rfl, rfl, rfl⟩
    (fun n hn s hs => deinterleave_block_step i n st s hn hd hs)

/-- Claim C6. Let `S` be a stream of at least four 96-byte RS blocks and `T` its image by
the reference depth-8 convolutional interleaver. For `n = 0, 1, 2, 3` the 768-byte
window of `T` at offset `96 n` exists, and `oob_de_interleaver` run on it returns 0 and
fills the output block with the `n`-th block `S[96 n .. 96 n + 96)` of the stream.
The same holds for the four invocations as `oob_process_data_chunk` makes them (lines
303-307, each block copied back in place): run on a buffer holding `T`, they leave the
four blocks `S[0 .. 384)` in front of the untouched rest of `T`. -/
theorem C6_de_interleave_ref_interleave (S out : List Nat) (hS : 384 ≤ S.length)
    (hout : 96 ≤ out.length) :
    (∀ n < 4, (((ref_interleave S).drop (96 * n)).take 768).length = 768 ∧
      oob_de_interleaver (((ref_interleave S).drop (96 * n)).take 768) out =
        some (0, (S.drop (96 * n)).take 96 ++ out.drop 96)) ∧
    (∀ (σ : Type) (st : ChunkState σ), st.data = ref_interleave S →
      st.data_work.length = 384 →
      ∃ s, (List.range 4).foldlM (deinterleave_block 0) st = some s ∧
        s.data = S.take 384 ++ (ref_interleave S).drop 384) := by
  constructor
  · intro n hn
    have hw : (((ref_interleave S).drop (96 * n)).take 768).length = 768 := by
      simp only [List.length_take, List.length_drop, ref_interleave_length]; omega
    refine ⟨hw, ?_⟩
    rw [oob_de_interleaver_spec _ _ (by omega) hout,
      deinterleaved_ref_interleave S n (by omega)]
  · intro σ st hst hw
    have hlen : st.data.length = S.length + 672 := by rw [hst, ref_interleave_length]
    obtain ⟨s, h1, hl, hv, _⟩ := deinterleave_frame_spec 0 st (by omega) hw
    refine ⟨s, by simpa using h1, ?_⟩
    apply ext_getD
    · simp only [List.length_append, List.length_take, List.length_drop,
        ref_interleave_length]
      omega
    · intro k
      have htk : (S.take 384).length = 384 := by simp only [List.length_take]; omega
      rw [hv k, getD_append_drop _ _ 384 k htk, hst]
      by_cases hk : k < 384
      · rw [if_pos ⟨by omega, by omega⟩, if_pos hk, ref_interleave_getD _ _ (by omega)]
        have e1 : (k + 96 * ((k - 0) % 8)) % 8 = k % 8 := by omega
        have e2 := getD_take_drop S 0 384 k hk
        simp only [List.drop_zero, Nat.zero_add] at e2
        rw [e1, if_pos (by omega), e2]
        congr 1
        omega
      · rw [if_neg (by omega), if_neg hk]

/-- Witness of claim C6: the stream made of the 384 bytes of `oob_rand_table`. -/
theorem C6_de_interleave_ref_interleave_witness :
    384 ≤ oob_rand_table.length ∧ 96 ≤ (List.replicate 96 0).length ∧
    (∀ n < 4, (((ref_interleave oob_rand_table).drop (96 * n)).take 768).length = 768 ∧
      oob_de_interleaver (((ref_interleave oob_rand_table).drop (96 * n)).take 768)
          (List.replicate 96 0) =
        some (0, (oob_rand_table.drop (96 * n)).take 96 ++ (List.replicate 96 0).drop 96)) ∧
    (∀ (σ : Type) (st : ChunkState σ), st.data = ref_interleave oob_rand_table →
      st.data_work.length = 384 →
      ∃ s, (List.range 4).foldlM (deinterleave_block 0) st = some s ∧
        s.data = oob_rand_table.take 384 ++ (ref_interleave oob_rand_table).drop 384) :=
  ⟨rand_table_length.ge, (List.length_replicate 96 0).ge,
    C6_de_interleave_ref_interleave _ _ rand_table_length.ge (List.length_replicate 96 0).ge⟩

theorem is_anchor_shift (data : List Nat) (i k : Int) :
    is_anchor data i k ↔ is_anchor data (i + k) 0 := by
  unfold is_anchor
  rw [Int.add_zero]

theorem chunk_inv_start {σ : Type} (C : Codec σ) (g : Globals σ) (data : List Nat)
    (len do_fec : Int) (hl : len ≤ data.length) : chunk_inv len (start_state C g data do_fec) :=
  ⟨hl, List.length_replicate _ _, List.length_replicate _ _,
    by show (0 : Int) = 376 * ((0 : Nat) : Int); simp,
    by show ([] : List Nat).length = 376 * 0; rfl⟩

theorem chunk_loop_rule {σ : Type} (C : Codec σ) (len do_fec : Int)
    (Inv : Int → ChunkState σ → Prop)
    (hskip : ∀ (i : Int) (st : ChunkState σ) (k : Int), 0 ≤ i → 0 ≤ k → chunk_inv len st →
      Inv i st → i + 383 < len → oob_synchronize_bitstream st.data i len = some k →
      (∀ j, 0 ≤ j → j < k → ¬ is_anchor st.data i j) → Inv (i + k) st)
    (hstep : ∀ (I : Nat) (st s : ChunkState σ), chunk_inv len st → Inv I st →
      (I : Int) + 1152 ≤ len → is_anchor st.data I 0 →
      process_frame C do_fec I st = some s → frame_post st I s → Inv ((I : Int) + 384) s) :
    ∀ (fuel : Nat) (i : Int) (st : ChunkState σ), 0 ≤ i → chunk_inv len st → Inv i st →
      i ≤ max len 0 → (len - i).toNat + 1 ≤ fuel →
      ∃ i1 st1, chunk_loop_ideal C len do_fec fuel i st = some (i1, st1) ∧ chunk_inv len st1 ∧
        Inv i1 st1 ∧ i ≤ i1 ∧ i1 ≤ max len 0 ∧
        (¬ (i1 + 383 < len) ∨ (i1 + 383 ≤ len ∧ len < i1 + 1152 ∧
          (is_anchor st1.data i1 0 ∨ i1 + 383 = len))) := by
  intro fuel
  induction fuel with
  | zero => intro i st _ _ _ _ hf; omega
  | succ fuel ih =>
    intro i st hi hinv hI0 him hf
    have hinv0 := hinv
    obtain ⟨hl, hw, hfe, hout, hts⟩ := hinv
    unfold chunk_loop_ideal
    by_cases hc : i + 383 < len
    · rw [if_pos hc]
      obtain ⟨k, h1, h2, h3, h4⟩ := oob_synchronize_bitstream_spec st.data i len hi hl
      rw [h1]
      simp only []
      have hIk := hskip i st k hi h2 hinv0 hI0 hc h1 h3
      by_cases hb : i + k + 384 + 768 > len
      · rw [if_pos hb]
        have hk : i + k + 383 ≤ len := by
          rcases h4 with ⟨h5, _⟩ | ⟨h5, h6⟩
          · omega
          · omega
        refine ⟨i + k, st, rfl, hinv0, hIk, by omega, by omega, Or.inr ⟨hk, by omega, ?_⟩⟩
        rcases h4 with ⟨_, h6⟩ | ⟨h5, h6⟩
        · exact Or.inl ((is_anchor_shift _ _ _).mp h6)
        · exact Or.inr (by omega)
      · rw [if_neg hb]
        have hanc : is_anchor st.data i k := by
          rcases h4 with ⟨_, h6⟩ | ⟨h5, _⟩
          · exact h6
          · omega
        obtain ⟨I, hI⟩ := Int.eq_ofNat_of_zero_le (show 0 ≤ i + k by omega)
        rw [hI] at hIk ⊢
        have hanc0 : is_anchor st.data I 0 := by
          rw [← hI]; exact (is_anchor_shift _ _ _).mp hanc
        obtain ⟨s, hs, hpost⟩ := process_frame_spec C do_fec I st (by omega) hw hfe
        have hpost0 := hpost
        obtain ⟨hso, hw1, hfe1, hout1, hfr1, hts1⟩ := hpost
        rw [hs]
        simp only []
        have hinv1 : chunk_inv len s := by
          refine ⟨by rw [hso.1]; exact hl, hw1, hfe1, ?_, ?_⟩
          · rw [hout1, hfr1, hout]; push_cast; ring
          · rw [hts1, hfr1, hts]; ring
        obtain ⟨i2, s2, h7, hinv2, h8, h9, h10, h11⟩ :=
          ih ((I : Int) + 384) s (by omega) hinv1
            (hstep I st s hinv0 hIk (by omega) hanc0 hs hpost0) (by omega) (by omega)
        exact ⟨i2, s2, h7, hinv2, h8, by omega, h10, h11⟩
    · rw [if_neg hc]
      exact ⟨i, st, rfl, hinv0, hI0, le_refl _, him, Or.inl hc⟩

theorem finish_eq {σ : Type} (len i1 : Int) (st1 : ChunkState σ) (h0 : 0 ≤ i1)
    (hl : len ≤ st1.data.length) :
    (if len - i1 > 0 then
      match ptrAt st1.data i1 with
      | none => none
      | some src =>
        match memcpy st1.data src (len - i1) with
        | none => none
        | some data1 => some (len - i1, { st1 with data := data1 })
    else some (0, st1)) = some (finish len i1 st1) := by
  unfold finish
  by_cases hr : len - i1 > 0
  · rw [if_pos hr, if_pos hr]
    obtain ⟨I, hI⟩ := Int.eq_ofNat_of_zero_le h0
    obtain ⟨R, hR⟩ := Int.eq_ofNat_of_zero_le (show 0 ≤ len - i1 by omega)
    rw [ptrAt_nat st1.data I i1 hI (by omega)]
    simp only []
    rw [hR, memcpy_spec _ _ R (by simp only [List.length_drop]; omega) (by omega)]
    simp only []
    subst hI
    simp
  · rw [if_neg hr, if_neg hr]

theorem oob_process_data_chunk_rule {σ : Type} (C : Codec σ) (g : Globals σ)
    (data : List Nat) (len do_fec : Int) (hl : len ≤ data.length)
    (Inv : Int → ChunkState σ → Prop)
    (hskip : ∀ (i : Int) (st : ChunkState σ) (k : Int), 0 ≤ i → 0 ≤ k → chunk_inv len st →
      Inv i st → i + 383 < len → oob_synchronize_bitstream st.data i len = some k →
      (∀ j, 0 ≤ j → j < k → ¬ is_anchor st.data i j) → Inv (i + k) st)
    (hstep : ∀ (I : Nat) (st s : ChunkState σ), chunk_inv len st → Inv I st →
      (I : Int) + 1152 ≤ len → is_anchor st.data I 0 →
      process_frame C do_fec I st = some s → frame_post st I s → Inv ((I : Int) + 384) s)
    (h0 : Inv 0 (start_state C g data do_fec)) :
    ∃ i1 st1, process_data_chunk_ideal C g data len do_fec = some (finish len i1 st1) ∧
      chunk_inv len st1 ∧ Inv i1 st1 ∧ 0 ≤ i1 ∧ i1 ≤ max len 0 ∧
      (¬ (i1 + 383 < len) ∨ (i1 + 383 ≤ len ∧ len < i1 + 1152 ∧
          (is_anchor st1.data i1 0 ∨ i1 + 383 = len))) := by
  obtain ⟨i1, st1, h1, hinv, hI, h2, h3, h4⟩ :=
    chunk_loop_rule C len do_fec Inv hskip hstep (len.toNat + 1) 0
      (start_state C g data do_fec) (le_refl _) (chunk_inv_start C g data len do_fec hl) h0
      (by omega) (by omega)
  refine ⟨i1, st1, ?_, hinv, hI, h2, h3, h4⟩
  unfold process_data_chunk_ideal
  simp only []
  unfold start_state at h1
  rw [h1]
  simp only []
  exact finish_eq len i1 st1 h2 hinv.1

theorem finish_fst_pos {σ : Type} (len i : Int) (st : ChunkState σ) (h : 0 < len - i) :
    finish len i st = (len - i,
      { st with
        data := (st.data.drop i.toNat).take (len - i).toNat ++ st.data.drop (len - i).toNat }) := by
  unfold finish
  rw [if_pos h]

theorem finish_fst_nonpos {σ : Type} (len i : Int) (st : ChunkState σ) (h : ¬ 0 < len - i) :
    finish len i st = (0, st) := by
  unfold finish
  rw [if_neg h]

theorem take_drop_eq_of_same_outside (a b : List Nat) (I R : Nat)
    (h : same_outside a b 0 I) : (a.drop I).take R = (b.drop I).take R := by
  apply ext_getD
  · simp only [List.length_take, List.length_drop, h.1]
  · intro k
    by_cases hk : k < R
    · rw [getD_take_drop _ _ _ _ hk, getD_take_drop _ _ _ _ hk]
      exact h.2 _ (Or.inr (by omega))
    · have h1 : ((a.drop I).take R).length ≤ k := by
        simp only [List.length_take]; omega
      have h2 : ((b.drop I).take R).length ≤ k := by
        simp only [List.length_take]; omega
      simp [List.getD, List.getElem?_eq_none h1, List.getElem?_eq_none h2]

theorem same_outside_mono {a b : List Nat} {lo hi lo2 hi2 : Nat} (h : same_outside a b lo hi)
    (hlo : lo2 ≤ lo) (hhi : hi ≤ hi2) : same_outside a b lo2 hi2 :=
  ⟨h.1, fun k hk => h.2 k (by omega)⟩

theorem chunk_untouched_tail {σ : Type} (C : Codec σ) (g : Globals σ)
    (data : List Nat) (len do_fec : Int) (hl : len ≤ data.length) :
    ∃ i1 st1, process_data_chunk_ideal C g data len do_fec = some (finish len i1 st1) ∧
      chunk_inv len st1 ∧ same_outside st1.data data 0 i1.toNat ∧ 0 ≤ i1 ∧ i1 ≤ max len 0 := by
  obtain ⟨i1, st1, h1, hinv, hI, h2, h3, _⟩ :=
    oob_process_data_chunk_rule C g data len do_fec hl
      (fun i st => same_outside st.data data 0 i.toNat)
      (fun i st k hi hk _ hI _ _ _ => same_outside_mono hI (le_refl _) (by omega))
      (fun I st s _ hI _ _ _ hpost =>
        same_outside_trans hpost.1 hI (by omega) (le_refl _) (by omega) (by omega))
      (same_outside_refl _ _ _)
  exact ⟨i1, st1, h1, hinv, hI, h2, h3⟩

/-- The residual bytes for the loop without the overflow check. -/
theorem ideal_residual_bytes {σ : Type} (C : Codec σ) (g : Globals σ) (data : List Nat)
    (len do_fec : Int) (hl : len ≤ data.length) :
    ∃ r st, process_data_chunk_ideal C g data len do_fec = some (r, st) ∧
      (0 < r → r ≤ len ∧
        st.data.take r.toNat = (data.drop (len - r).toNat).take r.toNat) := by
  obtain ⟨i1, st1, h1, hinv, hso, h2, _⟩ := chunk_untouched_tail C g data len do_fec hl
  by_cases hr : 0 < len - i1
  · rw [finish_fst_pos _ _ _ hr] at h1
    refine ⟨_, _, h1, fun _ => ⟨by omega, ?_⟩⟩
    simp only []
    have hlen : ((st1.data.drop i1.toNat).take (len - i1).toNat).length = (len - i1).toNat := by
      simp only [List.length_take, List.length_drop]
      have := hinv.1
      omega
    rw [List.take_left' hlen]
    have e : (len - (len - i1)).toNat = i1.toNat := by congr 1; omega
    rw [e]
    exact take_drop_eq_of_same_outside _ _ _ _ hso
  · rw [finish_fst_nonpos _ _ _ hr] at h1
    exact ⟨_, _, h1, fun h => absurd h (lt_irrefl _)⟩

theorem replicate_take_drop (n a b c : Nat) (h1 : a + b ≤ n) (h2 : b ≤ n) (h3 : c = b) :
    ((List.replicate n 0).drop a).take b ++ (List.replicate n 0).drop c = List.replicate n 0 := by
  subst h3
  simp only [List.drop_replicate, List.take_replicate, List.append_replicate_replicate]
  congr 1
  omega

theorem chunk_zeros {σ : Type} (C : Codec σ) (g : Globals σ) (do_fec : Int) :
    ∃ st, process_data_chunk_ideal C g (List.replicate 768 0) 768 do_fec = some (383, st) ∧
      st.out_len = 0 ∧ st.ts_out = [] ∧ st.frames = 0 ∧ st.data = List.replicate 768 0 := by
  have hlen : ((768 : Int)) ≤ (List.replicate 768 0).length := by
    rw [List.length_replicate]; decide
  obtain ⟨i1, st1, h1, hinv, ⟨hi, hd, ho, ht, hf⟩, h2, h3, h4⟩ :=
    oob_process_data_chunk_rule C g (List.replicate 768 0) 768 do_fec hlen
      (fun i st => (i = 0 ∨ i = 385) ∧ st.data = List.replicate 768 0 ∧ st.out_len = 0 ∧
        st.ts_out = [] ∧ st.frames = 0)
      (fun i st k hi0 _ hinv hI hc hs _ => by
        refine ⟨Or.inr ?_, hI.2⟩
        obtain ⟨k1, e1, _, _, e4⟩ := oob_synchronize_bitstream_spec st.data i 768 hi0 hinv.1
        have hk : k1 = k := Option.some.inj (e1.symm.trans hs)
        subst hk
        rcases e4 with ⟨_, e6⟩ | ⟨e5, e6⟩
        · rw [hI.2.1] at e6
          exact absurd e6 (no_anchor_zeros 768 _ _)
        · omega)
      (fun I st s _ hI _ ha _ _ => by
        rw [hI.2.1] at ha
        exact absurd ha (no_anchor_zeros 768 _ _))
      ⟨Or.inl rfl, rfl, rfl, rfl, rfl⟩
  have hi1 : i1 = 385 := by
    rcases h4 with h4 | ⟨h5, h6, h7⟩
    · omega
    · rcases h7 with h7 | h7
      · rw [hd] at h7
        exact absurd h7 (no_anchor_zeros 768 _ _)
      · omega
  subst hi1
  rw [finish_fst_pos _ _ _ (by decide)] at h1
  refine ⟨_, h1, ho, ht, hf, ?_⟩
  simp only []
  rw [hd]
  exact replicate_take_drop 768 385 383 383 (by decide) (by decide) rfl

/-- The call on 768 zero bytes, for the loop without the overflow check. -/
theorem ideal_zero_chunk {σ : Type} (C : Codec σ) (g : Globals σ) (do_fec : Int) :
    (∀ k : Int, ¬ is_anchor (List.replicate 768 0) 0 k) ∧
      oob_synchronize_bitstream (List.replicate 768 0) 0 768 = some 385 ∧
      ∃ st, process_data_chunk_ideal C g (List.replicate 768 0) 768 do_fec = some (383, st) ∧
        st.out_len = 0 ∧ st.ts_out = [] ∧ st.data = List.replicate 768 0 := by
  refine ⟨no_anchor_zeros 768 0, ?_, ?_⟩
  · obtain ⟨k, h1, h2, _, h4⟩ := oob_synchronize_bitstream_spec (List.replicate 768 0) 0 768
      (le_refl _) (by rw [List.length_replicate]; decide)
    rcases h4 with ⟨_, h6⟩ | ⟨h5, h6⟩
    · exact absurd h6 (no_anchor_zeros 768 _ _)
    · have hk : k = 385 := by omega
      subst hk
      exact h1
  · obtain ⟨st, h1, h2, h3, _, h5⟩ := chunk_zeros C g do_fec
    exact ⟨st, h1, h2, h3, h5⟩

theorem chunk_unaligned {σ : Type} (C : Codec σ) (g : Globals σ) (do_fec : Int)
    (data : List Nat) (hlen : data.length = 401)
    (hno : ∀ k : Int, 0 ≤ k → k < 17 → ¬ is_anchor data 0 k) (ha : is_anchor data 0 17) :
    oob_synchronize_bitstream data 0 401 = some 17 ∧
    ∃ st, process_data_chunk_ideal C g data 401 do_fec = some (384, st) ∧
      st.out_len = 0 ∧ st.ts_out = [] ∧ st.frames = 0 ∧ st.data.take 384 = data.drop 17 := by
  have hl : (401 : Int) ≤ data.length := by omega
  have ha17 : is_anchor data 17 0 := by
    have := (is_anchor_shift data 0 17).mp ha
    simpa using this
  have hsync : ∀ i k : Int, (i = 0 ∨ i = 17) → oob_synchronize_bitstream data i 401 = some k →
      i + k = 17 := by
    intro i k hi hs
    obtain ⟨k1, e1, e2, e3, e4⟩ := oob_synchronize_bitstream_spec data i 401 (by omega) hl
    have hk : k1 = k := Option.some.inj (e1.symm.trans hs)
    subst hk
    rcases hi with hi | hi
    · subst hi
      by_contra hne
      by_cases hlt : k1 < 17
      · rcases e4 with ⟨_, e6⟩ | ⟨e5, _⟩
        · exact hno k1 e2 hlt e6
        · omega
      · exact e3 17 (by omega) (by omega) ha
    · subst hi
      by_contra hne
      exact e3 0 (le_refl _) (by omega) ha17
  refine ⟨?_, ?_⟩
  · obtain ⟨k, e1, _⟩ := oob_synchronize_bitstream_spec data 0 401 (le_refl _) hl
    have := hsync 0 k (Or.inl rfl) e1
    have hk : k = 17 := by omega
    subst hk
    exact e1
  · obtain ⟨i1, st1, h1, hinv, ⟨hi, hd, ho, ht, hf⟩, h2, h3, h4⟩ :=
      oob_process_data_chunk_rule C g data 401 do_fec hl
        (fun i st => (i = 0 ∨ i = 17) ∧ st.data = data ∧ st.out_len = 0 ∧
          st.ts_out = [] ∧ st.frames = 0)
        (fun i st k hi0 _ hinv hI hc hs _ => by
          refine ⟨Or.inr ?_, hI.2⟩
          rw [hI.2.1] at hs
          exact hsync i k hI.1 hs)
        (fun I st s _ hI hb _ _ _ => by omega)
        ⟨Or.inl rfl, rfl, rfl, rfl, rfl⟩
    have hi1 : i1 = 17 := by
      rcases h4 with h4 | ⟨h5, h6, h7⟩
      · omega
      · rcases hi with hi | hi
        · subst hi
          rcases h7 with h7 | h7
          · rw [hd] at h7
            exact absurd h7 (hno 0 (le_refl _) (by decide))
          · omega
        · exact hi
    subst hi1
    rw [finish_fst_pos _ _ _ (by decide)] at h1
    refine ⟨_, h1, ho, ht, hf, ?_⟩
    simp only []
    rw [hd]
    have e : ((401 : Int) - 17).toNat = 384 := by decide
    have e2 : (17 : Int).toNat = 17 := by decide
    rw [e, e2]
    have hl2 : (List.take 384 (List.drop 17 data)).length = 384 := by
      simp only [List.length_take, List.length_drop]; omega
    rw [List.take_left' hl2]
    apply List.take_of_length_le
    simp only [List.length_drop]; omega

/-- The call on 17 bytes without anchor followed by a frame, for the loop without the overflow check. -/
theorem ideal_unaligned_chunk {σ : Type} (C : Codec σ) (g : Globals σ) (do_fec : Int)
    (data : List Nat) (hlen : data.length = 401)
    (hno : ∀ k : Int, 0 ≤ k → k < 17 → ¬ is_anchor data 0 k) (ha : is_anchor data 0 17) :
    oob_synchronize_bitstream data 0 401 = some 17 ∧
    ∃ st, process_data_chunk_ideal C g data 401 do_fec = some (384, st) ∧
      st.out_len = 0 ∧ st.ts_out = [] ∧ st.data.take 384 = data.drop 17 := by
  obtain ⟨h1, st, h2, h3, h4, _, h6⟩ := chunk_unaligned C g do_fec data hlen hno ha
  exact ⟨h1, st, h2, h3, h4, h6⟩

theorem oob_de_fec_cases {σ : Type} (C : Codec σ) (g : Globals σ) (d : List Nat)
    (h : 96 ≤ d.length) :
    ∃ r g1 d1, oob_de_fec C g d = some ((r, g1), d1) ∧
      g1.fec_total_block_count = g.fec_total_block_count + 1 ∧
      g1.oob_ecc_initialized = g.oob_ecc_initialized ∧
      (C.check_syndrome (fec_pass1 C g d).1 = 0 →
        r = 0 ∧ g1.fec_error_count = g.fec_error_count ∧
        g1.fec_corrected_block_count = g.fec_corrected_block_count ∧
        g1.ecc = (fec_pass1 C g d).1 ∧ d1 = (fec_pass1 C g d).2 ++ d.drop 96) ∧
      (C.check_syndrome (fec_pass1 C g d).1 ≠ 0 →
        g1.fec_error_count = g.fec_error_count + 1 ∧
        g1.ecc = (fec_pass2 C g d).1 ∧ d1 = (fec_pass2 C g d).2 ++ d.drop 96 ∧
        (C.check_syndrome (fec_pass2 C g d).1 = 0 →
          r = 1 ∧ g1.fec_corrected_block_count = g.fec_corrected_block_count + 1) ∧
        (C.check_syndrome (fec_pass2 C g d).1 ≠ 0 →
          r = -1 ∧ g1.fec_corrected_block_count = g.fec_corrected_block_count)) := by
  unfold oob_de_fec
  rw [if_pos h]
  simp only []
  by_cases h1 : C.check_syndrome (fec_pass1 C g d).1 = 0
  · have h1b : ¬ C.check_syndrome (C.decode_data g.ecc (d.take 96) 96).1 ≠ 0 :=
      fun hh => hh h1
    rw [if_neg h1b]
    exact ⟨_, _, _, rfl, rfl, rfl, fun _ => ⟨rfl, rfl, rfl, rfl, rfl⟩, fun hh => absurd h1 hh⟩
  · have h1b : C.check_syndrome (C.decode_data g.ecc (d.take 96) 96).1 ≠ 0 := h1
    rw [if_pos h1b]
    by_cases h2 : C.check_syndrome (fec_pass2 C g d).1 = 0
    · have h2b : C.check_syndrome (C.decode_data
          (C.correct_errors_erasures (C.decode_data g.ecc (d.take 96) 96).1
            (C.decode_data g.ecc (d.take 96) 96).2 96 0 []).1
          (C.correct_errors_erasures (C.decode_data g.ecc (d.take 96) 96).1
            (C.decode_data g.ecc (d.take 96) 96).2 96 0 []).2 96).1 = 0 := h2
      rw [if_pos h2b]
      exact ⟨_, _, _, rfl, rfl, rfl, fun hh => absurd hh h1,
        fun _ => ⟨rfl, rfl, rfl, fun _ => ⟨rfl, rfl⟩, fun hh => absurd h2 hh⟩⟩
    · have h2b : ¬ C.check_syndrome (C.decode_data
          (C.correct_errors_erasures (C.decode_data g.ecc (d.take 96) 96).1
            (C.decode_data g.ecc (d.take 96) 96).2 96 0 []).1
          (C.correct_errors_erasures (C.decode_data g.ecc (d.take 96) 96).1
            (C.decode_data g.ecc (d.take 96) 96).2 96 0 []).2 96).1 = 0 := h2
      rw [if_neg h2b]
      exact ⟨_, _, _, rfl, rfl, rfl, fun hh => absurd hh h1,
        fun _ => ⟨rfl, rfl, rfl, fun hh => absurd hh h2, fun _ => ⟨rfl, rfl⟩⟩⟩

theorem getD_map_range (f : Nat → Nat) (n k : Nat) (hk : k < n) :
    ((List.range n).map f).getD k 0 = f k := by
  have h : k < ((List.range n).map f).length := by simp [hk]
  rw [List.getD_eq_getElem _ _ h]
  simp

theorem deint_frame_length (data : List Nat) (i : Nat) (h : i + 384 ≤ data.length) :
    (deint_frame data i).length = data.length := by
  simp only [deint_frame, List.length_append, List.length_take, List.length_map,
    List.length_range, List.length_drop]
  omega

theorem deint_frame_getD (data : List Nat) (i k : Nat) (h : i + 384 ≤ data.length) :
    (deint_frame data i).getD k 0 =
      if i ≤ k ∧ k < i + 384 then data.getD (k + 96 * ((k - i) % 8)) 0 else data.getD k 0 := by
  unfold deint_frame
  rw [splice_getD _ _ _ 384 k (by simp) h]
  by_cases h1 : k < i
  · rw [if_pos h1, if_neg (by omega)]
  · rw [if_neg h1]
    by_cases h2 : k < i + 384
    · rw [if_pos h2, if_pos ⟨by omega, h2⟩, getD_map_range _ _ _ (by omega)]
      congr 1
      omega
    · rw [if_neg h2, if_neg (by omega)]

theorem derand_frame_length (data : List Nat) (i : Nat) (h : i + 384 ≤ data.length) :
    (derand_frame data i).length = data.length := by
  simp only [derand_frame, List.length_append, List.length_take, List.length_map,
    List.length_range, List.length_drop]
  omega

theorem derand_frame_getD (data : List Nat) (i k : Nat) (h : i + 384 ≤ data.length) :
    (derand_frame data i).getD k 0 =
      if i ≤ k ∧ k < i + 384 then derand_byte (k - i) (data.getD k 0) else data.getD k 0 := by
  unfold derand_frame
  rw [splice_getD _ _ _ 384 k (by simp) h]
  by_cases h1 : k < i
  · rw [if_pos h1, if_neg (by omega)]
  · rw [if_neg h1]
    by_cases h2 : k < i + 384
    · rw [if_pos h2, if_pos ⟨by omega, h2⟩, getD_map_range _ _ _ (by omega)]
      congr 2
      omega
    · rw [if_neg h2, if_neg (by omega)]

theorem deinterleave_frame_data {σ : Type} (i : Nat) (st : ChunkState σ)
    (hd : i + 1056 ≤ st.data.length) (hw : st.data_work.length = 384) :
    ∃ s, (List.range 4).foldlM (deinterleave_block (i : Int)) st = some s ∧
      s.data = deint_frame st.data i ∧ s.data_work.length = 384 ∧
      s.fec_error = st.fec_error ∧ s.ts_out = st.ts_out ∧ s.out_len = st.out_len ∧
      s.g = st.g ∧ s.frames = st.frames := by
  obtain ⟨s, h1, hl, hv, hw1, h2, h3, h4, h5, h6⟩ := deinterleave_frame_spec i st hd hw
  refine ⟨s, h1, ?_, hw1, h2, h3, h4, h5, h6⟩
  apply ext_getD
  · rw [hl, deint_frame_length _ _ (by omega)]
  · intro k
    rw [hv k, deint_frame_getD _ _ _ (by omega)]

theorem derandomize_frame_data (data : List Nat) (i : Nat) (hd : i + 384 ≤ data.length) :
    withPtr data (i : Int) (fun p => oob_de_randomizer p 384 0) =
      some (0, derand_frame data i) := by
  obtain ⟨out, h1, hlo, hvo⟩ := oob_de_randomizer_spec (data.drop i) 384 0
    (by simp only [List.length_drop]; omega)
  rw [withPtr_nat data i (i : Int) rfl (by omega) (fun p => oob_de_randomizer p 384 0) 0 out h1]
  congr 2
  apply ext_getD
  · simp only [List.length_append, List.length_take, hlo, List.length_drop,
      derand_frame_length _ _ hd]
    omega
  · intro k
    rw [derand_frame_getD _ _ _ hd]
    have hlt : (data.take i).length = i := by simp only [List.length_take]; omega
    by_cases h1 : k < i
    · rw [List.getD_append _ _ _ _ (by omega), if_neg (by omega)]
      simp only [List.getD_eq_getElem?_getD, List.getElem?_take_of_lt h1]
    · rw [List.getD_append_right _ _ _ _ (by omega), hlt, hvo (k - i), getD_drop]
      have e : i + (k - i) = k := by omega
      rw [e]
      by_cases h2 : k < i + 384
      · rw [if_pos (by omega), if_pos ⟨by omega, h2⟩]
      · rw [if_neg (by omega), if_neg (by omega)]

theorem emit_blocks_data {σ : Type} (i : Nat) (st : ChunkState σ)
    (hd : i + 384 ≤ st.data.length) (m : Nat) (hm : m ≤ 4) :
    ∃ s, (List.range m).foldlM (emit_block (i : Int)) st = some s ∧
      s.data = st.data ∧ s.data_work = st.data_work ∧ s.fec_error = st.fec_error ∧
      s.g = st.g ∧ s.frames = st.frames ∧
      s.ts_out = st.ts_out ++ emit_blocks st.data i m ∧ s.out_len = st.out_len + 94 * m :=
  foldlM_range_inv (emit_block (i : Int))
    (fun n s => n ≤ 4 → (s.data = st.data ∧ s.data_work = st.data_work ∧
      s.fec_error = st.fec_error ∧ s.g = st.g ∧ s.frames = st.frames ∧
      s.ts_out = st.ts_out ++ emit_blocks st.data i n ∧ s.out_len = st.out_len + 94 * n))
    m st (fun _ => ⟨rfl, rfl, rfl, rfl, rfl, by simp [emit_blocks], by simp⟩)
    (fun n hn s hs => by
      obtain ⟨h1, h2, h3, h4, h5, h6, h7⟩ := hs (by omega)
      have hp : ptrAt s.data ((i : Int) + 96 * (n : Int)) = some (s.data.drop (i + 96 * n)) :=
        ptrAt_nat _ _ _ (by push_cast; ring) (by rw [h1]; omega)
      have hl : 94 ≤ (s.data.drop (i + 96 * n)).length := by
        simp only [List.length_drop, h1]; omega
      unfold emit_block
      rw [hp]
      simp only []
      rw [if_pos hl]
      refine ⟨_, rfl, fun _ => ⟨h1, h2, h3, h4, h5, ?_, ?_⟩⟩
      · simp only [h6, h1, emit_blocks, List.append_assoc]
      · simp only [h7]; push_cast; ring) |>.imp (fun s h => ⟨h.1, h.2 hm⟩)

theorem process_frame_nofec {σ : Type} (C : Codec σ) (i : Nat) (st : ChunkState σ)
    (hd : i + 1152 ≤ st.data.length) (hw : st.data_work.length = 384) :
    ∃ s, process_frame C 0 (i : Int) st = some s ∧
      s.data = derand_frame (deint_frame st.data i) i ∧
      s.ts_out = st.ts_out ++ emit_frame (derand_frame (deint_frame st.data i) i) i ∧
      s.g = st.g ∧ s.fec_error = st.fec_error ∧ s.out_len = st.out_len + 376 ∧
      s.frames = st.frames + 1 ∧ s.data_work.length = 384 := by
  obtain ⟨s1, h1, e1, hw1, f1, t1, o1, g1, fr1⟩ := deinterleave_frame_data i st (by omega) hw
  have hl1 : (deint_frame st.data i).length = st.data.length :=
    deint_frame_length _ _ (by omega)
  have h3 := derandomize_frame_data s1.data i (by rw [e1, hl1]; omega)
  have hl2 : (derand_frame s1.data i).length = st.data.length := by
    rw [derand_frame_length _ _ (by rw [e1, hl1]; omega), e1, hl1]
  obtain ⟨s4, h5, d4, w4, f4, g4, fr4, t4, o4⟩ :=
    emit_blocks_data i { s1 with data := derand_frame s1.data i }
      (by show i + 384 ≤ (derand_frame s1.data i).length; omega) 4 (le_refl _)
  have hz : ¬ ((0 : Int) ≠ 0) := fun h => h rfl
  refine ⟨{ s4 with frames := s4.frames + 1 }, ?_, ?_, ?_, ?_, ?_, ?_, ?_, ?_⟩
  · unfold process_frame
    rw [h1]
    simp only []
    rw [if_neg hz]
    simp only []
    rw [h3]
    simp only []
    rw [if_neg hz]
    simp only []
    rw [h5]
  · show s4.data = _
    rw [d4, e1]
  · show s4.ts_out = _
    rw [t4, e1, t1]
    rfl
  · show s4.g = _
    rw [g4]; exact g1
  · show s4.fec_error = _
    rw [f4]; exact f1
  · show s4.out_len = _
    rw [o4]
    show s1.out_len + 94 * ((4 : Nat) : Int) = _
    rw [o1]; norm_num
  · show s4.frames + 1 = _
    rw [fr4]
    show s1.frames + 1 = _
    rw [fr1]
  · show s4.data_work.length = 384
    rw [w4]; exact hw1

theorem emit_blocks_length (X : List Nat) (i m : Nat) (h : i + 96 * m ≤ X.length + 2) :
    (emit_blocks X i m).length = 94 * m := by
  induction m with
  | zero => rfl
  | succ m ih =>
    simp only [emit_blocks, List.length_append, List.length_take, List.length_drop,
      ih (by omega)]
    omega

theorem emit_blocks_getD (X : List Nat) (i m n j : Nat) (h : i + 96 * m ≤ X.length + 2)
    (hn : n < m) (hj : j < 94) :
    (emit_blocks X i m).getD (94 * n + j) 0 = X.getD (i + 96 * n + j) 0 := by
  induction m with
  | zero => omega
  | succ m ih =>
    have hl := emit_blocks_length X i m (by omega)
    simp only [emit_blocks]
    by_cases hnm : n < m
    · rw [List.getD_append _ _ _ _ (by omega)]
      exact ih (by omega) hnm
    · have e : n = m := by omega
      subst e
      rw [List.getD_append_right _ _ _ _ (by omega), hl]
      have e2 : 94 * n + j - 94 * n = j := by omega
      rw [e2, getD_take_drop _ _ _ _ hj]

theorem frame_out_getD (D : List Nat) (i n j : Nat) (h : i + 384 ≤ D.length)
    (hn : n < 4) (hj : j < 94) :
    (emit_frame (derand_frame (deint_frame D i) i) i).getD (94 * n + j) 0 =
      derand_byte (96 * n + j) (D.getD (i + 96 * n + j + 96 * (j % 8)) 0) := by
  have hl1 := deint_frame_length D i h
  have hl2 := derand_frame_length (deint_frame D i) i (by omega)
  unfold emit_frame
  rw [emit_blocks_getD _ _ _ _ _ (by omega) hn hj, derand_frame_getD _ _ _ (by omega),
    if_pos ⟨by omega, by omega⟩, deint_frame_getD _ _ _ h, if_pos ⟨by omega, by omega⟩]
  have e1 : i + 96 * n + j - i = 96 * n + j := by omega
  have e2 : (96 * n + j) % 8 = j % 8 := by omega
  rw [e1, e2]

theorem emit_frame_length (X : List Nat) (i : Nat) (h : i + 384 ≤ X.length) :
    (emit_frame X i).length = 376 :=
  emit_blocks_length X i 4 (by omega)

theorem is_gap_payload (n j : Nat) (hn : n < 4) (hj : j < 94) :
    is_gap ((96 * n + j) % 384) = false := by
  have e : (96 * n + j) % 384 = 96 * n + j := Nat.mod_eq_of_lt (by omega)
  rw [e]
  simp only [is_gap, Bool.or_eq_false_iff, beq_eq_false_iff_ne, ne_eq]
  omega

theorem derand_byte_payload (n j b : Nat) (hn : n < 4) (hj : j < 94) (hb : b < 256) :
    derand_byte (96 * n + j) b = b ^^^ oob_rand_table.getD (96 * n + j) 0 := by
  have e : (96 * n + j) % 384 = 96 * n + j := Nat.mod_eq_of_lt (by omega)
  have ht : oob_rand_table.getD (96 * n + j) 0 < 2 ^ 8 := rand_table_byte _
  have hb2 : b < 2 ^ 8 := hb
  unfold derand_byte
  rw [if_pos (is_gap_payload n j hn hj), e, Nat.mod_eq_of_lt (Nat.xor_lt_two_pow hb2 ht)]

theorem is_anchor_of_getD (D : List Nat) (I : Nat) (h : I + 192 < D.length)
    (h0 : D.getD I 0 = 0x47) (h1 : D.getD (I + 192) 0 = 0x64) : is_anchor D I 0 := by
  unfold is_anchor
  rw [rdZ_nat D I _ (by omega) (by omega), rdZ_nat D (I + 192) _ (by push_cast; omega) h,
    h0, h1]
  exact ⟨rfl, rfl⟩

theorem getD_of_is_anchor (D : List Nat) (I : Nat) (h : I + 192 < D.length)
    (ha : is_anchor D I 0) : D.getD I 0 = 0x47 ∧ D.getD (I + 192) 0 = 0x64 := by
  unfold is_anchor at ha
  rw [rdZ_nat D I _ (by omega) (by omega),
    rdZ_nat D (I + 192) _ (by push_cast; omega) h] at ha
  exact ⟨Option.some.inj ha.1, Option.some.inj ha.2⟩

theorem first_frame_nofec {σ : Type} (C : Codec σ) (g : Globals σ) (D : List Nat)
    (len : Int) (hl : len ≤ D.length) (hlen : 1152 ≤ len)
    (h0 : D.getD 0 0 = 0x47) (h192 : D.getD 192 0 = 0x64) :
    ∃ r st, process_data_chunk_ideal C g D len 0 = some (r, st) ∧ 376 ≤ st.out_len ∧
      st.ts_out.take 376 = emit_frame (derand_frame (deint_frame D 0) 0) 0 := by
  have hE : (emit_frame (derand_frame (deint_frame D 0) 0) 0).length = 376 := by
    apply emit_frame_length
    rw [derand_frame_length _ _ (by rw [deint_frame_length _ _ (by omega)]; omega),
      deint_frame_length _ _ (by omega)]
    omega
  have hanc : is_anchor D 0 0 := by
    have := is_anchor_of_getD D 0 (by omega) h0 h192
    simpa using this
  obtain ⟨i1, st1, h1, hinv, hI, h2, h3, h4⟩ :=
    oob_process_data_chunk_rule C g D len 0 hl
      (fun i st => (i = 0 ∧ st.data = D ∧ st.ts_out = []) ∨
        (384 ≤ i ∧ st.ts_out.take 376 = emit_frame (derand_frame (deint_frame D 0) 0) 0))
      (fun i st k hi0 hk _ hI _ _ hno => by
        rcases hI with ⟨e1, e2, e3⟩ | ⟨e1, e2⟩
        · left
          subst e1
          rw [e2] at hno
          have : k = 0 := by
            by_contra hne
            exact hno 0 (le_refl _) (by omega) hanc
          exact ⟨by omega, e2, e3⟩
        · right
          exact ⟨by omega, e2⟩)
      (fun I st s hinv hI hb _ hs _ => by
        right
        obtain ⟨s1, hs1, _, t1, _⟩ := process_frame_nofec C I st
          (by have := hinv.1; omega) hinv.2.1
        have es : s1 = s := Option.some.inj (hs1.symm.trans hs)
        subst es
        refine ⟨by omega, ?_⟩
        rcases hI with ⟨e1, e2, e3⟩ | ⟨e1, e2⟩
        · have eI : I = 0 := by omega
          subst eI
          rw [t1, e2, e3, List.nil_append]
          exact List.take_of_length_le (by omega)
        · have hlen2 : 376 ≤ st.ts_out.length := by
            have := congrArg List.length e2
            rw [hE, List.length_take] at this
            omega
          rw [t1, List.take_append_of_le_length hlen2, e2])
      (Or.inl ⟨rfl, rfl, rfl⟩)
  have hts : st1.ts_out.take 376 = emit_frame (derand_frame (deint_frame D 0) 0) 0 := by
    rcases hI with ⟨e1, _, _⟩ | ⟨_, e2⟩
    · rcases h4 with h4 | ⟨_, h6, _⟩
      · omega
      · omega
    · exact e2
  have hout : 376 ≤ st1.out_len := by
    have := congrArg List.length hts
    rw [hE, List.length_take] at this
    have h5 := hinv.2.2.2.1
    have h6 := hinv.2.2.2.2
    omega
  by_cases hr : 0 < len - i1
  · rw [finish_fst_pos _ _ _ hr] at h1
    exact ⟨_, _, h1, hout, hts⟩
  · rw [finish_fst_nonpos _ _ _ hr] at h1
    exact ⟨_, _, h1, hout, hts⟩

/-- The bytes of the first frame, for the loop without the overflow check. -/
theorem ideal_first_frame_bytes {σ : Type} (C : Codec σ) (g : Globals σ) (D : List Nat)
    (len : Int) (hl : len ≤ D.length) (hlen : 1152 ≤ len) (hb : ∀ b ∈ D, b < 256)
    (h0 : D.getD 0 0 = 0x47) (h192 : D.getD 192 0 = 0x64) :
    ∃ r st, process_data_chunk_ideal C g D len 0 = some (r, st) ∧ 376 ≤ st.out_len ∧
      ∀ n < 4, ∀ j < 94, st.ts_out[94 * n + j]? =
        some (D.getD (96 * n + j + 96 * (j % 8)) 0 ^^^ oob_rand_table.getD (96 * n + j) 0) := by
  obtain ⟨r, st, h1, h2, h3⟩ := first_frame_nofec C g D len hl hlen h0 h192
  refine ⟨r, st, h1, h2, ?_⟩
  intro n hn j hj
  have hE : (emit_frame (derand_frame (deint_frame D 0) 0) 0).length = 376 := by
    apply emit_frame_length
    rw [derand_frame_length _ _ (by rw [deint_frame_length _ _ (by omega)]; omega),
      deint_frame_length _ _ (by omega)]
    omega
  have hk : 94 * n + j < 376 := by omega
  have e1 : st.ts_out[94 * n + j]? = (st.ts_out.take 376)[94 * n + j]? := by
    rw [List.getElem?_take_of_lt hk]
  have e2 := frame_out_getD D 0 n j (by omega) hn hj
  rw [e1, h3, List.getElem?_eq_getElem (by rw [hE]; exact hk),
    ← List.getD_eq_getElem _ 0 (by rw [hE]; exact hk), e2]
  congr 1
  have e3 : 0 + 96 * n + j + 96 * (j % 8) = 96 * n + j + 96 * (j % 8) := by omega
  rw [e3]
  exact derand_byte_payload n j _ hn hj (getD_lt_of_all D hb _)

theorem sample_aligned_length : sample_aligned.length = 1152 := by
  simp only [sample_aligned, List.length_append, List.length_replicate, List.length_singleton]

theorem sample_aligned_bytes : ∀ b ∈ sample_aligned, b < 256 := by
  intro b hb
  simp only [sample_aligned, List.mem_append, List.mem_singleton, List.mem_replicate] at hb
  omega

theorem sample_aligned_0 : sample_aligned.getD 0 0 = 0x47 := rfl

theorem sample_aligned_192 : sample_aligned.getD 192 0 = 0x64 := by
  have h1 : ([0x47] ++ List.replicate 191 1 : List Nat).length = 192 := by
    simp only [List.length_append, List.length_replicate, List.length_singleton]
  unfold sample_aligned
  rw [List.append_assoc, List.getD_append_right _ _ _ _ (by omega), h1]
  rfl

set_option maxRecDepth 100000 in
theorem derand_sync_bytes : derand_byte 0 0x47 = 0x47 ∧ derand_byte 192 0x64 = 0x47 := by
  decide

theorem frame_out_sync (D : List Nat) (I : Nat) (h : I + 384 ≤ D.length)
    (ha : is_anchor D I 0) :
    (emit_frame (derand_frame (deint_frame D I) I) I).getD 0 0 = 0x47 ∧
      (emit_frame (derand_frame (deint_frame D I) I) I).getD 188 0 = 0x47 := by
  obtain ⟨a0, a1⟩ := getD_of_is_anchor D I (by omega) ha
  have e0 := frame_out_getD D I 0 0 h (by decide) (by decide)
  have e1 := frame_out_getD D I 2 0 h (by decide) (by decide)
  simp only [Nat.mul_zero, Nat.add_zero, Nat.zero_mod] at e0 e1
  rw [a0] at e0
  rw [show I + 96 * 2 = I + 192 from rfl, a1] at e1
  exact ⟨e0.trans derand_sync_bytes.1, e1.trans derand_sync_bytes.2⟩

theorem packets_nofec {σ : Type} (C : Codec σ) (g : Globals σ) (D : List Nat)
    (len : Int) (hl : len ≤ D.length) :
    ∃ r st, process_data_chunk_ideal C g D len 0 = some (r, st) ∧
      st.out_len = 376 * (st.frames : Int) ∧ st.ts_out.length = 376 * st.frames ∧
      (∀ j : Nat, 188 * j < st.ts_out.length → st.ts_out.getD (188 * j) 0 = 0x47) ∧
      (1152 ≤ len → len < 1536 → is_anchor D 0 0 → st.frames = 1) := by
  obtain ⟨i1, st1, h1, hinv, ⟨p1, p2, p3, p4⟩, h2, h3, h4⟩ :=
    oob_process_data_chunk_rule C g D len 0 hl (sync_inv D len)
      (fun i st k hi0 hk _ hI _ _ hno => by
        obtain ⟨p1, p2, p3, p4⟩ := hI
        refine ⟨p1, by omega, p3, fun ha => ?_⟩
        rcases p4 ha with ⟨e1, e2⟩ | e1
        · left
          subst e1
          rw [e2] at hno
          have : k = 0 := by
            by_contra hne
            exact hno 0 (le_refl _) (by omega) ha
          exact ⟨by omega, e2⟩
        · exact Or.inr e1)
      (fun I st s hinv hI hb ha hs hpost => by
        obtain ⟨p1, p2, p3, p4⟩ := hI
        obtain ⟨s1, hs1, _, t1, _, _, _, fr1, _⟩ := process_frame_nofec C I st
          (by have := hinv.1; omega) hinv.2.1
        have es : s1 = s := Option.some.inj (hs1.symm.trans hs)
        subst es
        have hE := emit_frame_length (derand_frame (deint_frame st.data I) I) I
          (by rw [derand_frame_length _ _ (by
                rw [deint_frame_length _ _ (by have := hinv.1; omega)]
                have := hinv.1; omega),
              deint_frame_length _ _ (by have := hinv.1; omega)]
              have := hinv.1; omega)
        obtain ⟨q0, q1⟩ := frame_out_sync st.data I (by have := hinv.1; omega) ha
        have hts := hinv.2.2.2.2
        refine ⟨?_, by rw [fr1]; push_cast; omega, fun hlt => by rw [fr1]; omega,
          fun _ => Or.inr (by rw [fr1]; omega)⟩
        intro j hj
        rw [t1] at hj ⊢
        rw [List.length_append, hE] at hj
        by_cases hjl : 188 * j < st.ts_out.length
        · rw [List.getD_append _ _ _ _ hjl]
          exact p1 j hjl
        · rw [List.getD_append_right _ _ _ _ (by omega)]
          have hc : 188 * j - st.ts_out.length = 0 ∨ 188 * j - st.ts_out.length = 188 := by
            omega
          rcases hc with hc | hc
          · rw [hc]; exact q0
          · rw [hc]; exact q1)
      ⟨fun j hj => absurd hj (Nat.not_lt_zero _), le_refl _, fun _ => Nat.zero_le _,
        fun _ => Or.inl ⟨rfl, rfl⟩⟩
  have hfr : 1152 ≤ len → len < 1536 → is_anchor D 0 0 → st1.frames = 1 := by
    intro ha hb hc
    have h5 := p3 hb
    rcases p4 hc with ⟨e1, _⟩ | e1
    · rcases h4 with h4 | ⟨_, h6, _⟩
      · omega
      · omega
    · omega
  by_cases hr : 0 < len - i1
  · rw [finish_fst_pos _ _ _ hr] at h1
    exact ⟨_, _, h1, hinv.2.2.2.1, hinv.2.2.2.2, p1, hfr⟩
  · rw [finish_fst_nonpos _ _ _ hr] at h1
    exact ⟨_, _, h1, hinv.2.2.2.1, hinv.2.2.2.2, p1, hfr⟩

set_option maxRecDepth 100000 in
theorem rand_table_sync :
    oob_rand_table[0]? = some 0x00 ∧ oob_rand_table[192]? = some 0x23 ∧
      0x23 ^^^ 0x47 = 0x64 := by decide

/-- Emitted packets start with `0x47`, for the loop without the overflow check. -/
theorem ideal_packets_start_with_sync {σ : Type} (C : Codec σ) (g : Globals σ)
    (D : List Nat) (len : Int) (hl : len ≤ D.length) :
    ∃ r st, process_data_chunk_ideal C g D len 0 = some (r, st) ∧
      (∀ j : Nat, 188 * (j : Int) < st.out_len → st.ts_out[188 * j]? = some 0x47) ∧
      (1152 ≤ len → len < 1536 → D[0]? = some 0x47 → D[192]? = some 0x64 →
        st.out_len = 376 ∧ st.ts_out[0]? = some 0x47 ∧ st.ts_out[188]? = some 0x47) ∧
      oob_rand_table[0]? = some 0x00 ∧ oob_rand_table[192]? = some 0x23 ∧
      0x23 ^^^ 0x47 = 0x64 := by
  obtain ⟨r, st, h1, ho, ht, hp, hfr⟩ := packets_nofec C g D len hl
  have hall : ∀ j : Nat, 188 * (j : Int) < st.out_len → st.ts_out[188 * j]? = some 0x47 := by
    intro j hj
    have hlt : 188 * j < st.ts_out.length := by omega
    rw [List.getElem?_eq_getElem hlt, ← List.getD_eq_getElem _ 0 hlt, hp j hlt]
  refine ⟨r, st, h1, hall, ?_, rand_table_sync⟩
  intro ha hb h0 h192
  have hanc : is_anchor D 0 0 := by
    have e0 : D.getD 0 0 = 0x47 := by simp [List.getD, h0]
    have e1 : D.getD (0 + 192) 0 = 0x64 := by simp [List.getD, h192]
    have := is_anchor_of_getD D 0 (by omega) e0 e1
    simpa using this
  have hf := hfr ha hb hanc
  have hout : st.out_len = 376 := by rw [ho, hf]; rfl
  exact ⟨hout, hall 0 (by rw [hout]; decide), hall 1 (by rw [hout]; decide)⟩

theorem de_fec_total_spec {σ : Type} (C : Codec σ) (g : Globals σ) (d : List Nat)
    (h : 96 ≤ d.length) :
    oob_de_fec C g d = some (de_fec_total C g d) ∧
      ∃ blk, (de_fec_total C g d).2 = blk ++ d.drop 96 ∧ blk.length = 96 := by
  obtain ⟨r, g1, blk, h1, hb⟩ := oob_de_fec_spec C g d h
  have e : de_fec_total C g d = ((r, g1), blk ++ d.drop 96) := by
    unfold de_fec_total
    rw [h1]
    rfl
  rw [e]
  exact ⟨h1, blk, rfl, hb⟩

theorem fec_loop_eq {σ : Type} (C : Codec σ) (i : Nat) (st : ChunkState σ)
    (hd : i + 384 ≤ st.data.length) (hf : st.fec_error.length = 4) (m : Nat) (hm : m ≤ 4) :
    ∃ s, (List.range m).foldlM (fec_block C (i : Int)) st = some s ∧
      (s.g, s.data, s.fec_error) =
        (List.range m).foldl (fec_stage C i) (st.g, st.data, st.fec_error) ∧
      s.data.length = st.data.length ∧ s.fec_error.length = 4 ∧
      same_outside s.data st.data i (i + 96 * m) ∧
      s.data_work = st.data_work ∧ s.ts_out = st.ts_out ∧ s.out_len = st.out_len ∧
      s.frames = st.frames :=
  foldlM_range_inv (fec_block C (i : Int))
    (fun n s => n ≤ 4 → ((s.g, s.data, s.fec_error) =
        (List.range n).foldl (fec_stage C i) (st.g, st.data, st.fec_error) ∧
      s.data.length = st.data.length ∧ s.fec_error.length = 4 ∧
      same_outside s.data st.data i (i + 96 * n) ∧
      s.data_work = st.data_work ∧ s.ts_out = st.ts_out ∧ s.out_len = st.out_len ∧
      s.frames = st.frames))
    m st (fun _ => ⟨by simp, rfl, hf, same_outside_refl _ _ _, rfl, rfl, rfl, rfl⟩)
    (fun n hn s hs => by
      obtain ⟨h1, h2, h3, h3b, h4, h5, h6, h7⟩ := hs (by omega)
      have hlen : 96 ≤ (s.data.drop (i + 96 * n)).length := by
        simp only [List.length_drop]; omega
      obtain ⟨e1, blk, e2, e3⟩ := de_fec_total_spec C s.g (s.data.drop (i + 96 * n)) hlen
      have hw := withPtr_nat s.data (i + 96 * n) ((i : Int) + (n : Int) * 96)
        (by push_cast; ring) (by omega) (oob_de_fec C s.g)
        (de_fec_total C s.g (s.data.drop (i + 96 * n))).1
        (de_fec_total C s.g (s.data.drop (i + 96 * n))).2 e1
      have hwr : wr s.fec_error n (de_fec_total C s.g (s.data.drop (i + 96 * n))).1.1 =
          some (s.fec_error.set n (de_fec_total C s.g (s.data.drop (i + 96 * n))).1.1) := by
        simp [wr]; omega
      refine ⟨_, by unfold fec_block; rw [hw]; simp only []; rw [hwr], fun _ => ?_⟩
      have hr : List.range (n + 1) = List.range n ++ [n] := List.range_succ n
      refine ⟨?_, ?_, by simp [h3], ?_, h4, h5, h6, h7⟩
      · rw [hr, List.foldl_append, ← h1]
        rfl
      · simp only [List.length_append, List.length_take, e2, e3, List.length_drop]
        omega
      · have hsp : same_outside (s.data.take (i + 96 * n) ++
            (de_fec_total C s.g (s.data.drop (i + 96 * n))).2) s.data (i + 96 * n)
            (i + 96 * n + 96) := by
          rw [e2]
          exact splice_same_outside s.data blk (i + 96 * n) 96 e3 (by omega)
        exact same_outside_trans hsp h3b (by omega) (le_refl _) (by omega) (by omega))
    |>.imp (fun s h => ⟨h.1, h.2 hm⟩)

theorem tei_stage_length (i : Nat) (fe : List Int) (data : List Nat) (n : Nat) :
    (tei_stage i fe data n).length = data.length := by
  unfold tei_stage
  split <;> simp

theorem tei_loop_eq {σ : Type} (i : Nat) (st : ChunkState σ)
    (hd : i + 384 ≤ st.data.length) (hf : st.fec_error.length = 4) (m : Nat) (hm : m ≤ 2) :
    ∃ s, (List.range m).foldlM (tei_step (i : Int)) st = some s ∧
      s.data = (List.range m).foldl (tei_stage i st.fec_error) st.data ∧
      s.data.length = st.data.length ∧ s.fec_error = st.fec_error ∧ s.g = st.g ∧
      s.data_work = st.data_work ∧ s.ts_out = st.ts_out ∧ s.out_len = st.out_len ∧
      s.frames = st.frames :=
  foldlM_range_inv (tei_step (i : Int))
    (fun n s => n ≤ 2 → (s.data = (List.range n).foldl (tei_stage i st.fec_error) st.data ∧
      s.data.length = st.data.length ∧ s.fec_error = st.fec_error ∧ s.g = st.g ∧
      s.data_work = st.data_work ∧ s.ts_out = st.ts_out ∧ s.out_len = st.out_len ∧
      s.frames = st.frames))
    m st (fun _ => ⟨by simp, rfl, rfl, rfl, rfl, rfl, rfl, rfl⟩)
    (fun n hn s hs => by
      obtain ⟨h1, h2, h3, h4, h5, h6, h7, h8⟩ := hs (by omega)
      have hr : List.range (n + 1) = List.range n ++ [n] := List.range_succ n
      have ha : rd s.fec_error (n * 2) = some (s.fec_error.getD (n * 2) 0) := by
        have hlt : n * 2 < s.fec_error.length := by rw [h3]; omega
        simp [rd, List.getD, List.getElem?_eq_getElem hlt]
      have hb : rd s.fec_error (n * 2 + 1) = some (s.fec_error.getD (n * 2 + 1) 0) := by
        have hlt : n * 2 + 1 < s.fec_error.length := by rw [h3]; omega
        simp [rd, List.getD, List.getElem?_eq_getElem hlt]
      have hidx : (i : Int) + (n : Int) * 192 + 1 = ((i + n * 192 + 1 : Nat) : Int) := by
        push_cast; ring
      have hlt : i + n * 192 + 1 < s.data.length := by omega
      have hstep : tei_step (i : Int) s n =
          some { s with data := tei_stage i s.fec_error s.data n } := by
        unfold tei_step tei_stage
        rw [ha, hb]
        simp only []
        by_cases hc : s.fec_error.getD (n * 2) 0 < 0 ∨ s.fec_error.getD (n * 2 + 1) 0 < 0
        · rw [if_pos hc, if_pos hc, rdZ_nat s.data _ _ hidx hlt]
          simp only []
          rw [wrZ_nat s.data _ _ hidx hlt]
        · rw [if_neg hc, if_neg hc]
      refine ⟨_, hstep, fun _ => ⟨?_, ?_, h3, h4, h5, h6, h7, h8⟩⟩
      · show tei_stage i s.fec_error s.data n = _
        rw [hr, List.foldl_append, ← h1, h3]
        rfl
      · show (tei_stage i s.fec_error s.data n).length = _
        rw [tei_stage_length, h2])
    |>.imp (fun s h => ⟨h.1, h.2 hm⟩)

theorem frame_pure_fec {σ : Type} (C : Codec σ) (do_fec : Int) (i : Nat) (g : Globals σ)
    (fe : List Int) (data : List Nat) (h : do_fec ≠ 0) :
    frame_pure C do_fec i g fe data =
      ((fec_frame C i g (deint_frame data i) fe).1,
        (fec_frame C i g (deint_frame data i) fe).2.2,
        tei_frame i (fec_frame C i g (deint_frame data i) fe).2.2
          (derand_frame (fec_frame C i g (deint_frame data i) fe).2.1 i)) := by
  unfold frame_pure
  rw [if_pos h]

theorem frame_pure_nofec {σ : Type} (C : Codec σ) (i : Nat) (g : Globals σ)
    (fe : List Int) (data : List Nat) :
    frame_pure C 0 i g fe data = (g, fe, derand_frame (deint_frame data i) i) := by
  unfold frame_pure
  rw [if_neg (fun h => h rfl)]

theorem process_frame_eq {σ : Type} (C : Codec σ) (do_fec : Int) (i : Nat)
    (st : ChunkState σ) (hd : i + 1152 ≤ st.data.length)
    (hw : st.data_work.length = 384) (hf : st.fec_error.length = 4) :
    ∃ s, process_frame C do_fec (i : Int) st = some s ∧
      s.g = (frame_pure C do_fec i st.g st.fec_error st.data).1 ∧
      s.fec_error = (frame_pure C do_fec i st.g st.fec_error st.data).2.1 ∧
      s.data = (frame_pure C do_fec i st.g st.fec_error st.data).2.2 ∧
      s.ts_out = st.ts_out ++ emit_frame s.data i ∧ s.out_len = st.out_len + 376 ∧
      s.frames = st.frames + 1 ∧ s.data_work.length = 384 ∧
      s.data.length = st.data.length ∧ s.fec_error.length = 4 := by
  by_cases hfec : do_fec ≠ 0
  · obtain ⟨s1, h1, e1, hw1, f1, t1, o1, g1, fr1⟩ :=
      deinterleave_frame_data i st (by omega) hw
    have hl1 : s1.data.length = st.data.length := by
      rw [e1]; exact deint_frame_length _ _ (by omega)
    obtain ⟨s2, h2, e2, hl2, hf2, _, w2, t2, o2, fr2⟩ :=
      fec_loop_eq C i s1 (by omega) (by rw [f1]; exact hf) 4 (le_refl _)
    have e2g : s2.g = (fec_frame C i st.g (deint_frame st.data i) st.fec_error).1 := by
      have := congrArg (fun x => x.1) e2
      simp only [] at this
      rw [this, g1, e1, f1]
      rfl
    have e2d : s2.data = (fec_frame C i st.g (deint_frame st.data i) st.fec_error).2.1 := by
      have := congrArg (fun x => x.2.1) e2
      simp only [] at this
      rw [this, g1, e1, f1]
      rfl
    have e2f : s2.fec_error =
        (fec_frame C i st.g (deint_frame st.data i) st.fec_error).2.2 := by
      have := congrArg (fun x => x.2.2) e2
      simp only [] at this
      rw [this, g1, e1, f1]
      rfl
    have h3 := derandomize_frame_data s2.data i (by omega)
    have hl3 : (derand_frame s2.data i).length = st.data.length := by
      rw [derand_frame_length _ _ (by omega)]; omega
    obtain ⟨s3, h4, e3, hl4, f3, g3, w3, t3, o3, fr3⟩ :=
      tei_loop_eq i { s2 with data := derand_frame s2.data i }
        (by show i + 384 ≤ (derand_frame s2.data i).length; omega) hf2 2 (le_refl _)
    have hl4b : s3.data.length = st.data.length := by
      rw [hl4]; exact hl3
    obtain ⟨s4, h5, d4, w4, f4, g4, fr4, t4, o4⟩ :=
      emit_blocks_data i s3 (by omega) 4 (le_refl _)
    have hdata : s3.data = (frame_pure C do_fec i st.g st.fec_error st.data).2.2 := by
      rw [frame_pure_fec C do_fec i _ _ _ hfec, e3]
      show tei_frame i s2.fec_error (derand_frame s2.data i) = _
      rw [e2f, e2d]
    refine ⟨{ s4 with frames := s4.frames + 1 }, ?_, ?_, ?_, ?_, ?_, ?_, ?_, ?_, ?_, ?_⟩
    · unfold process_frame
      rw [h1]
      simp only []
      rw [if_pos hfec, h2]
      simp only []
      rw [h3]
      simp only []
      rw [if_pos hfec, h4]
      simp only []
      rw [h5]
    · show s4.g = _
      rw [g4, g3, frame_pure_fec C do_fec i _ _ _ hfec]
      exact e2g
    · show s4.fec_error = _
      rw [f4, f3, frame_pure_fec C do_fec i _ _ _ hfec]
      exact e2f
    · show s4.data = _
      rw [d4]; exact hdata
    · show s4.ts_out = st.ts_out ++ emit_frame s4.data i
      rw [t4, d4, t3]
      show s2.ts_out ++ _ = _
      rw [t2, t1]
      rfl
    · show s4.out_len = _
      rw [o4, o3]
      show s2.out_len + 94 * ((4 : Nat) : Int) = _
      rw [o2, o1]; norm_num
    · show s4.frames + 1 = _
      rw [fr4, fr3]
      show s2.frames + 1 = _
      rw [fr2, fr1]
    · show s4.data_work.length = 384
      rw [w4, w3]
      show s2.data_work.length = 384
      rw [w2]; exact hw1
    · show s4.data.length = _
      rw [d4]; exact hl4b
    · show s4.fec_error.length = 4
      rw [f4, f3]; exact hf2
  · have hz : do_fec = 0 := by
      by_contra h; exact hfec h
    subst hz
    obtain ⟨s, h1, h2, h3, h4, h5, h6, h7, h8⟩ := process_frame_nofec C i st hd hw
    have hl : s.data.length = st.data.length := by
      rw [h2, derand_frame_length _ _ (by rw [deint_frame_length _ _ (by omega)]; omega),
        deint_frame_length _ _ (by omega)]
    refine ⟨s, h1, ?_, ?_, ?_, ?_, h6, h7, h8, hl, by rw [h5]; exact hf⟩
    · rw [frame_pure_nofec]; exact h4
    · rw [frame_pure_nofec]; exact h5
    · rw [frame_pure_nofec]; exact h2
    · rw [h3, h2]

theorem drop_eq_of_same_outside (a b : List Nat) (lo hi : Nat) (h : same_outside a b lo hi) :
    a.drop hi = b.drop hi := by
  apply ext_getD
  · simp only [List.length_drop, h.1]
  · intro k
    rw [getD_drop, getD_drop]
    exact h.2 _ (Or.inr (by omega))

theorem fec_stage_def {σ : Type} (C : Codec σ) (i : Nat)
    (acc : Globals σ × List Nat × List Int) (n : Nat) :
    fec_stage C i acc n =
      ((de_fec_total C acc.1 (acc.2.1.drop (i + 96 * n))).1.2,
        acc.2.1.take (i + 96 * n) ++ (de_fec_total C acc.1 (acc.2.1.drop (i + 96 * n))).2,
        acc.2.2.set n (de_fec_total C acc.1 (acc.2.1.drop (i + 96 * n))).1.1) := rfl

theorem fec_acc_spec {σ : Type} (C : Codec σ) (i : Nat) (g : Globals σ) (data : List Nat)
    (fe : List Int) (hd : i + 384 ≤ data.length) (m : Nat) (hm : m ≤ 4) :
    ((List.range m).foldl (fec_stage C i) (g, data, fe)).2.1.length = data.length ∧
      same_outside ((List.range m).foldl (fec_stage C i) (g, data, fe)).2.1 data i (i + 96 * m) ∧
      ((List.range m).foldl (fec_stage C i) (g, data, fe)).2.2.length = fe.length ∧
      ∀ n, ((List.range m).foldl (fec_stage C i) (g, data, fe)).2.2.getD n 0 =
        if n < m ∧ n < fe.length then
          (de_fec_total C ((List.range n).foldl (fec_stage C i) (g, data, fe)).1
            (data.drop (i + 96 * n))).1.1
        else fe.getD n 0 := by
  induction m with
  | zero =>
    refine ⟨rfl, same_outside_refl _ _ _, rfl, fun n => ?_⟩
    rw [if_neg (by omega)]
    rfl
  | succ m ih =>
    obtain ⟨h1, h2, h3, h4⟩ := ih (by omega)
    have hr : List.range (m + 1) = List.range m ++ [m] := List.range_succ m
    rw [hr, List.foldl_append]
    simp only [List.foldl_cons, List.foldl_nil]
    have hdrop : ((List.range m).foldl (fec_stage C i) (g, data, fe)).2.1.drop (i + 96 * m) =
        data.drop (i + 96 * m) := drop_eq_of_same_outside _ _ _ _ h2
    have hlen : 96 ≤ (data.drop (i + 96 * m)).length := by
      simp only [List.length_drop]; omega
    obtain ⟨_, blk, e2, e3⟩ := de_fec_total_spec C
      ((List.range m).foldl (fec_stage C i) (g, data, fe)).1 (data.drop (i + 96 * m)) hlen
    have hsp := splice_same_outside
      ((List.range m).foldl (fec_stage C i) (g, data, fe)).2.1 blk (i + 96 * m) 96 e3
      (by omega)
    rw [hdrop] at hsp
    rw [fec_stage_def, hdrop]
    simp only []
    refine ⟨?_, ?_, by simp [h3], fun n => ?_⟩
    · rw [e2]; exact hsp.1.trans h1
    · rw [e2]
      exact same_outside_trans hsp h2 (by omega) (le_refl _) (by omega) (by omega)
    · simp only [List.getD_eq_getElem?_getD, List.getElem?_set, h3]
      by_cases hn : m = n
      · subst hn
        by_cases hl : m < fe.length
        · rw [if_pos rfl, if_pos hl, if_pos ⟨by omega, hl⟩]
          simp only [Option.getD_some]
        · rw [if_pos rfl, if_neg hl, if_neg (by omega)]
          rw [List.getElem?_eq_none (by omega)]
      · rw [if_neg hn]
        have := h4 n
        simp only [List.getD_eq_getElem?_getD] at this
        rw [this]
        by_cases hc : n < m ∧ n < fe.length
        · rw [if_pos hc, if_pos ⟨by omega, hc.2⟩]
        · rw [if_neg hc, if_neg (by omega)]

theorem tei_stage_getD (i : Nat) (fe : List Int) (data : List Nat) (n k : Nat)
    (h : i + n * 192 + 1 < data.length) :
    (tei_stage i fe data n).getD k 0 =
      if k = i + n * 192 + 1 ∧ (fe.getD (n * 2) 0 < 0 ∨ fe.getD (n * 2 + 1) 0 < 0) then
        (data.getD k 0 ||| 0x80) % 256
      else data.getD k 0 := by
  unfold tei_stage
  by_cases hc : fe.getD (n * 2) 0 < 0 ∨ fe.getD (n * 2 + 1) 0 < 0
  · rw [if_pos hc, getD_set_nat _ _ _ _ h]
    by_cases hk : k = i + n * 192 + 1
    · rw [if_pos hk, if_pos ⟨hk, hc⟩, hk]
    · rw [if_neg hk, if_neg (fun h => hk h.1)]
  · rw [if_neg hc, if_neg (fun h => hc h.2)]

theorem tei_frame_getD (i : Nat) (fe : List Int) (data : List Nat) (k : Nat)
    (hd : i + 384 ≤ data.length) :
    (tei_frame i fe data).getD k 0 =
      if (k = i + 1 ∧ (fe.getD 0 0 < 0 ∨ fe.getD 1 0 < 0)) ∨
          (k = i + 193 ∧ (fe.getD 2 0 < 0 ∨ fe.getD 3 0 < 0)) then
        (data.getD k 0 ||| 0x80) % 256
      else data.getD k 0 := by
  have hr : List.range 2 = [0, 1] := rfl
  unfold tei_frame
  rw [hr]
  simp only [List.foldl_cons, List.foldl_nil]
  have hl0 : (tei_stage i fe data 0).length = data.length := tei_stage_length _ _ _ _
  rw [tei_stage_getD i fe _ 1 k (by omega), tei_stage_getD i fe data 0 k (by omega)]
  simp only [Nat.zero_mul, Nat.zero_add, Nat.add_zero, Nat.one_mul]
  have e193 : i + 192 + 1 = i + 193 := rfl
  have e3 : (2 : Nat) + 1 = 3 := rfl
  rw [e193, e3]
  by_cases hk1 : k = i + 1
  · have hk3 : ¬ k = i + 193 := by omega
    rw [if_neg (fun h => hk3 h.1)]
    by_cases hc : fe.getD 0 0 < 0 ∨ fe.getD 1 0 < 0
    · rw [if_pos ⟨hk1, hc⟩, if_pos (Or.inl ⟨hk1, hc⟩)]
    · rw [if_neg (fun h => hc h.2), if_neg (fun h => h.elim (fun h => hc h.2) (fun h => hk3 h.1))]
  · have hn : ¬ (k = i + 1 ∧ (fe.getD 0 0 < 0 ∨ fe.getD 1 0 < 0)) := fun h => hk1 h.1
    rw [if_neg hn]
    by_cases hc : k = i + 193 ∧ (fe.getD 2 0 < 0 ∨ fe.getD 3 0 < 0)
    · rw [if_pos hc, if_pos (Or.inr hc)]
    · rw [if_neg hc, if_neg (fun h => h.elim hn hc)]

theorem tei_frame_length (i : Nat) (fe : List Int) (data : List Nat) :
    (tei_frame i fe data).length = data.length := by
  have hr : List.range 2 = [0, 1] := rfl
  unfold tei_frame
  rw [hr]
  simp only [List.foldl_cons, List.foldl_nil, tei_stage_length]

theorem tei_bit_set (v : Nat) : Nat.testBit ((v ||| 0x80) % 256) 7 = true := by
  have h : (256 : Nat) = 2 ^ 8 := rfl
  rw [h, Nat.testBit_mod_two_pow, Nat.testBit_or]
  simp
  right
  decide

theorem chunk_inv_frame {σ : Type} (len : Int) (I : Nat) (st s : ChunkState σ)
    (hinv : chunk_inv len st) (hpost : frame_post st I s) : chunk_inv len s := by
  obtain ⟨hl, hw, hfe, hout, hts⟩ := hinv
  obtain ⟨hso, hw1, hfe1, hout1, hfr1, hts1⟩ := hpost
  refine ⟨by rw [hso.1]; exact hl, hw1, hfe1, ?_, ?_⟩
  · rw [hout1, hfr1, hout]; push_cast; ring
  · rw [hts1, hfr1, hts]; ring

theorem chunk_loop_sim {σ1 σ2 : Type} (C1 : Codec σ1) (C2 : Codec σ2)
    (len1 len2 f1 f2 a : Int) (hlen : len2 = len1 - a)
    (R : ChunkState σ1 → ChunkState σ2 → Prop)
    (hsync : ∀ (i : Int) (st : ChunkState σ1) (st' : ChunkState σ2), R st st' →
      chunk_inv len1 st → chunk_inv len2 st' → a ≤ i → 0 ≤ i →
      oob_synchronize_bitstream st'.data (i - a) len2 =
        oob_synchronize_bitstream st.data i len1)
    (hframe : ∀ (I J : Nat) (st s : ChunkState σ1) (st' s' : ChunkState σ2), R st st' →
      chunk_inv len1 st → chunk_inv len2 st' → (J : Int) = (I : Int) - a →
      (I : Int) + 1152 ≤ len1 → process_frame C1 f1 I st = some s →
      process_frame C2 f2 J st' = some s' → R s s') :
    ∀ (fuel1 fuel2 : Nat) (i : Int) (st : ChunkState σ1) (st' : ChunkState σ2),
      a ≤ i → 0 ≤ i → R st st' → chunk_inv len1 st → chunk_inv len2 st' →
      (len1 - i).toNat + 1 ≤ fuel1 → (len2 - (i - a)).toNat + 1 ≤ fuel2 →
      ∃ i1 s s', chunk_loop_ideal C1 len1 f1 fuel1 i st = some (i1, s) ∧
        chunk_loop_ideal C2 len2 f2 fuel2 (i - a) st' = some (i1 - a, s') ∧ R s s' ∧
        chunk_inv len1 s ∧ chunk_inv len2 s' ∧ i ≤ i1 := by
  intro fuel1
  induction fuel1 with
  | zero => intro _ i st st' _ _ _ _ _ hf; omega
  | succ fuel1 ih =>
    intro fuel2 i st st' hai hi hR hinv hinv' hf1 hf2
    cases fuel2 with
    | zero => omega
    | succ fuel2 =>
      unfold chunk_loop_ideal
      by_cases hc : i + 383 < len1
      · have hc' : i - a + 383 < len2 := by omega
        rw [if_pos hc, if_pos hc']
        obtain ⟨k, h1, h2, _, h4⟩ := oob_synchronize_bitstream_spec st.data i len1 hi hinv.1
        rw [hsync i st st' hR hinv hinv' hai hi, h1]
        simp only []
        by_cases hb : i + k + 384 + 768 > len1
        · have hb' : i - a + k + 384 + 768 > len2 := by omega
          rw [if_pos hb, if_pos hb']
          refine ⟨i + k, st, st', rfl, ?_, hR, hinv, hinv', by omega⟩
          have e : i - a + k = i + k - a := by ring
          rw [e]
        · have hb' : ¬ (i - a + k + 384 + 768 > len2) := by omega
          rw [if_neg hb, if_neg hb']
          obtain ⟨I, hI⟩ := Int.eq_ofNat_of_zero_le (show 0 ≤ i + k by omega)
          obtain ⟨J, hJ⟩ := Int.eq_ofNat_of_zero_le (show 0 ≤ i - a + k by omega)
          rw [hI, hJ]
          obtain ⟨s, hs, hpost⟩ := process_frame_spec C1 f1 I st
            (by have := hinv.1; omega) hinv.2.1 hinv.2.2.1
          obtain ⟨s', hs', hpost'⟩ := process_frame_spec C2 f2 J st'
            (by have := hinv'.1; omega) hinv'.2.1 hinv'.2.2.1
          rw [hs, hs']
          simp only []
          have hRs := hframe I J st s st' s' hR hinv hinv' (by omega) (by omega) hs hs'
          obtain ⟨i1, t, t', e1, e2, e3, e4, e5, e6⟩ :=
            ih fuel2 ((I : Int) + 384) s s' (by omega) (by omega) hRs
              (chunk_inv_frame len1 I st s hinv hpost)
              (chunk_inv_frame len2 J st' s' hinv' hpost') (by omega) (by omega)
          refine ⟨i1, t, t', e1, ?_, e3, e4, e5, by omega⟩
          have e : (J : Int) + 384 = (I : Int) + 384 - a := by omega
          rw [e]
          exact e2
      · have hc' : ¬ (i - a + 383 < len2) := by omega
        rw [if_neg hc, if_neg hc']
        exact ⟨i, st, st', rfl, rfl, hR, hinv, hinv', le_refl _⟩

theorem chunk_loop_fuel {σ : Type} (C : Codec σ) (len do_fec : Int) (fuel : Nat) (i : Int)
    (st : ChunkState σ) (hi : 0 ≤ i) (hinv : chunk_inv len st)
    (hf : (len - i).toNat + 1 ≤ fuel) :
    chunk_loop_ideal C len do_fec fuel i st = chunk_run C len do_fec i st := by
  obtain ⟨i1, s, s', e1, e2, e3, _⟩ :=
    chunk_loop_sim C C len len do_fec do_fec 0 (by omega) (fun s s' => s = s')
      (fun i st st' hR _ _ _ _ => by rw [hR, Int.sub_zero])
      (fun I J st s st' s' hR _ _ hJ _ hs hs' => by
        have hJI : J = I := by omega
        rw [hJI, ← hR, hs] at hs'
        exact Option.some.inj hs')
      fuel ((len - i).toNat + 1) i st st (by omega) hi rfl hinv hinv hf (by omega)
  unfold chunk_run
  rw [e1]
  simp only [Int.sub_zero] at e2
  rw [e2, e3]

theorem chunk_run_unfold {σ : Type} (C : Codec σ) (len do_fec : Int) (i : Int)
    (st : ChunkState σ) (hi : 0 ≤ i) (hinv : chunk_inv len st) :
    chunk_run C len do_fec i st =
      if i + 383 < len then
        match oob_synchronize_bitstream st.data i len with
        | none => none
        | some k =>
          if i + k + 384 + 768 > len then some (i + k, st)
          else
            match process_frame C do_fec (i + k) st with
            | none => none
            | some st1 => chunk_run C len do_fec (i + k + 384) st1
      else some (i, st) := by
  have h0 : chunk_run C len do_fec i st =
      chunk_loop_ideal C len do_fec ((len - i).toNat + 1) i st := rfl
  rw [h0]
  unfold chunk_loop_ideal
  by_cases hc : i + 383 < len
  · rw [if_pos hc, if_pos hc]
    obtain ⟨k, h1, h2, _, _⟩ := oob_synchronize_bitstream_spec st.data i len hi hinv.1
    rw [h1]
    simp only []
    by_cases hb : i + k + 384 + 768 > len
    · rw [if_pos hb, if_pos hb]
    · rw [if_neg hb, if_neg hb]
      obtain ⟨I, hI⟩ := Int.eq_ofNat_of_zero_le (show 0 ≤ i + k by omega)
      rw [hI]
      obtain ⟨s, hs, hpost⟩ := process_frame_spec C do_fec I st
        (by have := hinv.1; omega) hinv.2.1 hinv.2.2.1
      rw [hs]
      simp only []
      exact chunk_loop_fuel C len do_fec _ _ s (by omega)
        (chunk_inv_frame len I st s hinv hpost) (by omega)
  · rw [if_neg hc, if_neg hc]

theorem call_eq_run {σ : Type} (C : Codec σ) (g : Globals σ) (data : List Nat)
    (len do_fec : Int) (hl : len ≤ data.length) :
    ∃ i1 st1, chunk_run C len do_fec 0 (start_state C g data do_fec) = some (i1, st1) ∧
      process_data_chunk_ideal C g data len do_fec = some (finish len i1 st1) ∧
      chunk_inv len st1 ∧ 0 ≤ i1 ∧ i1 ≤ max len 0 := by
  obtain ⟨i1, st1, h1, hinv, _, h2, h3, _⟩ :=
    chunk_loop_rule C len do_fec (fun _ _ => True) (fun _ _ _ _ _ _ _ _ _ _ => trivial)
      (fun _ _ _ _ _ _ _ _ _ => trivial) (len.toNat + 1) 0
      (start_state C g data do_fec) (le_refl _) (chunk_inv_start C g data len do_fec hl)
      trivial (by omega) (by omega)
  have hrun : chunk_run C len do_fec 0 (start_state C g data do_fec) = some (i1, st1) := by
    rw [← chunk_loop_fuel C len do_fec (len.toNat + 1) 0 _ (le_refl _)
      (chunk_inv_start C g data len do_fec hl) (by omega)]
    exact h1
  refine ⟨i1, st1, hrun, ?_, hinv, h2, h3⟩
  unfold process_data_chunk_ideal
  simp only []
  unfold start_state at h1
  rw [h1]
  simp only []
  exact finish_eq len i1 st1 h2 hinv.1

theorem start_state_nofec {σ : Type} (C : Codec σ) (g : Globals σ) (data : List Nat) :
    start_state C g data 0 =
      { data := data, data_work := List.replicate 384 0, fec_error := List.replicate 4 0,
        ts_out := [], out_len := 0, g := g, frames := 0 } := by
  unfold start_state
  rw [if_neg (fun h => h.1 rfl)]

theorem frame_out_congr (A B : List Nat) (I : Nat) (h : same_outside A B 0 I)
    (hl : I + 384 ≤ A.length) :
    emit_frame (derand_frame (deint_frame A I) I) I =
      emit_frame (derand_frame (deint_frame B I) I) I := by
  have hlB : I + 384 ≤ B.length := by rw [← h.1]; exact hl
  have lenA : (emit_frame (derand_frame (deint_frame A I) I) I).length = 376 :=
    emit_frame_length _ _ (by
      rw [derand_frame_length _ _ (by rw [deint_frame_length _ _ hl]; exact hl),
        deint_frame_length _ _ hl]; exact hl)
  have lenB : (emit_frame (derand_frame (deint_frame B I) I) I).length = 376 :=
    emit_frame_length _ _ (by
      rw [derand_frame_length _ _ (by rw [deint_frame_length _ _ hlB]; exact hlB),
        deint_frame_length _ _ hlB]; exact hlB)
  apply ext_getD (by rw [lenA, lenB])
  intro k
  by_cases hk : k < 376
  · have e : k = 94 * (k / 94) + k % 94 := by omega
    rw [e, frame_out_getD A I (k / 94) (k % 94) hl (by omega) (by omega),
      frame_out_getD B I (k / 94) (k % 94) hlB (by omega) (by omega),
      h.2 _ (Or.inr (by omega))]
  · simp [List.getD, List.getElem?_eq_none (show (emit_frame (derand_frame (deint_frame A I) I)
      I).length ≤ k by omega), List.getElem?_eq_none (show (emit_frame (derand_frame
      (deint_frame B I) I) I).length ≤ k by omega)]

theorem nofec_frames {σ : Type} (C : Codec σ) (g : Globals σ) (D : List Nat)
    (len : Int) (hl : len ≤ D.length) :
    ∃ i1 st1, process_data_chunk_ideal C g D len 0 = some (finish len i1 st1) ∧
      chunk_inv len st1 ∧ nofec_inv g D len i1 st1 := by
  obtain ⟨i1, st1, h1, hinv, hI, _⟩ :=
    oob_process_data_chunk_rule C g D len 0 hl (nofec_inv g D len)
      (fun i st k hi hk _ hI _ _ _ =>
        ⟨hI.1, same_outside_mono hI.2.1 (le_refl _) (by omega), hI.2.2⟩)
      (fun I st s hinv hI hb _ hs hpost => by
        obtain ⟨p1, p2, p3⟩ := hI
        obtain ⟨s1, hs1, _, t1, g1, _, _, fr1, _⟩ := process_frame_nofec C I st
          (by have := hinv.1; omega) hinv.2.1
        have es : s1 = s := Option.some.inj (hs1.symm.trans hs)
        subst es
        have hts := hinv.2.2.2.2
        have p2' : same_outside st.data D 0 I := by simpa using p2
        have hE := frame_out_congr st.data D I p2' (by have := hinv.1; omega)
        refine ⟨by rw [g1]; exact p1,
          same_outside_trans hpost.1 p2 (by omega) (le_refl _) (by omega) (by omega), ?_⟩
        intro f hf
        rw [fr1] at hf
        by_cases hlt : f < st.frames
        · obtain ⟨I0, q1, q2⟩ := p3 f hlt
          refine ⟨I0, q1, ?_⟩
          rw [t1, ← q2, List.drop_append_of_le_length (by rw [hts]; omega)]
          have hlen : 376 ≤ (st.ts_out.drop (376 * f)).length := by
            rw [List.length_drop, hts]; omega
          rw [List.take_append_of_le_length hlen]
        · have ef : f = st.frames := by omega
          subst ef
          refine ⟨I, hb, ?_⟩
          rw [t1, ← hts, List.drop_left, hE]
          apply List.take_of_length_le
          rw [emit_frame_length _ _ (by
            rw [derand_frame_length _ _ (by
              rw [deint_frame_length _ _ (by omega)]; omega),
              deint_frame_length _ _ (by omega)]; omega)])
      ⟨by rw [start_state_nofec], same_outside_refl _ _ _,
        fun f hf => absurd hf (Nat.not_lt_zero _)⟩
  exact ⟨i1, st1, h1, hinv, hI⟩

theorem nofec_codec_free {σ1 σ2 : Type} (C1 : Codec σ1) (C2 : Codec σ2) (g1 : Globals σ1)
    (g2 : Globals σ2) (D : List Nat) (len : Int) (hl : len ≤ D.length) :
    ∃ i1 s s', process_data_chunk_ideal C1 g1 D len 0 = some (finish len i1 s) ∧
      process_data_chunk_ideal C2 g2 D len 0 = some (finish len i1 s') ∧
      s.data = s'.data ∧ s.ts_out = s'.ts_out ∧ s.out_len = s'.out_len ∧
      s.frames = s'.frames := by
  obtain ⟨i1, st1, r1, c1, _⟩ := call_eq_run C1 g1 D len 0 hl
  obtain ⟨i2, st2, r2, c2, _⟩ := call_eq_run C2 g2 D len 0 hl
  obtain ⟨j, s, s', e1, e2, e3, _⟩ :=
    chunk_loop_sim C1 C2 len len 0 0 0 (by omega)
      (fun s s' => s.data = s'.data ∧ s.ts_out = s'.ts_out ∧ s.out_len = s'.out_len ∧
        s.frames = s'.frames)
      (fun i st st' hR _ _ _ _ => by rw [hR.1, Int.sub_zero])
      (fun I J st s st' s' hR hinv hinv' hJ hb hs hs' => by
        have hJI : J = I := by omega
        subst hJI
        obtain ⟨t, ht, d1, t1, _, _, o1, fr1, _⟩ := process_frame_nofec C1 J st
          (by have := hinv.1; omega) hinv.2.1
        obtain ⟨t', ht', d2, t2, _, _, o2, fr2, _⟩ := process_frame_nofec C2 J st'
          (by have := hinv'.1; omega) hinv'.2.1
        have es : t = s := Option.some.inj (ht.symm.trans hs)
        have es' : t' = s' := Option.some.inj (ht'.symm.trans hs')
        subst es
        subst es'
        exact ⟨by rw [d1, d2, hR.1], by rw [t1, t2, hR.1, hR.2.1],
          by rw [o1, o2, hR.2.2.1], by rw [fr1, fr2, hR.2.2.2]⟩)
      ((len - 0).toNat + 1) ((len - (0 - 0)).toNat + 1) 0
      (start_state C1 g1 D 0) (start_state C2 g2 D 0) (le_refl _) (le_refl _)
      ⟨rfl, rfl, rfl, rfl⟩ (chunk_inv_start C1 g1 D len 0 hl)
      (chunk_inv_start C2 g2 D len 0 hl) (le_refl _) (le_refl _)
  have e1' : chunk_run C1 len 0 0 (start_state C1 g1 D 0) = some (j, s) := e1
  have e2' : chunk_run C2 len 0 0 (start_state C2 g2 D 0) = some (j - 0, s') := e2
  rw [Int.sub_zero] at e2'
  rw [r1] at e1'
  rw [r2] at e2'
  have a1 := Option.some.inj e1'
  have a2 := Option.some.inj e2'
  have b1 : i1 = j := congrArg Prod.fst a1
  have b2 : st1 = s := congrArg Prod.snd a1
  have b3 : i2 = j := congrArg Prod.fst a2
  have b4 : st2 = s' := congrArg Prod.snd a2
  rw [b1, b2] at c1
  rw [b3, b4] at c2
  exact ⟨j, s, s', c1, c2, e3⟩

theorem finish_fields {σ : Type} (len i : Int) (st : ChunkState σ) :
    (finish len i st).2.ts_out = st.ts_out ∧ (finish len i st).2.out_len = st.out_len ∧
      (finish len i st).2.g = st.g ∧ (finish len i st).2.frames = st.frames ∧
      (finish len i st).1 = (if len - i > 0 then len - i else 0) ∧
      (finish len i st).2.data = (if len - i > 0 then
        (st.data.drop i.toNat).take (len - i).toNat ++ st.data.drop (len - i).toNat
        else st.data) := by
  unfold finish
  by_cases h : len - i > 0
  · rw [if_pos h, if_pos h, if_pos h]
    exact ⟨rfl, rfl, rfl, rfl, rfl, rfl⟩
  · rw [if_neg h, if_neg h, if_neg h]
    exact ⟨rfl, rfl, rfl, rfl, rfl, rfl⟩

/-- Without FEC the library is not used, for the loop without the overflow check. -/
theorem ideal_no_fec_no_codec {σ : Type} (C : Codec σ) (g : Globals σ) (D : List Nat)
    (len : Int) (hl : len ≤ D.length) :
    ∃ r st, process_data_chunk_ideal C g D len 0 = some (r, st) ∧ st.g = g ∧
      (∀ (σ2 : Type) (C2 : Codec σ2) (g2 : Globals σ2),
        ∃ st2, process_data_chunk_ideal C2 g2 D len 0 = some (r, st2) ∧
          st2.data = st.data ∧ st2.ts_out = st.ts_out ∧ st2.out_len = st.out_len) ∧
      st.ts_out.length = 376 * st.frames ∧
      ∀ f, f < st.frames → ∃ I : Nat, (I : Int) + 1152 ≤ len ∧
        (st.ts_out.drop (376 * f)).take 376 =
          emit_frame (derand_frame (deint_frame D I) I) I := by
  obtain ⟨i1, st1, h1, hinv, hg, _, hfr⟩ := nofec_frames C g D len hl
  obtain ⟨q1, q2, q3, q4, q5, q6⟩ := finish_fields len i1 st1
  refine ⟨(finish len i1 st1).1, (finish len i1 st1).2, h1, by rw [q3]; exact hg, ?_,
    by rw [q1, q4]; exact hinv.2.2.2.2, ?_⟩
  · intro σ2 C2 g2
    obtain ⟨j, s, s', e1, e2, e3, e4, e5, _⟩ := nofec_codec_free C C2 g g2 D len hl
    have a1 := Option.some.inj (h1.symm.trans e1)
    obtain ⟨u1, u2, u3, u4, u5, u6⟩ := finish_fields len j s
    obtain ⟨v1, v2, v3, v4, v5, v6⟩ := finish_fields len j s'
    refine ⟨(finish len j s').2, ?_, ?_, ?_, ?_⟩
    · rw [e2, a1, u5, ← v5]
    · rw [a1, v6, u6, e3]
    · rw [a1, v1, u1, e4]
    · rw [a1, v2, u2, e5]
  · intro f hf
    rw [q4] at hf
    rw [q1]
    exact hfr f hf

theorem ref_frames_length (parity : List Nat → List Nat) (S : List Nat) (N : Nat) :
    (ref_frames parity S N).length = 384 * N := by
  simp [ref_frames]

theorem ref_encode_length (parity : List Nat → List Nat) (S : List Nat) (N : Nat) :
    (ref_encode parity S N).length = 384 * N + 672 := by
  rw [ref_encode, ref_interleave_length, ref_frames_length]

theorem ref_frames_getD (parity : List Nat → List Nat) (S : List Nat) (N f n j : Nat)
    (hf : f < N) (hn : n < 4) (hj : j < 96) :
    (ref_frames parity S N).getD (384 * f + 96 * n + j) 0 =
      (ref_block parity S f n).getD j 0 := by
  unfold ref_frames
  rw [getD_map_range _ _ _ (by omega)]
  have e1 : (384 * f + 96 * n + j) / 384 = f := by omega
  have e2 : (384 * f + 96 * n + j) % 384 / 96 = n := by omega
  have e3 : (384 * f + 96 * n + j) % 96 = j := by omega
  rw [e1, e2, e3]

theorem ref_encode_getD (parity : List Nat → List Nat) (S : List Nat) (N k : Nat)
    (hk : k < 384 * N) :
    (ref_encode parity S N).getD (k + 96 * (k % 8)) 0 = (ref_frames parity S N).getD k 0 := by
  unfold ref_encode
  rw [ref_interleave_getD _ _ (by rw [ref_frames_length]; omega)]
  have e1 : (k + 96 * (k % 8)) % 8 = k % 8 := by omega
  rw [e1, if_pos (by omega)]
  congr 1
  omega

theorem de_fec_total_valid {σ : Type} (C : Codec σ) (parity : List Nat → List Nat)
    (hC : rs_contract C parity) (g : Globals σ) (d p : List Nat) (hp : p.length = 94)
    (hd : d.take 96 = p ++ parity p) (hl : 96 ≤ d.length) :
    (de_fec_total C g d).1.1 = 0 ∧ (de_fec_total C g d).2 = d ∧
      (de_fec_total C g d).1.2.fec_total_block_count = g.fec_total_block_count + 1 ∧
      (de_fec_total C g d).1.2.fec_error_count = g.fec_error_count ∧
      (de_fec_total C g d).1.2.fec_corrected_block_count = g.fec_corrected_block_count := by
  obtain ⟨c1, c2, c3⟩ := hC g.ecc p hp
  obtain ⟨r, g1, d1, h0, h1, _, h3, _⟩ := oob_de_fec_cases C g d hl
  have hs : C.check_syndrome (fec_pass1 C g d).1 = 0 := by
    unfold fec_pass1; rw [hd]; exact c3
  obtain ⟨e1, e2, e3, _, e5⟩ := h3 hs
  have et : de_fec_total C g d = ((r, g1), d1) := by
    unfold de_fec_total; rw [h0]; rfl
  rw [et]
  refine ⟨e1, ?_, h1, e2, e3⟩
  show d1 = d
  rw [e5]
  unfold fec_pass1
  rw [hd, c2, ← hd, List.take_append_drop]

theorem fec_frame_valid {σ : Type} (C : Codec σ) (parity : List Nat → List Nat)
    (hC : rs_contract C parity) (i : Nat) (g : Globals σ) (data : List Nat) (fe : List Int)
    (hd : i + 384 ≤ data.length) (hfe : fe.length = 4)
    (hv : ∀ n < 4, ∃ p, p.length = 94 ∧ (data.drop (i + 96 * n)).take 96 = p ++ parity p)
    (m : Nat) (hm : m ≤ 4) :
    ((List.range m).foldl (fec_stage C i) (g, data, fe)).2.1 = data ∧
      ((List.range m).foldl (fec_stage C i) (g, data, fe)).2.2.length = 4 ∧
      (∀ n, n < m →
        ((List.range m).foldl (fec_stage C i) (g, data, fe)).2.2.getD n 0 = 0) ∧
      ((List.range m).foldl (fec_stage C i) (g, data, fe)).1.fec_total_block_count =
        g.fec_total_block_count + m ∧
      ((List.range m).foldl (fec_stage C i) (g, data, fe)).1.fec_error_count =
        g.fec_error_count ∧
      ((List.range m).foldl (fec_stage C i) (g, data, fe)).1.fec_corrected_block_count =
        g.fec_corrected_block_count := by
  induction m with
  | zero => exact ⟨rfl, hfe, fun n hn => absurd hn (Nat.not_lt_zero _), by simp, rfl, rfl⟩
  | succ m ih =>
    obtain ⟨h1, h2, h3, h4, h5, h6⟩ := ih (by omega)
    obtain ⟨p, hp, hblk⟩ := hv m (by omega)
    have hr : List.range (m + 1) = List.range m ++ [m] := List.range_succ m
    rw [hr, List.foldl_append]
    simp only [List.foldl_cons, List.foldl_nil]
    rw [fec_stage_def, h1]
    simp only []
    obtain ⟨v1, v2, v3, v4, v5⟩ := de_fec_total_valid C parity hC
      ((List.range m).foldl (fec_stage C i) (g, data, fe)).1 (data.drop (i + 96 * m)) p hp hblk
      (by simp only [List.length_drop]; omega)
    refine ⟨?_, by simp [h2], ?_, ?_, ?_, ?_⟩
    · rw [v2, List.take_append_drop]
    · intro n hn
      rw [v1]
      simp only [List.getD_eq_getElem?_getD, List.getElem?_set, h2]
      by_cases e : m = n
      · rw [if_pos e, if_pos (by omega)]
        rfl
      · rw [if_neg e]
        have := h3 n (by omega)
        simp only [List.getD_eq_getElem?_getD] at this
        exact this
    · rw [v3, h4]; push_cast; ring
    · rw [v4, h5]
    · rw [v5, h6]

theorem ref_block_length {σ : Type} (C : Codec σ) (parity : List Nat → List Nat)
    (hC : rs_contract C parity) (s0 : σ) (S : List Nat) (f n : Nat) :
    (ref_block parity S f n).length = 96 := by
  unfold ref_block
  rw [List.length_append, (hC s0 _ (by simp)).1]
  simp

theorem ref_block_getD (parity : List Nat → List Nat) (S : List Nat) (f n j : Nat)
    (hj : j < 94) :
    (ref_block parity S f n).getD j 0 =
      derand_byte (96 * n + j) (S.getD (376 * f + 94 * n + j) 0) := by
  unfold ref_block
  rw [List.getD_append _ _ _ _ (by simp [hj]), getD_map_range _ _ _ hj]

theorem roundtrip_deint (parity : List Nat → List Nat) (S : List Nat) (N f : Nat)
    (data : List Nat) (hf : f < N) (hl : 384 * f + 1056 ≤ data.length)
    (P : List Nat) (hso : same_outside data (ref_encode parity S N ++ P) 0 (384 * f)) (k : Nat)
    (hk1 : 384 * f ≤ k) (hk2 : k < 384 * f + 384) :
    (deint_frame data (384 * f)).getD k 0 = (ref_frames parity S N).getD k 0 := by
  rw [deint_frame_getD _ _ _ (by omega), if_pos ⟨hk1, hk2⟩]
  have e : (k - 384 * f) % 8 = k % 8 := by omega
  rw [e, hso.2 _ (Or.inr (by omega)),
    List.getD_append _ _ _ _ (by rw [ref_encode_length]; omega),
    ref_encode_getD _ _ _ _ (by omega)]

theorem roundtrip_frame {σ : Type} (C : Codec σ) (parity : List Nat → List Nat)
    (hC : rs_contract C parity) (do_fec : Int) (hfec : do_fec ≠ 0) (S : List Nat) (N f : Nat)
    (hS : S.length = 376 * N) (hb : ∀ b ∈ S, b < 256) (st : ChunkState σ) (hf : f < N)
    (hl : 384 * f + 1152 ≤ st.data.length) (hw : st.data_work.length = 384)
    (hfe : st.fec_error.length = 4) (P : List Nat)
    (hso : same_outside st.data (ref_encode parity S N ++ P) 0 (384 * f)) :
    ∃ s, process_frame C do_fec ((384 * f : Nat) : Int) st = some s ∧
      s.ts_out = st.ts_out ++ (S.drop (376 * f)).take 376 ∧
      s.g.fec_total_block_count = st.g.fec_total_block_count + 4 ∧
      s.g.fec_error_count = st.g.fec_error_count ∧
      s.g.fec_corrected_block_count = st.g.fec_corrected_block_count := by
  obtain ⟨s, h1, hg, hfe2, hdat, hts, _, _, _, hlen, _⟩ :=
    process_frame_eq C do_fec (384 * f) st hl hw hfe
  rw [frame_pure_fec C do_fec _ _ _ _ hfec] at hg hfe2 hdat
  simp only [] at hg hfe2 hdat
  have hdl : (deint_frame st.data (384 * f)).length = st.data.length :=
    deint_frame_length _ _ (by omega)
  have hvalid : ∀ n < 4, ∃ p, p.length = 94 ∧
      ((deint_frame st.data (384 * f)).drop (384 * f + 96 * n)).take 96 = p ++ parity p := by
    intro n hn
    refine ⟨(List.range 94).map
      (fun j => derand_byte (96 * n + j) (S.getD (376 * f + 94 * n + j) 0)), by simp, ?_⟩
    have hbl := ref_block_length C parity hC st.g.ecc S f n
    have e : (List.range 94).map
        (fun j => derand_byte (96 * n + j) (S.getD (376 * f + 94 * n + j) 0)) ++
        parity ((List.range 94).map
          (fun j => derand_byte (96 * n + j) (S.getD (376 * f + 94 * n + j) 0))) =
        ref_block parity S f n := rfl
    rw [e]
    apply ext_getD
    · rw [hbl, List.length_take, List.length_drop, hdl]; omega
    · intro k
      by_cases hk : k < 96
      · rw [getD_take_drop _ _ _ _ hk,
          roundtrip_deint parity S N f st.data hf (by omega) P hso _ (by omega) (by omega),
          ref_frames_getD parity S N f n k hf hn hk]
      · have h1 : (((deint_frame st.data (384 * f)).drop (384 * f + 96 * n)).take 96).length ≤ k := by
          rw [List.length_take]; omega
        have h2 : (ref_block parity S f n).length ≤ k := by omega
        simp [List.getD, List.getElem?_eq_none h1, List.getElem?_eq_none h2]
  obtain ⟨v1, v2, v3, v4, v5, v6⟩ := fec_frame_valid C parity hC (384 * f) st.g
    (deint_frame st.data (384 * f)) st.fec_error (by omega) hfe hvalid 4 (le_refl _)
  have v1' : (fec_frame C (384 * f) st.g (deint_frame st.data (384 * f)) st.fec_error).2.1 =
      deint_frame st.data (384 * f) := v1
  have v3' : ∀ n, n < 4 →
      (fec_frame C (384 * f) st.g (deint_frame st.data (384 * f)) st.fec_error).2.2.getD n 0
        = 0 := v3
  rw [v1'] at hdat
  have hdr : (derand_frame (deint_frame st.data (384 * f)) (384 * f)).length =
      st.data.length := by
    rw [derand_frame_length _ _ (by omega), hdl]
  have hnotei : ∀ k, s.data.getD k 0 =
      (derand_frame (deint_frame st.data (384 * f)) (384 * f)).getD k 0 := by
    intro k
    rw [hdat, tei_frame_getD _ _ _ _ (by omega)]
    have c0 := v3' 0 (by decide)
    have c1 := v3' 1 (by decide)
    have c2 := v3' 2 (by decide)
    have c3 := v3' 3 (by decide)
    rw [if_neg]
    rw [c0, c1, c2, c3]
    rintro (⟨_, h | h⟩ | ⟨_, h | h⟩) <;> exact absurd h (by decide)
  refine ⟨s, h1, ?_, ?_, ?_, ?_⟩
  · rw [hts]
    congr 1
    apply ext_getD
    · rw [emit_frame_length _ _ (by omega), List.length_take, List.length_drop]
      omega
    · intro k
      by_cases hk : k < 376
      · have e : k = 94 * (k / 94) + k % 94 := by omega
        have hn : k / 94 < 4 := by omega
        have hj : k % 94 < 94 := by omega
        have e1 := emit_blocks_getD s.data (384 * f) 4 (k / 94) (k % 94) (by omega) hn hj
        have e2 : 384 * f + 96 * (k / 94) + k % 94 - 384 * f = 96 * (k / 94) + k % 94 := by
          omega
        rw [getD_take_drop _ _ _ _ hk]
        unfold emit_frame
        rw [e, e1, hnotei, derand_frame_getD _ _ _ (by omega),
          if_pos ⟨by omega, by omega⟩, e2,
          roundtrip_deint parity S N f st.data hf (by omega) P hso _ (by omega) (by omega),
          ref_frames_getD parity S N f (k / 94) (k % 94) hf hn (by omega),
          ref_block_getD parity S f (k / 94) (k % 94) hj,
          derand_byte_twice _ _ (getD_lt_of_all S hb _)]
        congr 1
        omega
      · have h1 : (emit_frame s.data (384 * f)).length ≤ k := by
          rw [emit_frame_length _ _ (by omega)]; omega
        have h2 : ((S.drop (376 * f)).take 376).length ≤ k := by
          rw [List.length_take]; omega
        simp [List.getD, List.getElem?_eq_none h1, List.getElem?_eq_none h2]
  · rw [hg]; exact v4
  · rw [hg]; exact v5
  · rw [hg]; exact v6

set_option maxRecDepth 100000 in
theorem derand_sync_images : derand_byte 0 0x47 = 0x47 ∧ derand_byte 192 0x47 = 0x64 := by
  decide

theorem roundtrip_anchor (parity : List Nat → List Nat) (S : List Nat) (N f : Nat)
    (data : List Nat) (hf : f < N) (hl : 384 * f + 384 ≤ data.length)
    (hsync : ∀ f < N, S.getD (376 * f) 0 = 0x47 ∧ S.getD (376 * f + 188) 0 = 0x47)
    (P : List Nat) (hso : same_outside data (ref_encode parity S N ++ P) 0 (384 * f)) :
    is_anchor data ((384 * f : Nat) : Int) 0 := by
  apply is_anchor_of_getD data (384 * f) (by omega)
  · have e := ref_encode_getD parity S N (384 * f) (by omega)
    have e8 : 384 * f + 96 * (384 * f % 8) = 384 * f := by omega
    have e0 := ref_frames_getD parity S N f 0 0 hf (by decide) (by decide)
    have eb := ref_block_getD parity S f 0 0 (by decide)
    simp only [Nat.mul_zero, Nat.add_zero] at e0 eb
    rw [e8] at e
    rw [hso.2 _ (Or.inr (le_refl _)),
      List.getD_append _ _ _ _ (by rw [ref_encode_length]; omega), e, e0, eb, (hsync f hf).1]
    exact derand_sync_images.1
  · have e := ref_encode_getD parity S N (384 * f + 192) (by omega)
    have e8 : 384 * f + 192 + 96 * ((384 * f + 192) % 8) = 384 * f + 192 := by omega
    have e0 := ref_frames_getD parity S N f 2 0 hf (by decide) (by decide)
    have eb := ref_block_getD parity S f 2 0 (by decide)
    simp only [Nat.add_zero] at e0 eb
    rw [e8] at e
    rw [hso.2 _ (Or.inr (by omega)),
      List.getD_append _ _ _ _ (by rw [ref_encode_length]; omega), e, e0, eb, (hsync f hf).2]
    exact derand_sync_images.2

theorem roundtrip_core {σ : Type} (C : Codec σ) (parity : List Nat → List Nat)
    (hC : rs_contract C parity) (do_fec : Int) (hfec : do_fec ≠ 0) (g : Globals σ)
    (S : List Nat) (N : Nat) (hS : S.length = 376 * N) (hb : ∀ b ∈ S, b < 256)
    (hsync : ∀ f < N, S.getD (376 * f) 0 = 0x47 ∧ S.getD (376 * f + 188) 0 = 0x47)
    (P : List Nat) (hP : P.length < 480) :
    ∃ r st, process_data_chunk_ideal C g (ref_encode parity S N ++ P)
        ((384 * N + 672 + P.length : Nat) : Int) do_fec = some (r, st) ∧
      st.frames = roundtrip_frames N P.length ∧
      st.ts_out = S.take (376 * roundtrip_frames N P.length) ∧
      st.out_len = 376 * (roundtrip_frames N P.length : Int) ∧
      st.g.fec_total_block_count =
        g.fec_total_block_count + 4 * (roundtrip_frames N P.length : Int) ∧
      st.g.fec_error_count = g.fec_error_count ∧
      st.g.fec_corrected_block_count = g.fec_corrected_block_count ∧
      (1 ≤ N → P.length < 96 → r = 1056 + (P.length : Int)) := by
  have hTl : (ref_encode parity S N ++ P).length = 384 * N + 672 + P.length := by
    rw [List.length_append, ref_encode_length]
  have hl : ((384 * N + 672 + P.length : Nat) : Int) ≤
      (ref_encode parity S N ++ P).length := by
    rw [hTl]
  have hM : roundtrip_frames N P.length = if 96 ≤ P.length then N else N - 1 := rfl
  obtain ⟨i1, st1, h1, hinv, ⟨p1, p2, p2', p3, p4, p5, p6, p7⟩, h2, h3, h4⟩ :=
    oob_process_data_chunk_rule C g (ref_encode parity S N ++ P) _ do_fec hl
      (roundtrip_inv g (ref_encode parity S N ++ P) S N (roundtrip_frames N P.length))
      (fun i st k hi hk hinv hI hc hs hno => by
        obtain ⟨p1, p2, p2', p3, p4, p5, p6, p7⟩ := hI
        refine ⟨p1, fun hfr => ?_, fun hfr => by have := p2' hfr; omega, p3,
          same_outside_mono p4 (le_refl _) (by omega), p5, p6, p7⟩
        have ei := p2 hfr
        have hanc : is_anchor st.data i 0 := by
          have hso : same_outside st.data (ref_encode parity S N ++ P) 0
              (384 * st.frames) := by
            have e : i.toNat = 384 * st.frames := by omega
            rw [e] at p4; exact p4
          have := roundtrip_anchor parity S N st.frames st.data hfr
            (by rw [hso.1, hTl]; omega) hsync P hso
          have e2 : ((384 * st.frames : Nat) : Int) = i := by omega
          rw [e2] at this
          exact this
        have hk0 : k = 0 := by
          by_contra hne
          exact hno 0 (le_refl _) (by omega) hanc
        omega)
      (fun I st s hinv hI hbnd _ hs hpost => by
        obtain ⟨p1, p2, p2', p3, p4, p5, p6, p7⟩ := hI
        have hfr : st.frames < N := by
          by_contra hge
          have := p2' (by omega)
          omega
        have eI := p2 hfr
        have eI' : I = 384 * st.frames := by omega
        subst eI'
        have hso : same_outside st.data (ref_encode parity S N ++ P) 0
            (384 * st.frames) := by
          simpa using p4
        obtain ⟨s1, hs1, t1, g1, g2, g3⟩ := roundtrip_frame C parity hC do_fec hfec S N
          st.frames hS hb st hfr (by have := hinv.1; omega) hinv.2.1 hinv.2.2.1 P hso
        have es : s1 = s := Option.some.inj (hs1.symm.trans hs)
        subst es
        have efr := hpost.2.2.2.2.1
        refine ⟨?_, fun _ => by rw [efr]; push_cast; ring,
          fun _ => by rw [efr] at *; push_cast; omega, ?_, ?_, ?_, ?_, ?_⟩
        · rw [efr, hM]
          split <;> omega
        · rw [t1, p3, efr]
          have e : 376 * (st.frames + 1) = 376 * st.frames + 376 := by ring
          rw [e, List.take_add]
        · exact same_outside_trans hpost.1 p4 (by omega) (le_refl _) (by omega) (by omega)
        · rw [g1, p5, efr]; push_cast; ring
        · rw [g2, p6]
        · rw [g3, p7])
      ⟨Nat.zero_le _, fun _ => rfl, fun h => by
          have h0 : N ≤ 0 := h
          have e : (N : Int) = 0 := by omega
          rw [e]; decide, by
          show ([] : List Nat) = S.take (376 * 0)
          simp, same_outside_refl _ _ _,
        by unfold start_state; split <;> simp, by unfold start_state; split <;> rfl,
        by unfold start_state; split <;> rfl⟩
  have hfr : st1.frames = roundtrip_frames N P.length := by
    by_contra hne
    have hlt : st1.frames < roundtrip_frames N P.length := by omega
    have hN : st1.frames < N := by
      rw [hM] at hlt
      split at hlt <;> omega
    have ei := p2 hN
    rw [hM] at hlt
    rcases h4 with h4 | ⟨_, h6, _⟩
    · omega
    · split at hlt <;> omega
  obtain ⟨q1, q2, q3, q4, q5, q6⟩ :=
    finish_fields ((384 * N + 672 + P.length : Nat) : Int) i1 st1
  refine ⟨_, _, h1, q4.trans hfr, q1.trans (p3.trans (by rw [hfr])),
    q2.trans (hinv.2.2.2.1.trans (by rw [hfr])), (congrArg _ q3).trans (p5.trans (by rw [hfr])),
    (congrArg _ q3).trans p6, (congrArg _ q3).trans p7, fun hN hP96 => ?_⟩
  have hfN : st1.frames = N - 1 := by
    rw [hfr, hM, if_neg (by omega)]
  have ei := p2 (by omega)
  refine q5.trans ?_
  rw [if_pos (by omega)]
  omega

theorem rs_contract_null : rs_contract null_codec sample_parity :=
  fun _ _ _ => ⟨rfl, rfl, rfl⟩

set_option maxRecDepth 100000 in
theorem sample_payload_valid :
    sample_payload.length = 376 * 1 ∧ (∀ b ∈ sample_payload, b < 256) ∧
      ∀ f < 1, sample_payload.getD (376 * f) 0 = 0x47 ∧
        sample_payload.getD (376 * f + 188) 0 = 0x47 := by
  refine ⟨by decide, by decide, fun f hf => ?_⟩
  have e : f = 0 := by omega
  subst e
  decide

theorem rdZ_append (A Q : List Nat) (z : Int) (h : z < A.length) :
    rdZ (A ++ Q) z = rdZ A z := by
  unfold rdZ
  by_cases hz : 0 ≤ z
  · rw [if_pos hz, if_pos hz, List.getElem?_append_left (by omega)]
  · rw [if_neg hz, if_neg hz]

theorem rdZ_drop (D : List Nat) (a : Nat) (z : Int) (h : (a : Int) ≤ z) :
    rdZ (D.drop a) (z - a) = rdZ D z := by
  unfold rdZ
  rw [if_pos (by omega), if_pos (by omega), List.getElem?_drop]
  have e : a + (z - (a : Int)).toNat = z.toNat := by omega
  rw [e]

theorem is_anchor_append (A Q : List Nat) (i j : Int) (h : i + j + 192 < A.length) :
    is_anchor (A ++ Q) i j ↔ is_anchor A i j := by
  unfold is_anchor
  rw [rdZ_append A Q _ (by omega), rdZ_append A Q _ h]

theorem is_anchor_drop (D : List Nat) (a : Nat) (i j : Int) (h : (a : Int) ≤ i + j) :
    is_anchor (D.drop a) (i - a) j ↔ is_anchor D i j := by
  unfold is_anchor
  have e1 : i - (a : Int) + j = i + j - a := by ring
  have e2 : i + j - (a : Int) + 192 = i + j + 192 - a := by ring
  rw [e1, e2, rdZ_drop D a _ h, rdZ_drop D a _ (by omega)]

/-- The result of the synchronizer is determined by the anchor tests at the offsets it
examines: two buffers with the same tests give the same result. -/
theorem sync_congr (D D' : List Nat) (i i' len len' : Int) (hi : 0 ≤ i) (hi' : 0 ≤ i')
    (hl : len ≤ D.length) (hl' : len' ≤ D'.length) (hd : len - i = len' - i')
    (h : ∀ j, 0 ≤ j → i + j + 384 ≤ len → (is_anchor D i j ↔ is_anchor D' i' j)) :
    oob_synchronize_bitstream D i len = oob_synchronize_bitstream D' i' len' := by
  obtain ⟨k, h1, h2, h3, h4⟩ := oob_synchronize_bitstream_spec D i len hi hl
  obtain ⟨k', h1', h2', h3', h4'⟩ := oob_synchronize_bitstream_spec D' i' len' hi' hl'
  rw [h1, h1']
  congr 1
  rcases h4 with ⟨a1, a2⟩ | ⟨a1, a2⟩
  · rcases h4' with ⟨b1, b2⟩ | ⟨b1, b2⟩
    · by_contra hne
      rcases lt_or_gt_of_ne hne with hlt | hgt
      · exact h3' k h2 hlt ((h k h2 a1).1 a2)
      · exact h3 k' h2' hgt ((h k' h2' (by omega)).2 b2)
    · exact absurd ((h k h2 a1).1 a2) (h3' k h2 (by omega))
  · rcases h4' with ⟨b1, b2⟩ | ⟨b1, b2⟩
    · exact absurd ((h k' h2' (by omega)).2 b2) (h3 k' h2' (by omega))
    · omega

/-- Offsets without anchor can be skipped: the loop entered at `i` and at `i + k`
gives the same result when no offset in between starts a frame. -/
theorem chunk_run_skip {σ : Type} (C : Codec σ) (len do_fec : Int) (i k : Int)
    (st : ChunkState σ) (hi : 0 ≤ i) (hk : 0 ≤ k) (hinv : chunk_inv len st)
    (hno : ∀ j, 0 ≤ j → j < k → ¬ is_anchor st.data i j)
    (hb : i + k + 383 ≤ len ∨ k = 0) :
    chunk_run C len do_fec i st = chunk_run C len do_fec (i + k) st := by
  by_cases hk0 : k = 0
  · rw [hk0, Int.add_zero]
  have hb' : i + k + 383 ≤ len := by omega
  rw [chunk_run_unfold C len do_fec i st hi hinv,
    chunk_run_unfold C len do_fec (i + k) st (by omega) hinv]
  rw [if_pos (by omega)]
  obtain ⟨a, h1, h2, h3, h4⟩ := oob_synchronize_bitstream_spec st.data i len hi hinv.1
  obtain ⟨b, h1', h2', h3', h4'⟩ :=
    oob_synchronize_bitstream_spec st.data (i + k) len (by omega) hinv.1
  have hka : k ≤ a := by
    rcases h4 with ⟨a1, a2⟩ | ⟨a1, a2⟩
    · by_contra hlt
      exact hno a h2 (by omega) a2
    · omega
  have hab : a = k + b := by
    have hsh : ∀ j, is_anchor st.data (i + k) j ↔ is_anchor st.data i (k + j) := by
      intro j
      unfold is_anchor
      rw [Int.add_assoc]
    rcases h4 with ⟨a1, a2⟩ | ⟨a1, a2⟩
    · rcases h4' with ⟨b1, b2⟩ | ⟨b1, b2⟩
      · by_contra hne
        rcases lt_or_gt_of_ne hne with hlt | hgt
        · exact h3' (a - k) (by omega) (by omega)
            ((hsh _).2 (by rw [show k + (a - k) = a by ring]; exact a2))
        · exact h3 (k + b) (by omega) hgt ((hsh _).1 b2)
      · exact absurd ((hsh (a - k)).2 (by rw [show k + (a - k) = a by ring]; exact a2))
          (h3' (a - k) (by omega) (by omega))
    · rcases h4' with ⟨b1, b2⟩ | ⟨b1, b2⟩
      · exact absurd ((hsh b).1 b2) (h3 (k + b) (by omega) (by omega))
      · omega
  rw [h1]
  simp only []
  by_cases hc : i + k + 383 < len
  · rw [if_pos hc, h1']
    simp only []
    have e : i + a = i + k + b := by omega
    rw [e]
  · rw [if_neg hc]
    have hb0 : b = 0 := by
      rcases h4' with ⟨b1, b2⟩ | ⟨b1, b2⟩ <;> omega
    rw [if_pos (by omega)]
    have e : i + a = i + k := by omega
    rw [e]

theorem getD_mid (T F U : List Nat) (k : Nat) (hk : k < F.length) :
    (T ++ (F ++ U)).getD (T.length + k) 0 = F.getD k 0 := by
  rw [List.getD_append_right _ _ _ _ (by omega), List.getD_append _ _ _ _ (by omega)]
  congr 1
  omega

theorem deint_core_length (data : List Nat) (i : Nat) : (deint_core data i).length = 384 := by
  simp [deint_core]

theorem deint_frame_core (data : List Nat) (i : Nat) :
    deint_frame data i = data.take i ++ (deint_core data i ++ data.drop (i + 384)) := by
  unfold deint_frame deint_core
  rw [List.drop_drop]

theorem derand_frame_mid (T F U : List Nat) (hF : F.length = 384) :
    derand_frame (T ++ (F ++ U)) T.length = T ++ (derand_frame F 0 ++ U) := by
  unfold derand_frame
  rw [List.take_left' rfl, List.drop_left' rfl, List.drop_left' hF, List.take_zero,
    List.drop_zero, List.drop_of_length_le (by omega), List.nil_append, List.append_nil]
  congr 2
  apply List.map_congr_left
  intro k hk
  rw [getD_mid T F U k (by rw [hF]; exact List.mem_range.1 hk), Nat.zero_add]

theorem de_fec_total_append {σ : Type} (C : Codec σ) (g : Globals σ) (d U : List Nat)
    (h : 96 ≤ d.length) :
    de_fec_total C g (d ++ U) = ((de_fec_total C g d).1, (de_fec_total C g d).2 ++ U) := by
  unfold de_fec_total oob_de_fec
  rw [if_pos (by rw [List.length_append]; omega), if_pos h,
    List.take_append_of_le_length h, List.drop_append_of_le_length h]
  simp only []
  split
  · split
    · simp
    · simp
  · simp

theorem tei_stage_mid (fe : List Int) (T F U : List Nat) (n : Nat)
    (h : n * 192 + 1 < F.length) :
    tei_stage T.length fe (T ++ (F ++ U)) n = T ++ (tei_stage 0 fe F n ++ U) := by
  unfold tei_stage
  split
  · have e : T.length + n * 192 + 1 = T.length + (n * 192 + 1) := by omega
    rw [e, getD_mid T F U _ h, List.set_append_right _ _ (by omega),
      List.set_append_left _ _ (by omega)]
    have e2 : T.length + (n * 192 + 1) - T.length = 0 + n * 192 + 1 := by omega
    rw [e2]
    simp only [Nat.zero_add]
  · rfl

theorem tei_frame_mid (fe : List Int) (T F U : List Nat) (hF : F.length = 384) :
    tei_frame T.length fe (T ++ (F ++ U)) = T ++ (tei_frame 0 fe F ++ U) := by
  have hr : List.range 2 = [0, 1] := rfl
  unfold tei_frame
  rw [hr]
  simp only [List.foldl_cons, List.foldl_nil]
  rw [tei_stage_mid fe T F U 0 (by omega),
    tei_stage_mid fe T _ U 1 (by rw [tei_stage_length]; omega)]

theorem emit_blocks_mid (T F U : List Nat) (hF : F.length = 384) (m : Nat) (hm : m ≤ 4) :
    emit_blocks (T ++ (F ++ U)) T.length m = emit_blocks F 0 m := by
  induction m with
  | zero => rfl
  | succ m ih =>
    simp only [emit_blocks]
    rw [ih (by omega), List.drop_append, List.drop_append_of_le_length (by omega),
      List.take_append_of_le_length (by rw [List.length_drop]; omega), Nat.zero_add]

theorem emit_frame_mid (T F U : List Nat) (hF : F.length = 384) :
    emit_frame (T ++ (F ++ U)) T.length = emit_frame F 0 :=
  emit_blocks_mid T F U hF 4 (le_refl _)

theorem fec_stage_mid {σ : Type} (C : Codec σ) (T U : List Nat) (g : Globals σ)
    (X : List Nat) (fe : List Int) (hX : X.length = 384) (n : Nat) (hn : n < 4) :
    fec_stage C T.length (g, T ++ (X ++ U), fe) n =
      ((fec_stage C 0 (g, X, fe) n).1, T ++ ((fec_stage C 0 (g, X, fe) n).2.1 ++ U),
        (fec_stage C 0 (g, X, fe) n).2.2) ∧
      (fec_stage C 0 (g, X, fe) n).2.1.length = 384 := by
  have hlen : 96 ≤ (X.drop (96 * n)).length := by rw [List.length_drop]; omega
  obtain ⟨_, blk, e2, e3⟩ := de_fec_total_spec C g (X.drop (96 * n)) hlen
  rw [fec_stage_def, fec_stage_def]
  simp only [Nat.zero_add]
  rw [List.drop_append, List.take_append, List.drop_append_of_le_length (by omega),
    List.take_append_of_le_length (by omega), de_fec_total_append C g _ U hlen]
  refine ⟨?_, ?_⟩
  · simp only [List.append_assoc]
  · rw [e2]
    simp only [List.length_append, List.length_take, List.length_drop]
    omega

theorem fec_fold_mid {σ : Type} (C : Codec σ) (T U : List Nat) (l : List Nat)
    (hl : ∀ n ∈ l, n < 4) (a : Globals σ × List Nat × List Int) (hX : a.2.1.length = 384) :
    l.foldl (fec_stage C T.length) (a.1, T ++ (a.2.1 ++ U), a.2.2) =
      ((l.foldl (fec_stage C 0) a).1, T ++ ((l.foldl (fec_stage C 0) a).2.1 ++ U),
        (l.foldl (fec_stage C 0) a).2.2) ∧
      (l.foldl (fec_stage C 0) a).2.1.length = 384 := by
  induction l generalizing a with
  | nil => exact ⟨rfl, hX⟩
  | cons n l ih =>
    simp only [List.foldl_cons]
    obtain ⟨g, X, fe⟩ := a
    obtain ⟨e1, e2⟩ := fec_stage_mid C T U g X fe hX n (hl n (List.mem_cons_self _ _))
    rw [e1]
    exact ih (fun m hm => hl m (List.mem_cons_of_mem _ hm)) _ e2

theorem fec_frame_mid {σ : Type} (C : Codec σ) (T F U : List Nat) (g : Globals σ)
    (fe : List Int) (hF : F.length = 384) :
    fec_frame C T.length g (T ++ (F ++ U)) fe =
      ((fec_frame C 0 g F fe).1, T ++ ((fec_frame C 0 g F fe).2.1 ++ U),
        (fec_frame C 0 g F fe).2.2) ∧
      (fec_frame C 0 g F fe).2.1.length = 384 :=
  fec_fold_mid C T U (List.range 4) (fun _ hn => List.mem_range.1 hn) (g, F, fe) hF

theorem fec_fold_fe {σ : Type} (C : Codec σ) (i : Nat) (l : List Nat)
    (a b : Globals σ × List Nat × List Int) (h1 : a.1 = b.1) (h2 : a.2.1 = b.2.1) :
    (l.foldl (fec_stage C i) a).1 = (l.foldl (fec_stage C i) b).1 ∧
      (l.foldl (fec_stage C i) a).2.1 = (l.foldl (fec_stage C i) b).2.1 := by
  induction l generalizing a b with
  | nil => exact ⟨h1, h2⟩
  | cons n l ih =>
    simp only [List.foldl_cons]
    apply ih
    · rw [fec_stage_def, fec_stage_def, h1, h2]
    · rw [fec_stage_def, fec_stage_def, h1, h2]

theorem ext_getD_int {l1 l2 : List Int} (hl : l1.length = l2.length)
    (h : ∀ k, l1.getD k 0 = l2.getD k 0) : l1 = l2 := by
  apply List.ext_getElem hl
  intro n h1 h2
  have := h n
  rwa [List.getD_eq_getElem _ _ h1, List.getD_eq_getElem _ _ h2] at this

/-- The four `oob_de_fec` calls overwrite all of `fec_error`: its previous contents do
not matter. -/
theorem fec_frame_fe {σ : Type} (C : Codec σ) (i : Nat) (g : Globals σ) (data : List Nat)
    (fe fe' : List Int) (hd : i + 384 ≤ data.length) (h : fe.length = 4) (h' : fe'.length = 4) :
    fec_frame C i g data fe = fec_frame C i g data fe' := by
  obtain ⟨_, _, a3, a4⟩ := fec_acc_spec C i g data fe hd 4 (le_refl _)
  obtain ⟨_, _, b3, b4⟩ := fec_acc_spec C i g data fe' hd 4 (le_refl _)
  unfold fec_frame
  obtain ⟨e1, e2⟩ := fec_fold_fe C i (List.range 4) (g, data, fe) (g, data, fe') rfl rfl
  refine Prod.ext e1 (Prod.ext e2 (ext_getD_int (by rw [a3, b3, h, h']) (fun n => ?_)))
  rw [a4 n, b4 n]
  by_cases hn : n < 4
  · rw [if_pos ⟨hn, by omega⟩, if_pos ⟨hn, by omega⟩,
      (fec_fold_fe C i (List.range n) (g, data, fe) (g, data, fe') rfl rfl).1]
  · rw [if_neg (by omega), if_neg (by omega)]
    simp only [List.getD_eq_getElem?_getD]
    rw [List.getElem?_eq_none (by omega), List.getElem?_eq_none (by omega)]

theorem frame_local_length {σ : Type} (C : Codec σ) (do_fec : Int) (g : Globals σ)
    (fe : List Int) (F : List Nat) (hF : F.length = 384) :
    (frame_local C do_fec g fe F).2.2.length = 384 := by
  unfold frame_local
  split
  · simp only []
    have h := (fec_frame_mid C [] F [] g fe hF).2
    rw [tei_frame_length, derand_frame_length _ _ (by omega), h]
  · simp only []
    rw [derand_frame_length _ _ (by omega), hF]

theorem frame_local_fe {σ : Type} (C : Codec σ) (do_fec : Int) (g : Globals σ)
    (fe fe' : List Int) (F : List Nat) (hF : F.length = 384) (h : fe.length = 4)
    (h' : fe'.length = 4) :
    (frame_local C do_fec g fe F).1 = (frame_local C do_fec g fe' F).1 ∧
      (frame_local C do_fec g fe F).2.2 = (frame_local C do_fec g fe' F).2.2 := by
  unfold frame_local
  split
  · rw [fec_frame_fe C 0 g F fe fe' (by omega) h h']
    exact ⟨rfl, rfl⟩
  · exact ⟨rfl, rfl⟩

theorem frame_pure_mid {σ : Type} (C : Codec σ) (do_fec : Int) (g : Globals σ)
    (fe : List Int) (data T F U : List Nat) (hd : deint_frame data T.length = T ++ (F ++ U))
    (hF : F.length = 384) :
    frame_pure C do_fec T.length g fe data =
      ((frame_local C do_fec g fe F).1, (frame_local C do_fec g fe F).2.1,
        T ++ ((frame_local C do_fec g fe F).2.2 ++ U)) := by
  unfold frame_pure frame_local
  rw [hd]
  obtain ⟨e1, e2⟩ := fec_frame_mid C T F U g fe hF
  split
  · rw [e1]
    simp only []
    rw [derand_frame_mid T _ U e2,
      tei_frame_mid _ T _ U (by rw [derand_frame_length _ _ (by omega), e2])]
  · simp only []
    rw [derand_frame_mid T F U hF]

theorem frame_pure_local {σ : Type} (C : Codec σ) (do_fec : Int) (i : Nat) (g : Globals σ)
    (fe : List Int) (data : List Nat) (hd : i ≤ data.length) :
    frame_pure C do_fec i g fe data =
      ((frame_local C do_fec g fe (deint_core data i)).1,
        (frame_local C do_fec g fe (deint_core data i)).2.1,
        data.take i ++ ((frame_local C do_fec g fe (deint_core data i)).2.2 ++
          data.drop (i + 384))) := by
  have hT : (data.take i).length = i := by rw [List.length_take]; omega
  have h := frame_pure_mid C do_fec g fe data (data.take i) (deint_core data i)
    (data.drop (i + 384)) (by rw [hT]; exact deint_frame_core data i) (deint_core_length _ _)
  rw [hT] at h
  exact h

theorem deint_core_append (D Q : List Nat) (i : Nat) (h : i + 1056 ≤ D.length) :
    deint_core (D ++ Q) i = deint_core D i := by
  unfold deint_core
  apply List.map_congr_left
  intro k hk
  have := List.mem_range.1 hk
  rw [List.getD_append _ _ _ _ (by omega)]

theorem deint_core_drop (D : List Nat) (a j : Nat) :
    deint_core (D.drop a) j = deint_core D (a + j) := by
  unfold deint_core
  apply List.map_congr_left
  intro k _
  simp only [List.getD_eq_getElem?_getD, List.getElem?_drop]
  congr 2
  omega

/-- The loop body on the frame at `i` in terms of the frame alone: it always succeeds
when 1152 bytes are there, replaces the 384 bytes of the frame and emits its payload. -/
theorem process_frame_local {σ : Type} (C : Codec σ) (do_fec : Int) (i : Nat)
    (st : ChunkState σ) (hd : i + 1152 ≤ st.data.length) (hw : st.data_work.length = 384)
    (hf : st.fec_error.length = 4) :
    ∃ s, process_frame C do_fec (i : Int) st = some s ∧
      s.g = (frame_local C do_fec st.g st.fec_error (deint_core st.data i)).1 ∧
      s.data = st.data.take i ++
        ((frame_local C do_fec st.g st.fec_error (deint_core st.data i)).2.2 ++
          st.data.drop (i + 384)) ∧
      s.ts_out = st.ts_out ++
        emit_frame (frame_local C do_fec st.g st.fec_error (deint_core st.data i)).2.2 0 ∧
      s.out_len = st.out_len + 376 ∧ s.frames = st.frames + 1 ∧
      s.data_work.length = 384 ∧ s.data.length = st.data.length ∧
      s.fec_error.length = 4 := by
  obtain ⟨s, h1, h2, h3, h4, h5, h6, h7, h8, h9, h10⟩ :=
    process_frame_eq C do_fec i st hd hw hf
  rw [frame_pure_local C do_fec i st.g st.fec_error st.data (by omega)] at h2 h3 h4
  simp only [] at h2 h3 h4
  refine ⟨s, h1, h2, h4, ?_, h6, h7, h8, h9, h10⟩
  rw [h5, h4]
  have hT : (st.data.take i).length = i := by rw [List.length_take]; omega
  have := emit_frame_mid (st.data.take i)
    (frame_local C do_fec st.g st.fec_error (deint_core st.data i)).2.2
    (st.data.drop (i + 384)) (frame_local_length C do_fec _ _ _ (deint_core_length _ _))
  rw [hT] at this
  rw [this]

theorem de_fec_total_flag {σ : Type} (C : Codec σ) (g : Globals σ) (d : List Nat) :
    (de_fec_total C g d).1.2.oob_ecc_initialized = g.oob_ecc_initialized := by
  unfold de_fec_total oob_de_fec
  split
  · simp only []
    split
    · split
      · rfl
      · rfl
    · rfl
  · rfl

theorem fec_fold_flag {σ : Type} (C : Codec σ) (i : Nat) (l : List Nat)
    (a : Globals σ × List Nat × List Int) :
    (l.foldl (fec_stage C i) a).1.oob_ecc_initialized = a.1.oob_ecc_initialized := by
  induction l generalizing a with
  | nil => rfl
  | cons n l ih =>
    simp only [List.foldl_cons]
    rw [ih, fec_stage_def]
    exact de_fec_total_flag C _ _

theorem frame_local_flag {σ : Type} (C : Codec σ) (do_fec : Int) (g : Globals σ)
    (fe : List Int) (F : List Nat) :
    (frame_local C do_fec g fe F).1.oob_ecc_initialized = g.oob_ecc_initialized := by
  unfold frame_local
  split
  · exact fec_fold_flag C 0 (List.range 4) (g, F, fe)
  · rfl

theorem sync_at_anchor (D : List Nat) (i len : Int) (hi : 0 ≤ i) (hl : len ≤ D.length)
    (ha : is_anchor D i 0) : oob_synchronize_bitstream D i len = some 0 := by
  obtain ⟨k, h1, h2, h3, _⟩ := oob_synchronize_bitstream_spec D i len hi hl
  have hk : k = 0 := by
    by_contra hne
    exact h3 0 (le_refl _) (by omega) ha
  rw [h1, hk]

theorem sync_bound (D : List Nat) (i len k : Int) (hi : 0 ≤ i) (hl : len ≤ D.length)
    (hc : i + 383 < len) (h : oob_synchronize_bitstream D i len = some k) :
    i + k + 383 ≤ len := by
  obtain ⟨k', h1, h2, h3, h4⟩ := oob_synchronize_bitstream_spec D i len hi hl
  have e : k' = k := Option.some.inj (h1.symm.trans h)
  subst e
  rcases h4 with ⟨a1, _⟩ | ⟨_, a2⟩ <;> omega

/-- One frame processed in the loop on `P` is processed in the same way in the loop on
`P ++ Q`. -/
theorem ext_frame {σ : Type} (C : Codec σ) (do_fec : Int) (Q : List Nat) (I : Nat)
    (st s sW : ChunkState σ) (lenW : Int) (hd : I + 1152 ≤ st.data.length)
    (hw : st.data_work.length = 384) (hf : st.fec_error.length = 4)
    (hs : process_frame C do_fec (I : Int) st = some s)
    (e1 : sW.data = st.data ++ Q) (e2 : sW.g = st.g) (e3 : sW.ts_out = st.ts_out)
    (hinvW : chunk_inv lenW sW) :
    s.g.oob_ecc_initialized = st.g.oob_ecc_initialized ∧
    ∃ sW1, process_frame C do_fec (I : Int) sW = some sW1 ∧ sW1.data = s.data ++ Q ∧
      sW1.g = s.g ∧ sW1.ts_out = s.ts_out ∧ chunk_inv lenW sW1 := by
  obtain ⟨s1, a1, a2, a3, a4, _⟩ := process_frame_local C do_fec I st hd hw hf
  have es : s1 = s := Option.some.inj (a1.symm.trans hs)
  subst es
  have hdW : I + 1152 ≤ sW.data.length := by rw [e1, List.length_append]; omega
  obtain ⟨sW1, b1, b2, b3, b4, _⟩ :=
    process_frame_local C do_fec I sW hdW hinvW.2.1 hinvW.2.2.1
  obtain ⟨sW2, c1, c2⟩ := process_frame_spec C do_fec I sW hdW hinvW.2.1 hinvW.2.2.1
  have es2 : sW2 = sW1 := Option.some.inj (c1.symm.trans b1)
  subst es2
  have hcore : deint_core sW.data I = deint_core st.data I := by
    rw [e1]; exact deint_core_append _ _ _ (by omega)
  obtain ⟨f1, f2⟩ := frame_local_fe C do_fec st.g sW.fec_error st.fec_error
    (deint_core st.data I) (deint_core_length _ _) hinvW.2.2.1 hf
  rw [hcore, e2] at b2 b3 b4
  rw [f1] at b2
  rw [f2] at b3 b4
  refine ⟨by rw [a2]; exact frame_local_flag C do_fec _ _ _, sW2, b1, ?_, by rw [b2, a2], ?_,
    chunk_inv_frame lenW I sW sW2 hinvW c2⟩
  · rw [b3, a3, e1, List.take_append_of_le_length (by omega),
      List.drop_append_of_le_length (by omega)]
    simp only [List.append_assoc]
  · rw [b4, a4, e3]

/-- The call on `P` against the loop on `P ++ Q`: when the call on `P` leaves its loop
with counter `i1`, the loop on `P ++ Q` is at the same counter with the same globals and
the same emitted bytes, and the bytes of `P` from `i1` on are untouched. -/
theorem ext_run {σ : Type} (C : Codec σ) (g : Globals σ) (do_fec : Int) (P Q : List Nat) :
    ∃ i1 st1, process_data_chunk_ideal C g P (P.length : Int) do_fec =
        some (finish (P.length : Int) i1 st1) ∧
      chunk_inv (P.length : Int) st1 ∧ 0 ≤ i1 ∧ i1 ≤ (P.length : Int) ∧
      ext_inv C ((P ++ Q).length : Int) do_fec P Q
        (chunk_run C ((P ++ Q).length : Int) do_fec 0 (start_state C g (P ++ Q) do_fec))
        i1 st1 := by
  have hPQ : ((P ++ Q).length : Int) = (P.length : Int) + (Q.length : Int) := by
    rw [List.length_append]; push_cast; rfl
  obtain ⟨i1, st1, h1, hinv, hI, h2, h3, _⟩ :=
    oob_process_data_chunk_rule C g P (P.length : Int) do_fec (le_refl _)
      (ext_inv C ((P ++ Q).length : Int) do_fec P Q
        (chunk_run C ((P ++ Q).length : Int) do_fec 0 (start_state C g (P ++ Q) do_fec)))
      (fun i st k hi hk hinv hI hc hs hno => by
        obtain ⟨p1, p2, p3, sW, q1, q2, q3, q4, q5⟩ := hI
        have hkb := sync_bound st.data i _ k hi hinv.1 hc hs
        refine ⟨p1, ?_, p3, sW, q1, q2, q3, q4, ?_⟩
        · have e : (i + k).toNat = i.toNat + k.toNat := by omega
          rw [e, ← List.drop_drop, ← List.drop_drop, p2]
        · rw [q5]
          apply chunk_run_skip C _ do_fec i k sW hi hk q4 _ (Or.inl (by omega))
          intro j hj0 hjk
          rw [q1, is_anchor_append _ _ _ _ (by omega)]
          exact hno j hj0 hjk)
      (fun I st s hinv hI hbnd hanc hs hpost => by
        obtain ⟨p1, p2, p3, sW, q1, q2, q3, q4, q5⟩ := hI
        have hd : I + 1152 ≤ st.data.length := by omega
        obtain ⟨hfl, sW1, r1, r2, r3, r4, r5⟩ :=
          ext_frame C do_fec Q I st s sW _ hd hinv.2.1 hinv.2.2.1 hs q1 q2 q3 q4
        refine ⟨by rw [hpost.1.1]; exact p1, ?_, fun h => by rw [hfl]; exact p3 h,
          sW1, r2, r3, r4, r5, ?_⟩
        · have e1 : ((I : Int) + 384).toNat = I + 384 := by omega
          have e2 : ((I : Int)).toNat = I := by omega
          rw [e2] at p2
          rw [e1, drop_eq_of_same_outside _ _ _ _ hpost.1]
          have e3 : I + 384 = I + 384 := rfl
          rw [← List.drop_drop, ← List.drop_drop, p2]
        · rw [q5, chunk_run_unfold C _ do_fec I sW (by omega) q4, if_pos (by omega),
            sync_at_anchor sW.data I _ (by omega) q4.1
              (by rw [q1, is_anchor_append _ _ _ _ (by omega)]; exact hanc)]
          simp only [Int.add_zero]
          rw [if_neg (by omega), r1])
      ⟨rfl, rfl, fun h => by
          unfold start_state
          simp only []
          split
          · rfl
          · rename_i hc
            cases hfl : g.oob_ecc_initialized
            · exact absurd ⟨h, hfl⟩ hc
            · rfl,
        start_state C g (P ++ Q) do_fec, rfl, rfl, rfl,
        chunk_inv_start C g (P ++ Q) _ do_fec (le_refl _), rfl⟩
  exact ⟨i1, st1, h1, hinv, h2, by omega, hI⟩

/-- One frame processed at `I` is processed in the same way at `I - a` in the buffer
without its first `a` bytes. -/
theorem shift_frame {σ : Type} (C : Codec σ) (do_fec : Int) (a : Nat) (T0 : List Nat)
    (I J : Nat) (st s st' s' : ChunkState σ) (hR : shift_rel a T0 st st')
    (hJ : (J : Int) = (I : Int) - (a : Int)) (hd : I + 1152 ≤ st.data.length)
    (hw : st.data_work.length = 384) (hf : st.fec_error.length = 4)
    (hw' : st'.data_work.length = 384) (hf' : st'.fec_error.length = 4)
    (hs : process_frame C do_fec (I : Int) st = some s)
    (hs' : process_frame C do_fec (J : Int) st' = some s') : shift_rel a T0 s s' := by
  obtain ⟨e1, e2, e3⟩ := hR
  have hIJ : I = a + J := by omega
  obtain ⟨s1, a1, a2, a3, a4, _⟩ := process_frame_local C do_fec I st hd hw hf
  have es : s1 = s := Option.some.inj (a1.symm.trans hs)
  subst es
  have hd' : J + 1152 ≤ st'.data.length := by rw [e1, List.length_drop]; omega
  obtain ⟨s2, b1, b2, b3, b4, _⟩ := process_frame_local C do_fec J st' hd' hw' hf'
  have es2 : s2 = s' := Option.some.inj (b1.symm.trans hs')
  subst es2
  have hcore : deint_core st'.data J = deint_core st.data I := by
    rw [e1, deint_core_drop, hIJ]
  obtain ⟨f1, f2⟩ := frame_local_fe C do_fec st.g st'.fec_error st.fec_error
    (deint_core st.data I) (deint_core_length _ _) hf' hf
  rw [hcore, e2] at b2 b3 b4
  rw [f1] at b2
  rw [f2] at b3 b4
  refine ⟨?_, by rw [b2, a2], ?_⟩
  · rw [b3, a3, e1, List.drop_append_of_le_length (by rw [List.length_take]; omega),
      List.drop_take, List.drop_drop]
    have e5 : I - a = J := by omega
    have e6 : a + (J + 384) = I + 384 := by omega
    rw [e5, e6]
  · rw [a4, b4, e3, List.append_assoc]

/-- Residual discipline for one split: the call on `P ++ Q` emits what the call on `P`
emits followed by what the call on the residual of `P` followed by `Q` emits, the
second call starting from the globals the first one leaves. -/
theorem call_split {σ : Type} (C : Codec σ) (g : Globals σ) (do_fec : Int)
    (P Q : List Nat) :
    ∃ r st, process_data_chunk_ideal C g P (P.length : Int) do_fec = some (r, st) ∧ 0 ≤ r ∧
      st.out_len = (st.ts_out.length : Int) ∧
      ∃ rW stW r2 st2,
        process_data_chunk_ideal C g (P ++ Q) ((P ++ Q).length : Int) do_fec =
          some (rW, stW) ∧
        process_data_chunk_ideal C st.g (st.data.take r.toNat ++ Q)
          ((st.data.take r.toNat ++ Q).length : Int) do_fec = some (r2, st2) ∧
        stW.ts_out = st.ts_out ++ st2.ts_out := by
  obtain ⟨i1, st1, h1, hinv, hi0, hi1, p1, p2, p3, sW, q1, q2, q3, q4, q5⟩ :=
    ext_run C g do_fec P Q
  obtain ⟨f1, f2, f3, f4, f5, f6⟩ := finish_fields (P.length : Int) i1 st1
  have ha : ((i1.toNat : Nat) : Int) = i1 := by omega
  have hres : (finish (P.length : Int) i1 st1).2.data.take
      (finish (P.length : Int) i1 st1).1.toNat = P.drop i1.toNat := by
    rw [f5, f6]
    by_cases hc : (P.length : Int) - i1 > 0
    · rw [if_pos hc, if_pos hc,
        List.take_left' (by rw [List.length_take, List.length_drop]; omega),
        List.take_of_length_le (by rw [List.length_drop]; omega), p2]
    · rw [if_neg hc, if_neg hc, List.drop_of_length_le (by omega)]
      rfl
  have hg2 : start_state C st1.g (P.drop i1.toNat ++ Q) do_fec =
      { (start_state C st1.g (P.drop i1.toNat ++ Q) do_fec) with g := st1.g } := by
    unfold start_state
    simp only []
    split
    · rename_i hc
      rw [p3 hc.1] at hc
      exact absurd hc.2 (by decide)
    · rfl
  have hlen2 : ((P.drop i1.toNat ++ Q).length : Int) = ((P ++ Q).length : Int) - i1 := by
    rw [List.length_append, List.length_append, List.length_drop]
    push_cast
    omega
  obtain ⟨iW, sWf, w1, w2, _⟩ :=
    call_eq_run C g (P ++ Q) ((P ++ Q).length : Int) do_fec (le_refl _)
  obtain ⟨i2, s2, v1, v2, _⟩ :=
    call_eq_run C st1.g (P.drop i1.toNat ++ Q) ((P.drop i1.toNat ++ Q).length : Int) do_fec
      (le_refl _)
  obtain ⟨iE, s, s', c1, c2, c3, _⟩ :=
    chunk_loop_sim C C ((P ++ Q).length : Int) ((P.drop i1.toNat ++ Q).length : Int)
      do_fec do_fec i1 hlen2 (shift_rel i1.toNat st1.ts_out)
      (fun i st st' hR hv hv' hai hi => by
        apply sync_congr _ _ _ _ _ _ (by omega) hi hv'.1 hv.1 (by omega)
        intro j hj _
        rw [hR.1]
        have := is_anchor_drop st.data i1.toNat i j (by omega)
        rw [ha] at this
        exact this)
      (fun I J st s st' s' hR hv hv' hJ hb hs hs' =>
        shift_frame C do_fec i1.toNat st1.ts_out I J st s st' s' hR (by omega)
          (by have := hv.1; omega) hv.2.1 hv.2.2.1 hv'.2.1 hv'.2.2.1 hs hs')
      ((((P ++ Q).length : Int) - i1).toNat + 1)
      ((((P.drop i1.toNat ++ Q).length : Int) - (i1 - i1)).toNat + 1) i1 sW
      (start_state C st1.g (P.drop i1.toNat ++ Q) do_fec) (le_refl _) hi0
      ⟨by
          show P.drop i1.toNat ++ Q = sW.data.drop i1.toNat
          rw [q1, List.drop_append_of_le_length (by omega), p2],
        by rw [hg2, q2], by
          rw [q3]
          show st1.ts_out = st1.ts_out ++ []
          rw [List.append_nil]⟩
      q4 (chunk_inv_start C st1.g _ _ do_fec (le_refl _)) (le_refl _) (le_refl _)
  have hW : chunk_run C ((P ++ Q).length : Int) do_fec i1 sW = some (iE, s) := c1
  have h2 : chunk_run C ((P.drop i1.toNat ++ Q).length : Int) do_fec 0
      (start_state C st1.g (P.drop i1.toNat ++ Q) do_fec) = some (iE - i1, s') := by
    rw [Int.sub_self] at c2
    exact c2
  rw [q5, hW] at w1
  rw [h2] at v1
  have eW : s = sWf := congrArg Prod.snd (Option.some.inj w1)
  have e2 : s' = s2 := congrArg Prod.snd (Option.some.inj v1)
  subst eW e2
  have g1 : 0 ≤ (finish (P.length : Int) i1 st1).1 := by
    rw [f5]
    split <;> omega
  have g2 : (finish (P.length : Int) i1 st1).2.out_len =
      ((finish (P.length : Int) i1 st1).2.ts_out.length : Int) := by
    rw [f2, f1, hinv.2.2.2.1, hinv.2.2.2.2]
    push_cast
    rfl
  have g3 : process_data_chunk_ideal C (finish (P.length : Int) i1 st1).2.g
      ((finish (P.length : Int) i1 st1).2.data.take (finish (P.length : Int) i1 st1).1.toNat
        ++ Q)
      (((finish (P.length : Int) i1 st1).2.data.take
        (finish (P.length : Int) i1 st1).1.toNat ++ Q).length : Int) do_fec =
      some (finish ((P.drop i1.toNat ++ Q).length : Int) i2 s') := by
    rw [hres, f3]
    exact v2
  have g4 : (finish ((P ++ Q).length : Int) iW s).2.ts_out =
      (finish (P.length : Int) i1 st1).2.ts_out ++
        (finish ((P.drop i1.toNat ++ Q).length : Int) i2 s').2.ts_out := by
    rw [f1, (finish_fields _ i2 s').1, (finish_fields _ iW s).1]
    exact c3.2.2
  exact ⟨_, _, h1, g1, g2, _, _, _, _, w2, g3, g4⟩

theorem call_empty {σ : Type} (C : Codec σ) (g : Globals σ) (do_fec : Int) :
    ∃ r st, process_data_chunk_ideal C g [] (([] : List Nat).length : Int) do_fec =
      some (r, st) ∧ st.ts_out = [] := by
  obtain ⟨r, st, h1, h2, _, _, h5, h6, _⟩ :=
    oob_process_data_chunk_spec C g [] (([] : List Nat).length : Int) do_fec (le_refl _)
  refine ⟨r, st, h1, List.eq_nil_of_length_eq_zero ?_⟩
  have e : (([] : List Nat).length : Int) = 0 := rfl
  rw [e] at h6
  omega

/-- The call reads and writes only the first `len` bytes of its buffer: with further
bytes `J` behind them it returns the same result, emits the same bytes, leaves the same
globals, and leaves `J` as it is. -/
theorem call_beyond_len {σ : Type} (C : Codec σ) (g : Globals σ) (do_fec : Int)
    (B J : List Nat) :
    ∃ r st st', process_data_chunk_ideal C g B (B.length : Int) do_fec = some (r, st) ∧
      process_data_chunk_ideal C g (B ++ J) (B.length : Int) do_fec = some (r, st') ∧
      st'.ts_out = st.ts_out ∧ st'.out_len = st.out_len ∧ st'.g = st.g ∧
      st'.data = st.data ++ J := by
  have hl' : (B.length : Int) ≤ ((B ++ J).length : Nat) := by
    rw [List.length_append]; push_cast; omega
  obtain ⟨i1, s1, w1, w2, w3, w4, w5⟩ :=
    call_eq_run C g B (B.length : Int) do_fec (le_refl _)
  obtain ⟨i2, s2, v1, v2, v3, _⟩ := call_eq_run C g (B ++ J) (B.length : Int) do_fec hl'
  obtain ⟨iE, s, s', c1, c2, c3, c4, c5, _⟩ :=
    chunk_loop_sim C C (B.length : Int) (B.length : Int) do_fec do_fec 0 (by omega)
      (fun st st' => st'.data = st.data ++ J ∧ st'.g = st.g ∧ st'.ts_out = st.ts_out ∧
        st.data.length = B.length)
      (fun i st st' hR hv hv' _ hi => by
        rw [Int.sub_zero]
        apply sync_congr _ _ _ _ _ _ hi hi hv'.1 hv.1 rfl
        intro j hj hb
        rw [hR.1]
        exact is_anchor_append _ _ _ _ (by have := hv.1; omega))
      (fun I K st s st' s' hR hv hv' hK hb hs hs' => by
        have hKI : K = I := by omega
        subst hKI
        obtain ⟨_, sW1, r1, r2, r3, r4, _⟩ :=
          ext_frame C do_fec J K st s st' (B.length : Int) (by have := hv.1; omega)
            hv.2.1 hv.2.2.1 hs hR.1 hR.2.1 hR.2.2.1 hv'
        have e : sW1 = s' := Option.some.inj (r1.symm.trans hs')
        subst e
        exact ⟨r2, r3, r4, by
          obtain ⟨s0, h0, h0p⟩ := process_frame_spec C do_fec K st
            (by have := hv.1; omega) hv.2.1 hv.2.2.1
          have e0 : s0 = s := Option.some.inj (h0.symm.trans hs)
          subst e0
          rw [h0p.1.1]; exact hR.2.2.2⟩)
      (((B.length : Int) - 0).toNat + 1) (((B.length : Int) - (0 - 0)).toNat + 1) 0
      (start_state C g B do_fec) (start_state C g (B ++ J) do_fec) (le_refl _) (le_refl _)
      ⟨rfl, rfl, rfl, rfl⟩ (chunk_inv_start C g B _ do_fec (le_refl _))
      (chunk_inv_start C g (B ++ J) _ do_fec hl') (le_refl _) (le_refl _)
  have hA : chunk_run C (B.length : Int) do_fec 0 (start_state C g B do_fec) =
      some (iE, s) := c1
  have hB : chunk_run C (B.length : Int) do_fec 0 (start_state C g (B ++ J) do_fec) =
      some (iE - 0, s') := by
    rw [Int.sub_self] at c2
    exact c2
  rw [hA] at w1
  rw [hB, Int.sub_zero] at v1
  have e1 : iE = i1 := congrArg Prod.fst (Option.some.inj w1)
  have e2 : s = s1 := congrArg Prod.snd (Option.some.inj w1)
  have e3 : iE = i2 := congrArg Prod.fst (Option.some.inj v1)
  have e4 : s' = s2 := congrArg Prod.snd (Option.some.inj v1)
  subst e2 e4 e1
  subst e3
  obtain ⟨f1, f2, f3, _, f5, f6⟩ := finish_fields (B.length : Int) iE s
  obtain ⟨k1, k2, k3, _, k5, k6⟩ := finish_fields (B.length : Int) iE s'
  obtain ⟨r1, r2, r3, r4⟩ := c3
  have g1 : (finish (B.length : Int) iE s').1 = (finish (B.length : Int) iE s).1 := by
    rw [f5, k5]
  have g2 : (finish (B.length : Int) iE s').2.ts_out =
      (finish (B.length : Int) iE s).2.ts_out := by rw [f1, k1, r3]
  have g3 : (finish (B.length : Int) iE s').2.out_len =
      (finish (B.length : Int) iE s).2.out_len := by
    rw [f2, k2, c4.2.2.2.1, c5.2.2.2.1]
    have := c4.2.2.2.2
    have := c5.2.2.2.2
    rw [r3] at this
    omega
  have g4 : (finish (B.length : Int) iE s').2.g = (finish (B.length : Int) iE s).2.g := by
    rw [f3, k3, r2]
  have g5 : (finish (B.length : Int) iE s').2.data =
      (finish (B.length : Int) iE s).2.data ++ J := by
    rw [f6, k6, r1]
    by_cases hc : (B.length : Int) - iE > 0
    · rw [if_pos hc, if_pos hc, List.drop_append_of_le_length (by omega),
        List.take_append_of_le_length (by rw [List.length_drop]; omega),
        List.drop_append_of_le_length (by omega), List.append_assoc]
    · rw [if_neg hc, if_neg hc]
  have hv2 : process_data_chunk_ideal C g (B ++ J) (B.length : Int) do_fec =
      some ((finish (B.length : Int) iE s).1, (finish (B.length : Int) iE s').2) := by
    rw [v2, ← g1]
  exact ⟨_, _, _, w2, hv2, g2, g3, g4, g5⟩

theorem foldlM_fail_last {α : Type} (f : α → Nat → Option α) (P : α → Prop) (x : Nat)
    (hP : ∀ s n s', P s → f s n = some s' → P s') (hx : ∀ s, P s → f s x = none)
    (l : List Nat) (s0 : α) (h0 : P s0) : (l ++ [x]).foldlM f s0 = none := by
  induction l generalizing s0 with
  | nil =>
    simp only [List.nil_append, List.foldlM_cons, hx s0 h0]
    rfl
  | cons a l ih =>
    simp only [List.cons_append, List.foldlM_cons]
    cases h : f s0 a with
    | none => rfl
    | some s1 => exact ih s1 (hP s0 a s1 h0 h)

/-- The de-interleaver reads `data_in[767]`: on fewer than 768 bytes it runs out of its
buffer. -/
theorem oob_de_interleaver_short (data_in data_out : List Nat) (h : data_in.length < 768) :
    oob_de_interleaver data_in data_out = none := by
  unfold oob_de_interleaver
  have h8 : List.range 8 = List.range 7 ++ [7] := List.range_succ 7
  have h12 : List.range 12 = List.range 11 ++ [11] := List.range_succ 11
  have hin : ∀ out : List Nat,
      (List.range 12).foldlM (de_interleaver_step data_in 7) out = none := by
    intro out
    rw [h12]
    apply foldlM_fail_last _ (fun _ => True) 11 (fun _ _ _ _ _ => trivial) _ _ _ trivial
    intro s _
    unfold de_interleaver_step rd
    rw [List.getElem?_eq_none (by omega)]
  have hout : (List.range 8).foldlM
      (fun out i => (List.range 12).foldlM (de_interleaver_step data_in i) out) data_out =
      none := by
    rw [h8]
    exact foldlM_fail_last _ (fun _ => True) 7 (fun _ _ _ _ _ => trivial)
      (fun s _ => hin s) _ _ trivial
  rw [hout]

theorem memcpy_length (dst src d : List Nat) (n : Int) (h : memcpy dst src n = some d) :
    d.length = dst.length := by
  unfold memcpy at h
  split at h
  · rename_i hc
    rw [← Option.some.inj h]
    simp only [List.length_append, List.length_take, List.length_drop]
    omega
  · exact absurd h (by simp)

theorem withPtr_memcpy_length (buf src data : List Nat) (off n : Int) (u : Unit)
    (h : withPtr buf off (fun dst => (memcpy dst src n).map (fun d => ((), d))) =
      some (u, data)) : data.length = buf.length := by
  unfold withPtr at h
  split at h
  · rename_i hc
    cases hm : memcpy (buf.drop off.toNat) src n with
    | none =>
      simp only [hm, Option.map_none'] at h
      exact absurd h (by simp)
    | some d =>
      simp only [hm, Option.map_some'] at h
      have e : buf.take off.toNat ++ d = data := congrArg Prod.snd (Option.some.inj h)
      have hd := memcpy_length _ _ _ _ hm
      rw [← e, List.length_append, List.length_take, hd, List.length_drop]
      omega
  · exact absurd h (by simp)

theorem deinterleave_block_length {σ : Type} (i : Int) (st s : ChunkState σ) (n : Nat)
    (h : deinterleave_block i st n = some s) : s.data.length = st.data.length := by
  unfold deinterleave_block at h
  split at h
  · exact absurd h (by simp)
  · split at h
    · exact absurd h (by simp)
    · split at h
      · exact absurd h (by simp)
      · split at h
        · exact absurd h (by simp)
        · rename_i u data hw
          have e := Option.some.inj h
          rw [← e]
          exact withPtr_memcpy_length _ _ _ _ _ _ hw

theorem deinterleave_block_short {σ : Type} (I : Nat) (st : ChunkState σ)
    (h : st.data.length < I + 1056) : deinterleave_block (I : Int) st 3 = none := by
  unfold deinterleave_block ptrAt
  split
  · rfl
  · rename_i src hsrc
    split at hsrc
    · have e := Option.some.inj hsrc
      have hs : src.length < 768 := by
        rw [← e, List.length_drop]
        omega
      have hw : withPtr st.data_work (((3 : Nat) : Int) * 96) (oob_de_interleaver src) =
          none := by
        unfold withPtr
        split
        · rw [oob_de_interleaver_short src _ hs]
        · rfl
      rw [hw]
    · exact absurd hsrc (by simp)

/-- The guard of line 292 is needed: the loop body on a frame at `I` reads up to
`data[I + 1055]`, and on a buffer of fewer than `I + 1056` bytes it runs out of it. -/
theorem process_frame_short {σ : Type} (C : Codec σ) (do_fec : Int) (I : Nat)
    (st : ChunkState σ) (h : st.data.length < I + 1056) :
    process_frame C do_fec (I : Int) st = none := by
  have h4 : List.range 4 = List.range 3 ++ [3] := List.range_succ 3
  have hf : (List.range 4).foldlM (deinterleave_block (I : Int)) st = none := by
    rw [h4]
    exact foldlM_fail_last _ (fun s => s.data.length < I + 1056) 3
      (fun s n s1 hs hn => by
        show s1.data.length < I + 1056
        rw [deinterleave_block_length _ s s1 n hn]
        exact hs)
      (fun s hs => deinterleave_block_short I s hs) _ st h
  unfold process_frame
  rw [hf]

/-- The output fits its buffer, for the loop without the overflow check. -/
theorem ideal_output_fits {σ : Type} (C : Codec σ) (g : Globals σ) (data : List Nat)
    (len do_fec : Int) (h0 : 0 ≤ len) (hl : len ≤ data.length) :
    ∃ r st, process_data_chunk_ideal C g data len do_fec = some (r, st) ∧
      384 * (st.out_len / 376) + r ≤ len ∧ st.out_len * 768 ≤ 752 * len ∧
      (st.ts_out.length : Int) = st.out_len ∧
      ∀ b : Int, len ≤ b * 768 → st.out_len ≤ b * 752 := by
  obtain ⟨r, st, h1, h2, _, h4, h5, h6, _⟩ :=
    oob_process_data_chunk_spec C g data len do_fec hl
  have hdiv : st.out_len / 376 = (st.frames : Int) := by
    rw [h4]
    exact Int.mul_ediv_cancel_left _ (by decide)
  refine ⟨r, st, h1, ?_, ?_, ?_, ?_⟩
  · rw [hdiv]
    omega
  · omega
  · rw [h4, h5]
    push_cast
    rfl
  · intro b hb
    omega

theorem INT_MAX_eq : INT_MAX = 2147483647 := rfl

/-- Whenever the loop of the code returns, it returns what the loop without the
overflow check returns. -/
theorem chunk_loop_refines {σ : Type} (C : Codec σ) (len do_fec : Int) :
    ∀ (fuel : Nat) (i : Int) (st : ChunkState σ) (x : Int × ChunkState σ),
      chunk_loop C len do_fec fuel i st = some x →
      chunk_loop_ideal C len do_fec fuel i st = some x := by
  intro fuel
  induction fuel with
  | zero =>
    intro i st x h
    unfold chunk_loop at h
    exact absurd h (by simp)
  | succ fuel ih =>
    intro i st x h
    unfold chunk_loop at h
    unfold chunk_loop_ideal
    by_cases hc : i + 383 < len
    · rw [if_pos hc] at h
      rw [if_pos hc]
      cases hs : oob_synchronize_bitstream st.data i len with
      | none =>
        rw [hs] at h
        exact absurd h (by simp)
      | some k =>
        rw [hs] at h
        simp only [] at h ⊢
        by_cases ho : i + k + 384 + 768 > INT_MAX
        · rw [if_pos ho] at h
          exact absurd h (by simp)
        · rw [if_neg ho] at h
          by_cases hb : i + k + 384 + 768 > len
          · rw [if_pos hb] at h
            rw [if_pos hb]
            exact h
          · rw [if_neg hb] at h
            rw [if_neg hb]
            cases hp : process_frame C do_fec (i + k) st with
            | none =>
              rw [hp] at h
              exact absurd h (by simp)
            | some s =>
              rw [hp] at h
              simp only [] at h ⊢
              exact ih _ _ _ h
    · rw [if_neg hc] at h
      rw [if_neg hc]
      exact h

/-- For `len ≤ 2147482878` the sum of line 292 stays in the range of `int` and the loop
of the code is the loop without the overflow check. -/
theorem chunk_loop_defined {σ : Type} (C : Codec σ) (len do_fec : Int)
    (hmax : len ≤ 2147482878) :
    ∀ (fuel : Nat) (i : Int) (st : ChunkState σ), 0 ≤ i → chunk_inv len st →
      chunk_loop C len do_fec fuel i st = chunk_loop_ideal C len do_fec fuel i st := by
  intro fuel
  induction fuel with
  | zero =>
    intro i st _ _
    unfold chunk_loop chunk_loop_ideal
    rfl
  | succ fuel ih =>
    intro i st hi hinv
    unfold chunk_loop chunk_loop_ideal
    by_cases hc : i + 383 < len
    · rw [if_pos hc, if_pos hc]
      obtain ⟨k, h1, h2, _, h4⟩ := oob_synchronize_bitstream_spec st.data i len hi hinv.1
      rw [h1]
      simp only []
      have hk : i + k + 383 ≤ len := by
        rcases h4 with ⟨a1, _⟩ | ⟨_, a2⟩ <;> omega
      rw [if_neg (by rw [INT_MAX_eq]; omega)]
      by_cases hb : i + k + 384 + 768 > len
      · rw [if_pos hb, if_pos hb]
      · rw [if_neg hb, if_neg hb]
        obtain ⟨I, hI⟩ := Int.eq_ofNat_of_zero_le (show 0 ≤ i + k by omega)
        rw [hI]
        obtain ⟨s, hs, hpost⟩ := process_frame_spec C do_fec I st
          (by have := hinv.1; omega) hinv.2.1 hinv.2.2.1
        rw [hs]
        simp only []
        exact ih _ _ (by omega) (chunk_inv_frame len I st s hinv hpost)
    · rw [if_neg hc, if_neg hc]

/-- Whenever the call returns, it returns what the call without the overflow check
returns. -/
theorem call_refines {σ : Type} (C : Codec σ) (g : Globals σ) (data : List Nat)
    (len do_fec : Int) (x : Int × ChunkState σ)
    (h : oob_process_data_chunk C g data len do_fec = some x) :
    process_data_chunk_ideal C g data len do_fec = some x := by
  unfold oob_process_data_chunk at h
  unfold process_data_chunk_ideal
  simp only [] at h ⊢
  cases hl : chunk_loop C len do_fec (len.toNat + 1) 0
      { data := data, data_work := List.replicate 384 0, fec_error := List.replicate 4 0,
        ts_out := [], out_len := 0,
        g := if do_fec ≠ 0 ∧ g.oob_ecc_initialized = false then
            { g with ecc := C.initialize_ecc g.ecc, oob_ecc_initialized := true }
          else g,
        frames := 0 } with
  | none =>
    rw [hl] at h
    exact absurd h (by simp)
  | some p =>
    rw [hl] at h
    rw [chunk_loop_refines C len do_fec _ _ _ _ hl]
    exact h

/-- For a buffer holding `len ≤ 2147482878` bytes the call is the call without the
overflow check. -/
theorem call_defined {σ : Type} (C : Codec σ) (g : Globals σ) (data : List Nat)
    (len do_fec : Int) (hl : len ≤ data.length) (hmax : len ≤ 2147482878) :
    oob_process_data_chunk C g data len do_fec =
      process_data_chunk_ideal C g data len do_fec := by
  unfold oob_process_data_chunk process_data_chunk_ideal
  simp only []
  have h := chunk_loop_defined C len do_fec hmax (len.toNat + 1) 0
    (start_state C g data do_fec) (le_refl _) (chunk_inv_start C g data len do_fec hl)
  unfold start_state at h
  rw [h]

/-- A property of the result of the call without the overflow check holds of the
result of the call whenever the call returns, and the call returns for
`len ≤ 2147482878`. -/
theorem call_transport {σ : Type} (C : Codec σ) (g : Globals σ) (data : List Nat)
    (len do_fec : Int) (hl : len ≤ data.length) (P : Int → ChunkState σ → Prop)
    (h : ∃ r st, process_data_chunk_ideal C g data len do_fec = some (r, st) ∧ P r st) :
    (len ≤ 2147482878 →
      ∃ r st, oob_process_data_chunk C g data len do_fec = some (r, st) ∧ P r st) ∧
    ∀ r st, oob_process_data_chunk C g data len do_fec = some (r, st) → P r st := by
  obtain ⟨r, st, h1, h2⟩ := h
  refine ⟨fun hmax => ⟨r, st, by rw [call_defined C g data len do_fec hl hmax]; exact h1, h2⟩,
    fun r' st' h' => ?_⟩
  have e := Option.some.inj ((call_refines C g data len do_fec _ h').symm.trans h1)
  have e1 : r' = r := congrArg Prod.fst e
  have e2 : st' = st := congrArg Prod.snd e
  rw [e1, e2]
  exact h2

theorem no_anchor_of_bytes (data : List Nat) (i k : Int) (h : ∀ b ∈ data, b ≠ 0x47) :
    ¬ is_anchor data i k := by
  intro ha
  have h1 := ha.1
  unfold rdZ at h1
  split at h1
  · exact h _ (List.getElem?_mem h1) rfl
  · exact absurd h1 (by simp)

/-- The overflow is reached: on a buffer without the byte `0x47` that holds
`len ≥ 2147482879` bytes the synchronizer advances to `len - 383`, the sum of line 292
is `len + 769 > INT_MAX`, and the call has no defined result. -/
theorem call_overflow {σ : Type} (C : Codec σ) (g : Globals σ) (data : List Nat)
    (len do_fec : Int) (hl : len ≤ data.length) (hbig : 2147482879 ≤ len)
    (hno : ∀ b ∈ data, b ≠ 0x47) :
    oob_synchronize_bitstream data 0 len = some (len - 383) ∧
    (0 : Int) + (len - 383) + 384 + 768 > INT_MAX ∧
    oob_process_data_chunk C g data len do_fec = none := by
  obtain ⟨k, h1, h2, _, h4⟩ := oob_synchronize_bitstream_spec data 0 len (le_refl _) hl
  have hk : k = len - 383 := by
    rcases h4 with ⟨_, a2⟩ | ⟨a1, a2⟩
    · exact absurd a2 (no_anchor_of_bytes data 0 k hno)
    · omega
  subst hk
  have ho : (0 : Int) + (len - 383) + 384 + 768 > INT_MAX := by
    rw [INT_MAX_eq]; omega
  refine ⟨h1, ho, ?_⟩
  unfold oob_process_data_chunk
  simp only []
  unfold chunk_loop
  rw [if_pos (by omega)]
  simp only [h1]
  rw [if_pos ho]

theorem zeros_no_sync (n : Nat) : ∀ b ∈ List.replicate n 0, b ≠ 0x47 := by
  intro b hb
  rw [List.eq_of_mem_replicate hb]
  decide

/-- Claim C9. For every buffer holding `len` bytes, every `len` (negative ones included),
every `do_fec` and every behaviour of the Reed-Solomon library: whenever
`oob_process_data_chunk` returns, its result `r` satisfies `0 ≤ r < 768 + 384`; and it
returns for every `len ≤ 2147482878` (above that the sum of line 292 can leave the range
of `int`, which is undefined in C). -/
theorem C9_residual_bound {σ : Type} (C : Codec σ) (g : Globals σ) (data : List Nat)
    (len do_fec : Int) (hl : len ≤ data.length) :
    (len ≤ 2147482878 →
      ∃ r st, oob_process_data_chunk C g data len do_fec = some (r, st) ∧
        0 ≤ r ∧ r < 768 + 384) ∧
    ∀ r st, oob_process_data_chunk C g data len do_fec = some (r, st) →
      0 ≤ r ∧ r < 768 + 384 :=
  call_transport C g data len do_fec hl (fun r _ => 0 ≤ r ∧ r < 768 + 384)
    (ideal_residual_bound C g data len do_fec hl)

set_option maxRecDepth 100000 in
/-- Witness of claim C9 on the 401 bytes of `sample_unaligned`, FEC enabled. -/
theorem C9_residual_bound_witness :
    (401 : Int) ≤ sample_unaligned.length ∧ (401 : Int) ≤ 2147482878 ∧
    ∃ r st, oob_process_data_chunk null_codec initial_globals sample_unaligned 401 1 =
        some (r, st) ∧ 0 ≤ r ∧ r < 768 + 384 :=
  ⟨by decide, by decide,
    (C9_residual_bound null_codec initial_globals sample_unaligned 401 1 (by decide)).1
      (by decide)⟩

/-- Claim C10. For every buffer holding `len` bytes, every `do_fec` and every behaviour of
the library: whenever `oob_process_data_chunk` returns, `*out_len` is non-negative and
equal to 376 times the number of loop bodies it ran to their end, and this is also the
number of bytes it stored through `ts_out` (a frame that is not processed adds
nothing); and it returns for every `len ≤ 2147482878`. -/
theorem C10_out_len_multiple {σ : Type} (C : Codec σ) (g : Globals σ) (data : List Nat)
    (len do_fec : Int) (hl : len ≤ data.length) :
    (len ≤ 2147482878 →
      ∃ r st, oob_process_data_chunk C g data len do_fec = some (r, st) ∧
        0 ≤ st.out_len ∧ st.out_len = 376 * (st.frames : Int) ∧
        (st.ts_out.length : Int) = st.out_len) ∧
    ∀ r st, oob_process_data_chunk C g data len do_fec = some (r, st) →
      0 ≤ st.out_len ∧ st.out_len = 376 * (st.frames : Int) ∧
      (st.ts_out.length : Int) = st.out_len :=
  call_transport C g data len do_fec hl
    (fun _ st => 0 ≤ st.out_len ∧ st.out_len = 376 * (st.frames : Int) ∧
      (st.ts_out.length : Int) = st.out_len)
    (ideal_out_len_multiple C g data len do_fec hl)

set_option maxRecDepth 100000 in
/-- Witness of claim C10 on the 401 bytes of `sample_unaligned`, FEC disabled. -/
theorem C10_out_len_multiple_witness :
    (401 : Int) ≤ sample_unaligned.length ∧ (401 : Int) ≤ 2147482878 ∧
    ∃ r st, oob_process_data_chunk null_codec initial_globals sample_unaligned 401 0 =
        some (r, st) ∧ 0 ≤ st.out_len ∧ st.out_len = 376 * (st.frames : Int) ∧
      (st.ts_out.length : Int) = st.out_len :=
  ⟨by decide, by decide,
    (C10_out_len_multiple null_codec initial_globals sample_unaligned 401 0 (by decide)).1
      (by decide)⟩

/-- Claim C11. For every buffer `D` holding `len` bytes, every `do_fec` and every
behaviour of the library: if `oob_process_data_chunk` returns `r > 0`, then `r ≤ len`
and the first `r` bytes of the buffer on return are the last `r` bytes
`D[len - r .. len)` of the input as it was before the call; and the call returns for
every `len ≤ 2147482878`. -/
theorem C11_residual_bytes {σ : Type} (C : Codec σ) (g : Globals σ) (data : List Nat)
    (len do_fec : Int) (hl : len ≤ data.length) :
    (len ≤ 2147482878 →
      ∃ r st, oob_process_data_chunk C g data len do_fec = some (r, st) ∧
        (0 < r → r ≤ len ∧
          st.data.take r.toNat = (data.drop (len - r).toNat).take r.toNat)) ∧
    ∀ r st, oob_process_data_chunk C g data len do_fec = some (r, st) →
      (0 < r → r ≤ len ∧
        st.data.take r.toNat = (data.drop (len - r).toNat).take r.toNat) :=
  call_transport C g data len do_fec hl
    (fun r st => 0 < r → r ≤ len ∧
      st.data.take r.toNat = (data.drop (len - r).toNat).take r.toNat)
    (ideal_residual_bytes C g data len do_fec hl)

set_option maxRecDepth 100000 in
/-- Witness of claim C11 on the 401 bytes of `sample_unaligned`, FEC enabled. -/
theorem C11_residual_bytes_witness :
    (401 : Int) ≤ sample_unaligned.length ∧ (401 : Int) ≤ 2147482878 ∧
    ∃ r st, oob_process_data_chunk null_codec initial_globals sample_unaligned 401 1 =
        some (r, st) ∧
      (0 < r → r ≤ 401 ∧
        st.data.take r.toNat = (sample_unaligned.drop ((401 : Int) - r).toNat).take r.toNat) :=
  ⟨by decide, by decide,
    (C11_residual_bytes null_codec initial_globals sample_unaligned 401 1 (by decide)).1
      (by decide)⟩

theorem zeros_768_defined {σ : Type} (C : Codec σ) (g : Globals σ) (do_fec : Int) :
    oob_process_data_chunk C g (List.replicate 768 0) 768 do_fec =
      process_data_chunk_ideal C g (List.replicate 768 0) 768 do_fec :=
  call_defined C g _ 768 do_fec (by rw [List.length_replicate]; decide) (by decide)

/-- Claim C12 fails as stated: on 768 zero bytes with `len = 768` no offset is an anchor
and `oob_process_data_chunk` returns 383, not 768. -/
theorem C12_counterexample :
    (∀ k : Int, ¬ is_anchor (List.replicate 768 0) 0 k) ∧ (383 : Int) ≠ 768 ∧
      ∃ st, oob_process_data_chunk null_codec initial_globals (List.replicate 768 0) 768 0 =
        some (383, st) := by
  refine ⟨no_anchor_zeros 768 0, by decide, ?_⟩
  rw [zeros_768_defined]
  exact (chunk_zeros null_codec initial_globals 0).imp (fun _ h => h.1)

/-- Claim C12 (amended). For an input of 768 zero bytes (`len = 768`), for every `do_fec`
and every behaviour of the library, `oob_process_data_chunk` finds no anchor, returns
383 (the synchronizer has moved the counter to 385 = 768 - 383) and sets
`*out_len = 0`; nothing is stored through `ts_out` and the buffer still holds zeros. -/
theorem C12_zero_chunk {σ : Type} (C : Codec σ) (g : Globals σ) (do_fec : Int) :
    (∀ k : Int, ¬ is_anchor (List.replicate 768 0) 0 k) ∧
      oob_synchronize_bitstream (List.replicate 768 0) 0 768 = some 385 ∧
      ∃ st, oob_process_data_chunk C g (List.replicate 768 0) 768 do_fec = some (383, st) ∧
        st.out_len = 0 ∧ st.ts_out = [] ∧ st.data = List.replicate 768 0 := by
  rw [zeros_768_defined]
  exact ideal_zero_chunk C g do_fec

set_option maxRecDepth 100000 in
/-- Claim C13 fails as stated: on the 401 bytes of `sample_unaligned` (17 bytes without
anchor, then a frame with `0x47` and `0x64` at its offsets 0 and 192)
`oob_process_data_chunk` returns 384, not 401. -/
theorem C13_counterexample :
    sample_unaligned.length = 401 ∧
      (∀ k : Int, 0 ≤ k → k < 17 → ¬ is_anchor sample_unaligned 0 k) ∧
      is_anchor sample_unaligned 0 17 ∧ (384 : Int) ≠ 401 ∧
      ∃ st, oob_process_data_chunk null_codec initial_globals sample_unaligned 401 0 =
        some (384, st) := by
  have hno : ∀ k : Int, 0 ≤ k → k < 17 → ¬ is_anchor sample_unaligned 0 k := by decide
  refine ⟨by decide, hno, by decide, by decide, ?_⟩
  rw [call_defined null_codec initial_globals sample_unaligned 401 0 (by decide) (by decide)]
  exact (chunk_unaligned null_codec initial_globals 0 sample_unaligned (by decide) hno
      (by decide)).2.imp (fun _ h => h.1)

/-- Claim C13 (amended). For every 401-byte input made of 17 bytes containing no anchor
followed by one 384-byte frame whose bytes at frame offsets 0 and 192 are `0x47` and
`0x64`, for every `do_fec` and library: the synchronizer advances by 17, and
`oob_process_data_chunk` returns a residual of 384 with `*out_len = 0`; the residual
moved to the front of the buffer is the frame, the 17 leading bytes are dropped. -/
theorem C13_unaligned_chunk {σ : Type} (C : Codec σ) (g : Globals σ) (do_fec : Int)
    (data : List Nat) (hlen : data.length = 401)
    (hno : ∀ k : Int, 0 ≤ k → k < 17 → ¬ is_anchor data 0 k) (ha : is_anchor data 0 17) :
    oob_synchronize_bitstream data 0 401 = some 17 ∧
    ∃ st, oob_process_data_chunk C g data 401 do_fec = some (384, st) ∧
      st.out_len = 0 ∧ st.ts_out = [] ∧ st.data.take 384 = data.drop 17 := by
  rw [call_defined C g data 401 do_fec (by omega) (by decide)]
  exact ideal_unaligned_chunk C g do_fec data hlen hno ha

set_option maxRecDepth 100000 in
/-- Witness of claim C13 (amended) on `sample_unaligned`, FEC enabled. -/
theorem C13_unaligned_chunk_witness :
    sample_unaligned.length = 401 ∧
    (∀ k : Int, 0 ≤ k → k < 17 → ¬ is_anchor sample_unaligned 0 k) ∧
    is_anchor sample_unaligned 0 17 ∧
    oob_synchronize_bitstream sample_unaligned 0 401 = some 17 ∧
    ∃ st, oob_process_data_chunk null_codec initial_globals sample_unaligned 401 1 =
        some (384, st) ∧
      st.out_len = 0 ∧ st.ts_out = [] ∧ st.data.take 384 = sample_unaligned.drop 17 :=
  ⟨by decide, by decide, by decide,
    C13_unaligned_chunk null_codec initial_globals 1 sample_unaligned (by decide) (by decide)
      (by decide)⟩

/-- Claim C19. With `do_fec = 0`, for every buffer `D` of bytes holding `len ≥ 1152`
bytes with `D[0] == 0x47` and `D[192] == 0x64`, and every library: whenever the call
returns, at least 376 bytes are emitted, and for `n < 4`, `j < 94` the byte
`ts_out[94 n + j]` is `D[96 n + j + 96 (j mod 8)] XOR oob_rand_table[96 n + j]`; and the
call returns for every `len ≤ 2147482878`. -/
theorem C19_first_frame_bytes {σ : Type} (C : Codec σ) (g : Globals σ) (D : List Nat)
    (len : Int) (hl : len ≤ D.length) (hlen : 1152 ≤ len) (hb : ∀ b ∈ D, b < 256)
    (h0 : D.getD 0 0 = 0x47) (h192 : D.getD 192 0 = 0x64) :
    (len ≤ 2147482878 →
      ∃ r st, oob_process_data_chunk C g D len 0 = some (r, st) ∧ 376 ≤ st.out_len ∧
        ∀ n < 4, ∀ j < 94, st.ts_out[94 * n + j]? =
          some (D.getD (96 * n + j + 96 * (j % 8)) 0 ^^^
            oob_rand_table.getD (96 * n + j) 0)) ∧
    ∀ r st, oob_process_data_chunk C g D len 0 = some (r, st) → 376 ≤ st.out_len ∧
      ∀ n < 4, ∀ j < 94, st.ts_out[94 * n + j]? =
        some (D.getD (96 * n + j + 96 * (j % 8)) 0 ^^^ oob_rand_table.getD (96 * n + j) 0) :=
  call_transport C g D len 0 hl
    (fun _ st => 376 ≤ st.out_len ∧
      ∀ n < 4, ∀ j < 94, st.ts_out[94 * n + j]? =
        some (D.getD (96 * n + j + 96 * (j % 8)) 0 ^^^ oob_rand_table.getD (96 * n + j) 0))
    (ideal_first_frame_bytes C g D len hl hlen hb h0 h192)

/-- Witness of claim C19 on the 1152 bytes of `sample_aligned`. -/
theorem C19_first_frame_bytes_witness :
    (1152 : Int) ≤ sample_aligned.length ∧ (1152 : Int) ≤ 1152 ∧
    (∀ b ∈ sample_aligned, b < 256) ∧
    sample_aligned.getD 0 0 = 0x47 ∧ sample_aligned.getD 192 0 = 0x64 ∧
    (1152 : Int) ≤ 2147482878 ∧
    ∃ r st, oob_process_data_chunk null_codec initial_globals sample_aligned 1152 0 =
        some (r, st) ∧ 376 ≤ st.out_len ∧
      ∀ n < 4, ∀ j < 94, st.ts_out[94 * n + j]? =
        some (sample_aligned.getD (96 * n + j + 96 * (j % 8)) 0 ^^^
          oob_rand_table.getD (96 * n + j) 0) :=
  ⟨by rw [sample_aligned_length]; decide, le_refl _, sample_aligned_bytes, sample_aligned_0,
    sample_aligned_192, by decide,
    (C19_first_frame_bytes null_codec initial_globals sample_aligned 1152
      (by rw [sample_aligned_length]; decide) (le_refl _) sample_aligned_bytes
      sample_aligned_0 sample_aligned_192).1 (by decide)⟩

/-- Claim C23. For every buffer holding `len ≥ 0` bytes and every `do_fec`, with `r` the
result of `oob_process_data_chunk` whenever it returns (it does for every
`len ≤ 2147482878`): `384 * (*out_len / 376) + r ≤ len`, hence
`*out_len * 768 ≤ 752 * len`; `*out_len` is the number of bytes stored through `ts_out`,
so for an input of at most `b * 768` bytes the output fits a buffer of `b * 752` bytes
(the sizes of `InData` and `OutData` in `main` for `b = blocks_per_chunk`). -/
theorem C23_output_fits {σ : Type} (C : Codec σ) (g : Globals σ) (data : List Nat)
    (len do_fec : Int) (h0 : 0 ≤ len) (hl : len ≤ data.length) :
    (len ≤ 2147482878 →
      ∃ r st, oob_process_data_chunk C g data len do_fec = some (r, st) ∧
        384 * (st.out_len / 376) + r ≤ len ∧ st.out_len * 768 ≤ 752 * len ∧
        (st.ts_out.length : Int) = st.out_len ∧
        ∀ b : Int, len ≤ b * 768 → st.out_len ≤ b * 752) ∧
    ∀ r st, oob_process_data_chunk C g data len do_fec = some (r, st) →
      384 * (st.out_len / 376) + r ≤ len ∧ st.out_len * 768 ≤ 752 * len ∧
      (st.ts_out.length : Int) = st.out_len ∧
      ∀ b : Int, len ≤ b * 768 → st.out_len ≤ b * 752 :=
  call_transport C g data len do_fec hl
    (fun r st => 384 * (st.out_len / 376) + r ≤ len ∧ st.out_len * 768 ≤ 752 * len ∧
      (st.ts_out.length : Int) = st.out_len ∧
      ∀ b : Int, len ≤ b * 768 → st.out_len ≤ b * 752)
    (ideal_output_fits C g data len do_fec h0 hl)

/-- Witness of claim C23 on the 1152 bytes of `sample_aligned`, FEC enabled. -/
theorem C23_output_fits_witness :
    (0 : Int) ≤ 1152 ∧ (1152 : Int) ≤ sample_aligned.length ∧ (1152 : Int) ≤ 2147482878 ∧
    ∃ r st, oob_process_data_chunk null_codec initial_globals sample_aligned 1152 1 =
        some (r, st) ∧
      384 * (st.out_len / 376) + r ≤ 1152 ∧ st.out_len * 768 ≤ 752 * 1152 ∧
      (st.ts_out.length : Int) = st.out_len ∧
      ∀ b : Int, 1152 ≤ b * 768 → st.out_len ≤ b * 752 :=
  ⟨by decide, by rw [sample_aligned_length]; decide, by decide,
    (C23_output_fits null_codec initial_globals sample_aligned 1152 1 (by decide)
      (by rw [sample_aligned_length]; decide)).1 (by decide)⟩

/-- The input of the overflow: 2147483136 zero bytes, the largest buffer `main` can
allocate (`-b 2796202`, `2796202 * 768 = 2147483136`). The synchronizer finds no anchor
and returns `len - 383 = 2147482753`; the sum `i+384+768` of line 292 is then
`2147483905 > INT_MAX`, and the call has no defined result. -/
theorem zeros_overflow {σ : Type} (C : Codec σ) (g : Globals σ) (do_fec : Int) :
    oob_synchronize_bitstream (List.replicate 2147483136 0) 0 2147483136 =
      some 2147482753 ∧
    (0 : Int) + 2147482753 + 384 + 768 > INT_MAX ∧
    oob_process_data_chunk C g (List.replicate 2147483136 0) 2147483136 do_fec = none := by
  have hl : (2147483136 : Int) ≤ ((List.replicate 2147483136 0).length : Nat) := by
    rw [List.length_replicate]
    omega
  have h := call_overflow C g (List.replicate 2147483136 0) 2147483136 do_fec hl
    (by omega) (zeros_no_sync _)
  have e : (2147483136 : Int) - 383 = 2147482753 := by omega
  rw [e] at h
  exact h

/-- Claim C14. With `do_fec = 0`, for every buffer holding `len` bytes and every library:
whenever the call returns, every 188-byte packet emitted begins with `0x47`
(`ts_out[188 j] == 0x47` for every `j` with `188 j < out_len`), and the call returns
for every `len ≤ 2147482878`; in particular, when the buffer starts with an anchor and
`1152 ≤ len < 1536`, `out_len` is 376 and `ts_out[0]` and `ts_out[188]` are `0x47`. This
rests on `oob_rand_table[0] == 0x00` and `oob_rand_table[192] == 0x23`, with
`0x23 XOR 0x47 == 0x64`. The claim fails for larger `len`: on 2147483136 zero bytes the
synchronizer returns 2147482753 and the sum `i+384+768` of line 292 exceeds `INT_MAX`,
so the call has no defined result (as compiled the sum wraps, the loop does not break
and a frame of zero bytes is emitted, whose first byte is not `0x47`). -/
theorem C14_packets_start_with_sync {σ : Type} (C : Codec σ) (g : Globals σ)
    (D : List Nat) (len : Int) (hl : len ≤ D.length) :
    ((len ≤ 2147482878 →
      ∃ r st, oob_process_data_chunk C g D len 0 = some (r, st) ∧
        (∀ j : Nat, 188 * (j : Int) < st.out_len → st.ts_out[188 * j]? = some 0x47) ∧
        (1152 ≤ len → len < 1536 → D[0]? = some 0x47 → D[192]? = some 0x64 →
          st.out_len = 376 ∧ st.ts_out[0]? = some 0x47 ∧ st.ts_out[188]? = some 0x47) ∧
        oob_rand_table[0]? = some 0x00 ∧ oob_rand_table[192]? = some 0x23 ∧
        0x23 ^^^ 0x47 = 0x64) ∧
    ∀ r st, oob_process_data_chunk C g D len 0 = some (r, st) →
      (∀ j : Nat, 188 * (j : Int) < st.out_len → st.ts_out[188 * j]? = some 0x47) ∧
      (1152 ≤ len → len < 1536 → D[0]? = some 0x47 → D[192]? = some 0x64 →
        st.out_len = 376 ∧ st.ts_out[0]? = some 0x47 ∧ st.ts_out[188]? = some 0x47) ∧
      oob_rand_table[0]? = some 0x00 ∧ oob_rand_table[192]? = some 0x23 ∧
      0x23 ^^^ 0x47 = 0x64) ∧
    oob_synchronize_bitstream (List.replicate 2147483136 0) 0 2147483136 =
      some 2147482753 ∧
    (0 : Int) + 2147482753 + 384 + 768 > INT_MAX ∧
    oob_process_data_chunk C g (List.replicate 2147483136 0) 2147483136 0 = none :=
  ⟨call_transport C g D len 0 hl
    (fun _ st =>
      (∀ j : Nat, 188 * (j : Int) < st.out_len → st.ts_out[188 * j]? = some 0x47) ∧
      (1152 ≤ len → len < 1536 → D[0]? = some 0x47 → D[192]? = some 0x64 →
        st.out_len = 376 ∧ st.ts_out[0]? = some 0x47 ∧ st.ts_out[188]? = some 0x47) ∧
      oob_rand_table[0]? = some 0x00 ∧ oob_rand_table[192]? = some 0x23 ∧
      0x23 ^^^ 0x47 = 0x64)
    (ideal_packets_start_with_sync C g D len hl), zeros_overflow C g 0⟩

/-- Witness of claim C14 on the 1152 bytes of `sample_aligned`. -/
theorem C14_packets_start_with_sync_witness :
    (1152 : Int) ≤ sample_aligned.length ∧ (1152 : Int) ≤ 2147482878 ∧
    ∃ r st, oob_process_data_chunk null_codec initial_globals sample_aligned 1152 0 =
        some (r, st) ∧
      (∀ j : Nat, 188 * (j : Int) < st.out_len → st.ts_out[188 * j]? = some 0x47) ∧
      ((1152 : Int) ≤ 1152 → (1152 : Int) < 1536 → sample_aligned[0]? = some 0x47 →
        sample_aligned[192]? = some 0x64 →
        st.out_len = 376 ∧ st.ts_out[0]? = some 0x47 ∧ st.ts_out[188]? = some 0x47) ∧
      oob_rand_table[0]? = some 0x00 ∧ oob_rand_table[192]? = some 0x23 ∧
      0x23 ^^^ 0x47 = 0x64 :=
  ⟨by rw [sample_aligned_length]; decide, by decide,
    (C14_packets_start_with_sync null_codec initial_globals sample_aligned 1152
      (by rw [sample_aligned_length]; decide)).1.1 (by decide)⟩

/-- Claim C18. With `do_fec = 0`, for every buffer `D` holding `len` bytes, every library
and globals: whenever the call returns, the globals (the three counters, the state of
the library, the initialisation flag) are exactly as they were, with any other library
and globals the call returns the same result, the same buffer and the same emitted
bytes, and every 376 emitted bytes are the de-interleaved, de-randomized payload of a
frame of `D` (`emit_frame (derand_frame (deint_frame D I) I) I`), in which no `0x80` is
ORed: the output is a function of the input bytes and `oob_rand_table` only. The call
returns for every `len ≤ 2147482878`. The claim fails for larger `len`: on 2147483136
zero bytes the sum of line 292 exceeds `INT_MAX` and the call has no defined result (as
compiled the loop does not break and emits a frame read from beyond the `len` bytes). -/
theorem C18_no_fec_no_codec {σ : Type} (C : Codec σ) (g : Globals σ) (D : List Nat)
    (len : Int) (hl : len ≤ D.length) :
    (len ≤ 2147482878 →
      ∃ r st, oob_process_data_chunk C g D len 0 = some (r, st) ∧ st.g = g ∧
        (∀ (σ2 : Type) (C2 : Codec σ2) (g2 : Globals σ2),
          ∃ st2, oob_process_data_chunk C2 g2 D len 0 = some (r, st2) ∧
            st2.data = st.data ∧ st2.ts_out = st.ts_out ∧ st2.out_len = st.out_len) ∧
        st.ts_out.length = 376 * st.frames ∧
        ∀ f, f < st.frames → ∃ I : Nat, (I : Int) + 1152 ≤ len ∧
          (st.ts_out.drop (376 * f)).take 376 =
            emit_frame (derand_frame (deint_frame D I) I) I) ∧
    (∀ r st, oob_process_data_chunk C g D len 0 = some (r, st) → st.g = g ∧
      (∀ (σ2 : Type) (C2 : Codec σ2) (g2 : Globals σ2) (r2 : Int) (st2 : ChunkState σ2),
        oob_process_data_chunk C2 g2 D len 0 = some (r2, st2) →
          r2 = r ∧ st2.data = st.data ∧ st2.ts_out = st.ts_out ∧
            st2.out_len = st.out_len) ∧
      st.ts_out.length = 376 * st.frames ∧
      ∀ f, f < st.frames → ∃ I : Nat, (I : Int) + 1152 ≤ len ∧
        (st.ts_out.drop (376 * f)).take 376 =
          emit_frame (derand_frame (deint_frame D I) I) I) ∧
    oob_process_data_chunk C g (List.replicate 2147483136 0) 2147483136 0 = none := by
  obtain ⟨r0, st0, h1, h2, h3, h4, h5⟩ := ideal_no_fec_no_codec C g D len hl
  refine ⟨fun hmax => ⟨r0, st0, by rw [call_defined C g D len 0 hl hmax]; exact h1, h2,
    fun σ2 C2 g2 => ?_, h4, h5⟩, fun r st h => ?_, (zeros_overflow C g 0).2.2⟩
  · obtain ⟨st2, k1, k2⟩ := h3 σ2 C2 g2
    exact ⟨st2, by rw [call_defined C2 g2 D len 0 hl hmax]; exact k1, k2⟩
  · have e := Option.some.inj ((call_refines C g D len 0 _ h).symm.trans h1)
    have e1 : r = r0 := congrArg Prod.fst e
    have e2 : st = st0 := congrArg Prod.snd e
    subst e1 e2
    refine ⟨h2, fun σ2 C2 g2 r2 st2 hc => ?_, h4, h5⟩
    obtain ⟨st2', k1, k2⟩ := h3 σ2 C2 g2
    have e' := Option.some.inj ((call_refines C2 g2 D len 0 _ hc).symm.trans k1)
    have e3 : r2 = r := congrArg Prod.fst e'
    have e4 : st2 = st2' := congrArg Prod.snd e'
    subst e4
    exact ⟨e3, k2⟩

/-- Witness of claim C18 on the 1152 bytes of `sample_aligned`, library
`failing_codec`. -/
theorem C18_no_fec_no_codec_witness :
    (1152 : Int) ≤ sample_aligned.length ∧ (1152 : Int) ≤ 2147482878 ∧
    ∃ r st, oob_process_data_chunk failing_codec initial_globals sample_aligned 1152 0 =
        some (r, st) ∧ st.g = initial_globals ∧
      (∀ (σ2 : Type) (C2 : Codec σ2) (g2 : Globals σ2),
        ∃ st2, oob_process_data_chunk C2 g2 sample_aligned 1152 0 = some (r, st2) ∧
          st2.data = st.data ∧ st2.ts_out = st.ts_out ∧ st2.out_len = st.out_len) ∧
      st.ts_out.length = 376 * st.frames ∧
      ∀ f, f < st.frames → ∃ I : Nat, (I : Int) + 1152 ≤ 1152 ∧
        (st.ts_out.drop (376 * f)).take 376 =
          emit_frame (derand_frame (deint_frame sample_aligned I) I) I :=
  ⟨by rw [sample_aligned_length]; decide, by decide,
    (C18_no_fec_no_codec failing_codec initial_globals sample_aligned 1152
      (by rw [sample_aligned_length]; decide)).1 (by decide)⟩

/-- Claim C22. For every library, all globals, every `do_fec` and every input buffer of
exactly `len ≤ 2147482878` bytes, `oob_process_data_chunk` returns a result in the
embedding in which every access is checked against the buffer: every index it reads or
writes in the input buffer lies in `[0, len)`, and the buffer keeps its size. The
lookahead is what makes this so: the loop body on a frame at `I` reads up to
`data[I + 1055]`, and run on a buffer of fewer than `I + 1056` bytes it leaves the
buffer (result `none`). The claim fails for larger `len`: on a buffer of exactly
2147483136 zero bytes the synchronizer returns `len - 383 = 2147482753`, the sum
`i+384+768` of line 292 exceeds `INT_MAX`, and the call has no defined result (as
compiled the sum wraps, the loop does not break, and the body runs on the frame at
`len - 383`, which reads up to `data[len + 672]` and writes `data[len]`). -/
theorem C22_accesses_in_bounds {σ : Type} (C : Codec σ) (g : Globals σ) (data : List Nat)
    (do_fec : Int) :
    ((data.length : Int) ≤ 2147482878 →
      ∃ r st, oob_process_data_chunk C g data (data.length : Int) do_fec = some (r, st) ∧
        st.data.length = data.length) ∧
    (∀ (I : Nat) (st : ChunkState σ), st.data.length < I + 1056 →
      process_frame C do_fec (I : Int) st = none) ∧
    (List.replicate 2147483136 0).length = 2147483136 ∧
    oob_synchronize_bitstream (List.replicate 2147483136 0) 0 2147483136 =
      some 2147482753 ∧
    (0 : Int) + 2147482753 + 384 + 768 > INT_MAX ∧
    oob_process_data_chunk C g (List.replicate 2147483136 0) 2147483136 do_fec = none := by
  refine ⟨fun hmax => ?_, fun I st h => process_frame_short C do_fec I st h,
    List.length_replicate _ _, zeros_overflow C g do_fec⟩
  obtain ⟨r, st, h1, _, _, _, _, _, h7⟩ :=
    oob_process_data_chunk_spec C g data (data.length : Int) do_fec (le_refl _)
  exact ⟨r, st, by rw [call_defined C g data _ do_fec (le_refl _) hmax]; exact h1, h7⟩

/-- Witness of claim C22: the 1152 bytes of `sample_aligned` are processed inside the
buffer, and the loop body at 0 on a buffer of 1055 bytes leaves it. -/
theorem C22_accesses_in_bounds_witness :
    (sample_aligned.length : Int) ≤ 2147482878 ∧
    (∃ r st, oob_process_data_chunk null_codec initial_globals sample_aligned
        (sample_aligned.length : Int) 1 = some (r, st) ∧
      st.data.length = sample_aligned.length) ∧
    (start_state null_codec initial_globals (List.replicate 1055 0) 1).data.length <
      0 + 1056 ∧
    process_frame null_codec 1 ((0 : Nat) : Int)
      (start_state null_codec initial_globals (List.replicate 1055 0) 1) = none :=
  have hlen : (start_state null_codec initial_globals (List.replicate 1055 0) 1).data.length <
      0 + 1056 := by
    show (List.replicate 1055 0).length < 0 + 1056
    rw [List.length_replicate]
    decide
  have hmax : (sample_aligned.length : Int) ≤ 2147482878 := by
    rw [sample_aligned_length]
    decide
  ⟨hmax, (C22_accesses_in_bounds null_codec initial_globals sample_aligned 1).1 hmax, hlen,
    (C22_accesses_in_bounds null_codec initial_globals sample_aligned 1).2.1 0
      (start_state null_codec initial_globals (List.replicate 1055 0) 1) hlen⟩

/-- Claim C16. Let `S` be `N` pairs of 188-byte packets (bytes below 256), each packet
starting with `0x47`, let `parity` be an encoder whose codewords the library accepts
(`rs_contract`), and let the encoded stream be the reference encoding of `S`
(`384 N + 672` bytes) followed by its trailing lookahead `P` of at least 96 and fewer
than 480 bytes, so that 768 to 1151 bytes follow the last frame. Whenever
`oob_process_data_chunk` with `do_fec = 1` returns on it, the output is `S` exactly,
`*out_len = 376 N`, `fec_total_block_count` has grown by `4 N` and `fec_error_count` and
`fec_corrected_block_count` are unchanged; and the call returns when the stream has at
most 2147482878 bytes. -/
theorem C16_round_trip {σ : Type} (C : Codec σ) (parity : List Nat → List Nat)
    (hC : rs_contract C parity) (g : Globals σ) (S : List Nat) (N : Nat)
    (hS : S.length = 376 * N) (hb : ∀ b ∈ S, b < 256)
    (hsync : ∀ f < N, S.getD (376 * f) 0 = 0x47 ∧ S.getD (376 * f + 188) 0 = 0x47)
    (P : List Nat) (hP1 : 96 ≤ P.length) (hP2 : P.length < 480) :
    (((384 * N + 672 + P.length : Nat) : Int) ≤ 2147482878 →
      ∃ r st, oob_process_data_chunk C g (ref_encode parity S N ++ P)
          ((384 * N + 672 + P.length : Nat) : Int) 1 = some (r, st) ∧
        st.ts_out = S ∧ st.out_len = 376 * (N : Int) ∧
        st.g.fec_total_block_count = g.fec_total_block_count + 4 * (N : Int) ∧
        st.g.fec_error_count = g.fec_error_count ∧
        st.g.fec_corrected_block_count = g.fec_corrected_block_count) ∧
    ∀ r st, oob_process_data_chunk C g (ref_encode parity S N ++ P)
        ((384 * N + 672 + P.length : Nat) : Int) 1 = some (r, st) →
      st.ts_out = S ∧ st.out_len = 376 * (N : Int) ∧
      st.g.fec_total_block_count = g.fec_total_block_count + 4 * (N : Int) ∧
      st.g.fec_error_count = g.fec_error_count ∧
      st.g.fec_corrected_block_count = g.fec_corrected_block_count := by
  obtain ⟨r, st, h1, _, h3, h4, h5, h6, h7, _⟩ :=
    roundtrip_core C parity hC 1 (by decide) g S N hS hb hsync P hP2
  have e : roundtrip_frames N P.length = N := if_pos hP1
  rw [e] at h3 h4 h5
  have hl : ((384 * N + 672 + P.length : Nat) : Int) ≤
      ((ref_encode parity S N ++ P).length : Nat) := by
    rw [List.length_append, ref_encode_length]
  exact call_transport C g (ref_encode parity S N ++ P) _ 1 hl
    (fun _ st => st.ts_out = S ∧ st.out_len = 376 * (N : Int) ∧
      st.g.fec_total_block_count = g.fec_total_block_count + 4 * (N : Int) ∧
      st.g.fec_error_count = g.fec_error_count ∧
      st.g.fec_corrected_block_count = g.fec_corrected_block_count)
    ⟨r, st, h1, by rw [h3]; exact List.take_of_length_le (by omega), h4, h5, h6, h7⟩

set_option maxRecDepth 100000 in
/-- Witness of claim C16: the pair `sample_payload`, its encoding followed by 96 zero
bytes, library `null_codec`, counters at 0. -/
theorem C16_round_trip_witness :
    rs_contract null_codec sample_parity ∧ sample_payload.length = 376 * 1 ∧
      (∀ b ∈ sample_payload, b < 256) ∧
      (∀ f < 1, sample_payload.getD (376 * f) 0 = 0x47 ∧
        sample_payload.getD (376 * f + 188) 0 = 0x47) ∧
      96 ≤ (List.replicate 96 0).length ∧ (List.replicate 96 0).length < 480 ∧
      ((384 * 1 + 672 + (List.replicate 96 0).length : Nat) : Int) ≤ 2147482878 ∧
      ∃ r st, oob_process_data_chunk null_codec initial_globals
          (ref_encode sample_parity sample_payload 1 ++ List.replicate 96 0)
          ((384 * 1 + 672 + (List.replicate 96 0).length : Nat) : Int) 1 = some (r, st) ∧
        st.ts_out = sample_payload ∧ st.out_len = 376 * ((1 : Nat) : Int) ∧
        st.g.fec_total_block_count =
          initial_globals.fec_total_block_count + 4 * ((1 : Nat) : Int) ∧
        st.g.fec_error_count = initial_globals.fec_error_count ∧
        st.g.fec_corrected_block_count = initial_globals.fec_corrected_block_count :=
  ⟨rs_contract_null, sample_payload_valid.1, sample_payload_valid.2.1,
    sample_payload_valid.2.2, by decide, by decide, by decide,
    (C16_round_trip null_codec sample_parity rs_contract_null initial_globals sample_payload 1
      sample_payload_valid.1 sample_payload_valid.2.1 sample_payload_valid.2.2
      (List.replicate 96 0) (by decide) (by decide)).1 (by decide)⟩

theorem fec_globals_call {σ : Type} (C : Codec σ) (i : Nat) (g : Globals σ)
    (data : List Nat) (fe : List Int) (hd : i + 384 ≤ data.length) (hf : fe.length = 4)
    (n : Nat) (hn : n < 4) :
    ∃ d1, oob_de_fec C (fec_globals C i g data fe n) (data.drop (i + 96 * n)) =
      some (((fec_frame C i g data fe).2.2.getD n 0, fec_globals C i g data fe (n + 1)),
        d1) := by
  obtain ⟨_, b2, _, _⟩ := fec_acc_spec C i g data fe hd n (by omega)
  obtain ⟨_, _, _, a4⟩ := fec_acc_spec C i g data fe hd 4 (le_refl _)
  have hdrop : ((List.range n).foldl (fec_stage C i) (g, data, fe)).2.1.drop (i + 96 * n) =
      data.drop (i + 96 * n) := drop_eq_of_same_outside _ _ _ _ b2
  have hb : 96 ≤ (data.drop (i + 96 * n)).length := by
    simp only [List.length_drop]; omega
  have hcall := (de_fec_total_spec C (fec_globals C i g data fe n)
    (data.drop (i + 96 * n)) hb).1
  have hr : List.range (n + 1) = List.range n ++ [n] := List.range_succ n
  have e1 : fec_globals C i g data fe (n + 1) =
      (de_fec_total C (fec_globals C i g data fe n) (data.drop (i + 96 * n))).1.2 := by
    unfold fec_globals
    rw [hr, List.foldl_append]
    simp only [List.foldl_cons, List.foldl_nil]
    rw [fec_stage_def, hdrop]
  have e2 : (fec_frame C i g data fe).2.2.getD n 0 =
      (de_fec_total C (fec_globals C i g data fe n) (data.drop (i + 96 * n))).1.1 := by
    unfold fec_frame fec_globals
    rw [a4 n, if_pos ⟨hn, by omega⟩]
  refine ⟨(de_fec_total C (fec_globals C i g data fe n) (data.drop (i + 96 * n))).2, ?_⟩
  rw [hcall, e1, e2]

/-- Claim C17. With `do_fec` non-zero, for the loop body run on a frame at `i` (at least
1152 bytes from `i` on) and every library: the body succeeds and emits 376 bytes; the
four calls of `oob_de_fec` are made in turn on the RS blocks `n = 0..3` of the
de-interleaved frame, the first with the globals at entry and each next one with the
globals the previous one returned (`fec_globals`), the body ends with the globals the
last one returned, and `fec_error[n]` is the value that call `n` returned; and for each
packet `p < 2`, with `DR` the buffer after de-randomization: if `fec_error[2p] < 0` or
`fec_error[2p+1] < 0` the emitted byte `188 p + 1` is `DR[i + 192 p + 1] | 0x80`, so its
bit 7 is set; if neither is negative that emitted byte is `DR[i + 192 p + 1]`
unmodified. -/
theorem C17_tei_flag {σ : Type} (C : Codec σ) (do_fec : Int) (i : Nat) (st : ChunkState σ)
    (hfec : do_fec ≠ 0) (hd : i + 1152 ≤ st.data.length)
    (hw : st.data_work.length = 384) (hf : st.fec_error.length = 4) :
    ∃ s, process_frame C do_fec (i : Int) st = some s ∧
      s.ts_out = st.ts_out ++ emit_frame s.data i ∧ (emit_frame s.data i).length = 376 ∧
      fec_globals C i st.g (deint_frame st.data i) st.fec_error 0 = st.g ∧
      s.g = fec_globals C i st.g (deint_frame st.data i) st.fec_error 4 ∧
      (∀ n < 4, ∃ d1,
        oob_de_fec C (fec_globals C i st.g (deint_frame st.data i) st.fec_error n)
            ((deint_frame st.data i).drop (i + 96 * n)) =
          some ((s.fec_error.getD n 0,
            fec_globals C i st.g (deint_frame st.data i) st.fec_error (n + 1)), d1)) ∧
      ∀ p < 2,
        ((s.fec_error.getD (2 * p) 0 < 0 ∨ s.fec_error.getD (2 * p + 1) 0 < 0) →
          (emit_frame s.data i).getD (188 * p + 1) 0 =
            ((derand_frame (fec_frame C i st.g (deint_frame st.data i) st.fec_error).2.1
              i).getD (i + 192 * p + 1) 0 ||| 0x80) % 256 ∧
          Nat.testBit ((emit_frame s.data i).getD (188 * p + 1) 0) 7 = true) ∧
        (¬ (s.fec_error.getD (2 * p) 0 < 0 ∨ s.fec_error.getD (2 * p + 1) 0 < 0) →
          (emit_frame s.data i).getD (188 * p + 1) 0 =
            (derand_frame (fec_frame C i st.g (deint_frame st.data i) st.fec_error).2.1
              i).getD (i + 192 * p + 1) 0) := by
  obtain ⟨s, h1, hg, hfe, hdat, hts, _, _, _, hlen, _⟩ :=
    process_frame_eq C do_fec i st hd hw hf
  rw [frame_pure_fec C do_fec i _ _ _ hfec] at hg hfe hdat
  simp only [] at hg hfe hdat
  have hdl : (deint_frame st.data i).length = st.data.length :=
    deint_frame_length _ _ (by omega)
  obtain ⟨a1, _, a3, a4⟩ := fec_acc_spec C i st.g (deint_frame st.data i) st.fec_error
    (by omega) 4 (le_refl _)
  have hDR : (derand_frame (fec_frame C i st.g (deint_frame st.data i) st.fec_error).2.1
      i).length = st.data.length := by
    rw [derand_frame_length _ _ (by unfold fec_frame; omega)]
    unfold fec_frame
    omega
  refine ⟨s, h1, hts, emit_frame_length _ _ (by omega), rfl, hg, ?_, ?_⟩
  · intro n hn
    rw [hfe]
    exact fec_globals_call C i st.g (deint_frame st.data i) st.fec_error (by omega) hf n hn
  · intro p hp
    have hidx : (emit_frame s.data i).getD (188 * p + 1) 0 = s.data.getD (i + 192 * p + 1) 0 := by
      have := emit_blocks_getD s.data i 4 (2 * p) 1 (by omega) (by omega) (by decide)
      have e1 : 94 * (2 * p) + 1 = 188 * p + 1 := by omega
      have e2 : i + 96 * (2 * p) + 1 = i + 192 * p + 1 := by omega
      rw [e1, e2] at this
      exact this
    rw [hidx, hdat, tei_frame_getD _ _ _ _ (by omega), ← hfe]
    have hp2 : p = 0 ∨ p = 1 := by omega
    constructor
    · intro hc
      have hcond : (i + 192 * p + 1 = i + 1 ∧
          (s.fec_error.getD 0 0 < 0 ∨ s.fec_error.getD 1 0 < 0)) ∨
          (i + 192 * p + 1 = i + 193 ∧
          (s.fec_error.getD 2 0 < 0 ∨ s.fec_error.getD 3 0 < 0)) := by
        rcases hp2 with e | e
        · subst e; exact Or.inl ⟨rfl, hc⟩
        · subst e; exact Or.inr ⟨rfl, hc⟩
      rw [if_pos hcond]
      exact ⟨rfl, tei_bit_set _⟩
    · intro hc
      have hcond : ¬ ((i + 192 * p + 1 = i + 1 ∧
          (s.fec_error.getD 0 0 < 0 ∨ s.fec_error.getD 1 0 < 0)) ∨
          (i + 192 * p + 1 = i + 193 ∧
          (s.fec_error.getD 2 0 < 0 ∨ s.fec_error.getD 3 0 < 0))) := by
        rcases hp2 with e | e
        · subst e
          rintro (⟨_, h⟩ | ⟨h, _⟩)
          · exact hc h
          · omega
        · subst e
          rintro (⟨h, _⟩ | ⟨_, h⟩)
          · omega
          · exact hc h
      rw [if_neg hcond]

/-- Witness of claim C17: the first frame of `sample_aligned` with the library
`failing_codec`, `do_fec = 1`. -/
theorem C17_tei_flag_witness :
    (1 : Int) ≠ 0 ∧
    0 + 1152 ≤ (start_state failing_codec initial_globals sample_aligned 1).data.length ∧
    (start_state failing_codec initial_globals sample_aligned 1).data_work.length = 384 ∧
    (start_state failing_codec initial_globals sample_aligned 1).fec_error.length = 4 ∧
    ∃ s, process_frame failing_codec 1 ((0 : Nat) : Int)
        (start_state failing_codec initial_globals sample_aligned 1) = some s ∧
      s.ts_out = (start_state failing_codec initial_globals sample_aligned 1).ts_out ++
        emit_frame s.data 0 ∧
      (emit_frame s.data 0).length = 376 ∧
      fec_globals failing_codec 0
          (start_state failing_codec initial_globals sample_aligned 1).g
          (deint_frame (start_state failing_codec initial_globals sample_aligned 1).data 0)
          (start_state failing_codec initial_globals sample_aligned 1).fec_error 0 =
        (start_state failing_codec initial_globals sample_aligned 1).g ∧
      s.g = fec_globals failing_codec 0
          (start_state failing_codec initial_globals sample_aligned 1).g
          (deint_frame (start_state failing_codec initial_globals sample_aligned 1).data 0)
          (start_state failing_codec initial_globals sample_aligned 1).fec_error 4 ∧
      (∀ n < 4, ∃ d1,
        oob_de_fec failing_codec
            (fec_globals failing_codec 0
              (start_state failing_codec initial_globals sample_aligned 1).g
              (deint_frame (start_state failing_codec initial_globals sample_aligned 1).data 0)
              (start_state failing_codec initial_globals sample_aligned 1).fec_error n)
            ((deint_frame (start_state failing_codec initial_globals sample_aligned 1).data
              0).drop (0 + 96 * n)) =
          some ((s.fec_error.getD n 0,
            fec_globals failing_codec 0
              (start_state failing_codec initial_globals sample_aligned 1).g
              (deint_frame (start_state failing_codec initial_globals sample_aligned 1).data 0)
              (start_state failing_codec initial_globals sample_aligned 1).fec_error (n + 1)),
            d1)) ∧
      ∀ p < 2,
        ((s.fec_error.getD (2 * p) 0 < 0 ∨ s.fec_error.getD (2 * p + 1) 0 < 0) →
          (emit_frame s.data 0).getD (188 * p + 1) 0 =
            ((derand_frame (fec_frame failing_codec 0
              (start_state failing_codec initial_globals sample_aligned 1).g
              (deint_frame (start_state failing_codec initial_globals sample_aligned 1).data 0)
              (start_state failing_codec initial_globals sample_aligned 1).fec_error).2.1
              0).getD (0 + 192 * p + 1) 0 ||| 0x80) % 256 ∧
          Nat.testBit ((emit_frame s.data 0).getD (188 * p + 1) 0) 7 = true) ∧
        (¬ (s.fec_error.getD (2 * p) 0 < 0 ∨ s.fec_error.getD (2 * p + 1) 0 < 0) →
          (emit_frame s.data 0).getD (188 * p + 1) 0 =
            (derand_frame (fec_frame failing_codec 0
              (start_state failing_codec initial_globals sample_aligned 1).g
              (deint_frame (start_state failing_codec initial_globals sample_aligned 1).data 0)
              (start_state failing_codec initial_globals sample_aligned 1).fec_error).2.1
              0).getD (0 + 192 * p + 1) 0) :=
  ⟨by decide, by show 0 + 1152 ≤ sample_aligned.length; rw [sample_aligned_length],
    List.length_replicate _ _, List.length_replicate _ _,
    C17_tei_flag failing_codec 1 0 (start_state failing_codec initial_globals sample_aligned 1)
      (by decide) (by show 0 + 1152 ≤ sample_aligned.length; rw [sample_aligned_length])
      (List.length_replicate _ _) (List.length_replicate _ _)⟩

/-- The driver on a residual that a call has left and any list of non-empty chunks of
at most 2147482878 bytes in all: it returns, and what it writes is what a single call on
the residual followed by all the chunks emits. -/
theorem driver_spec {σ : Type} (C : Codec σ) (do_fec : Int) :
    ∀ (chunks : List (List Nat)) (g : Globals σ) (res : List Nat),
      (∀ c ∈ chunks, c ≠ []) →
      ((res ++ chunks.flatten).length : Int) ≤ 2147482878 →
      (∃ r st, process_data_chunk_ideal C g res (res.length : Int) do_fec = some (r, st) ∧
        st.ts_out = []) →
      ∃ out g1, driver C do_fec g res chunks = some (out, g1) ∧
        ∃ r st, process_data_chunk_ideal C g (res ++ chunks.flatten)
            ((res ++ chunks.flatten).length : Int) do_fec = some (r, st) ∧
          st.ts_out = out := by
  intro chunks
  induction chunks with
  | nil =>
    intro g res _ _ h
    refine ⟨[], g, rfl, ?_⟩
    rw [List.flatten_nil, List.append_nil]
    exact h
  | cons c rest ih =>
    intro g res hne hmax _
    have hc : ¬ c.length < 1 := by
      have := hne c (List.mem_cons_self _ _)
      have := List.length_pos.2 this
      omega
    rw [List.flatten_cons, List.length_append, List.length_append] at hmax
    obtain ⟨r, st, h1, hr, hol, _, stW, _, st2, h2, h3, h4⟩ :=
      call_split C g do_fec (res ++ c) rest.flatten
    obtain ⟨r', st', h1', _, _, _, stW', r0, st0, h2', h3', h4'⟩ :=
      call_split C g do_fec (res ++ c) []
    obtain ⟨r'', st'', h1'', _, _, _, _, hres, _⟩ :=
      oob_process_data_chunk_spec C g (res ++ c) ((res ++ c).length : Int) do_fec (le_refl _)
    have e1 := Option.some.inj (h1'.symm.trans h1)
    have er : r' = r := congrArg Prod.fst e1
    have es : st' = st := congrArg Prod.snd e1
    subst er es
    have e1' := Option.some.inj (h1''.symm.trans h1')
    have er' : r'' = r' := congrArg Prod.fst e1'
    subst er'
    rw [List.append_nil] at h2'
    have es2 : st' = stW' := congrArg Prod.snd (Option.some.inj (h1'.symm.trans h2'))
    subst es2
    rw [List.append_nil] at h3'
    have hnil : st0.ts_out = [] := by
      have := h4'
      exact List.self_eq_append_right.1 this
    have hlenc : ((res ++ c).length : Int) ≤ 2147482878 := by
      rw [List.length_append]
      push_cast at hmax ⊢
      omega
    have hmax2 : ((st'.data.take r''.toNat ++ rest.flatten).length : Int) ≤ 2147482878 := by
      rw [List.length_append, List.length_take]
      rw [List.length_append] at hres
      push_cast at hmax hres ⊢
      omega
    obtain ⟨out, g1, d1, r3, st3, d2, d3⟩ :=
      ih st'.g (st'.data.take r''.toNat) (fun x hx => hne x (List.mem_cons_of_mem _ hx))
        hmax2 ⟨r0, st0, h3', hnil⟩
    have es3 : st3 = st2 := congrArg Prod.snd (Option.some.inj (d2.symm.trans h3))
    subst es3
    have elen : (c.length : Int) + (res.length : Int) = ((res ++ c).length : Int) := by
      rw [List.length_append]
      push_cast
      omega
    have hcol : (if st'.out_len > 0 then st'.ts_out.take st'.out_len.toNat else []) =
        st'.ts_out := by
      split
      · exact List.take_of_length_le (by omega)
      · exact (List.eq_nil_of_length_eq_zero (by omega)).symm
    refine ⟨st'.ts_out ++ out, g1, ?_, ?_⟩
    · unfold driver
      rw [if_neg hc, elen, call_defined C g (res ++ c) _ do_fec (le_refl _) hlenc, h1']
      simp only []
      rw [if_neg (by omega), d1]
      simp only []
      rw [hcol]
    · rw [List.flatten_cons, ← List.append_assoc]
      exact ⟨_, stW, h2, by rw [h4, d3]⟩

/-- The driver returns whenever every chunk has at most 2147481727 bytes: with the
residual of fewer than 1152 bytes no call gets more than 2147482878 bytes. -/
theorem driver_total {σ : Type} (C : Codec σ) (do_fec : Int) :
    ∀ (chunks : List (List Nat)) (g : Globals σ) (res : List Nat),
      res.length ≤ 1151 → (∀ c ∈ chunks, c.length ≤ 2147481727) →
      ∃ out g1, driver C do_fec g res chunks = some (out, g1) := by
  intro chunks
  induction chunks with
  | nil =>
    intro g res _ _
    exact ⟨[], g, rfl⟩
  | cons c rest ih =>
    intro g res hres hc
    unfold driver
    by_cases h1 : c.length < 1
    · rw [if_pos h1]
      exact ⟨_, _, rfl⟩
    · rw [if_neg h1]
      have hcl := hc c (List.mem_cons_self _ _)
      have elen : (c.length : Int) + (res.length : Int) = ((res ++ c).length : Int) := by
        rw [List.length_append]
        push_cast
        omega
      have hmax : ((res ++ c).length : Int) ≤ 2147482878 := by
        rw [List.length_append]
        push_cast
        omega
      obtain ⟨r, st, k1, k2, k3, _⟩ :=
        oob_process_data_chunk_spec C g (res ++ c) ((res ++ c).length : Int) do_fec
          (le_refl _)
      rw [elen, call_defined C g (res ++ c) _ do_fec (le_refl _) hmax, k1]
      simp only []
      rw [if_neg (by omega)]
      obtain ⟨out, g1, d1⟩ := ih st.g (st.data.take r.toNat)
        (by rw [List.length_take]; omega) (fun x hx => hc x (List.mem_cons_of_mem _ hx))
      rw [d1]
      exact ⟨_, _, rfl⟩

theorem overflow_chunks_flatten :
    overflow_chunks.flatten =
      List.replicate 1073741568 0 ++ (List.replicate 1073741568 0 ++ []) := by
  unfold overflow_chunks
  simp only [List.flatten_cons, List.flatten_nil]

theorem overflow_chunks_length : overflow_chunks.flatten.length = 2147483136 := by
  rw [overflow_chunks_flatten, List.length_append, List.length_append,
    List.length_replicate, List.length_nil]

theorem overflow_chunks_mem :
    ∀ c ∈ overflow_chunks, c = List.replicate 1073741568 0 := by
  intro c hc
  unfold overflow_chunks at hc
  simp only [List.mem_cons, List.mem_singleton, or_self, List.not_mem_nil, or_false] at hc
  exact hc

theorem overflow_chunks_ne : ∀ c ∈ overflow_chunks, c ≠ [] := by
  intro c hc h
  have e := congrArg List.length ((overflow_chunks_mem c hc).symm.trans h)
  rw [List.length_replicate, List.length_nil] at e
  omega

theorem overflow_chunks_driver {σ : Type} (C : Codec σ) (g : Globals σ) (do_fec : Int) :
    ∃ out g1, driver C do_fec g [] overflow_chunks = some (out, g1) := by
  apply driver_total C do_fec overflow_chunks g [] (Nat.zero_le _)
  intro c hc
  rw [overflow_chunks_mem c hc, List.length_replicate]
  omega

theorem overflow_chunks_single {σ : Type} (C : Codec σ) (g : Globals σ) (do_fec : Int) :
    oob_process_data_chunk C g overflow_chunks.flatten
      (overflow_chunks.flatten.length : Int) do_fec = none := by
  refine (call_overflow C g overflow_chunks.flatten _ do_fec (le_refl _)
    (by rw [overflow_chunks_length]; omega) ?_).2.2
  intro b hb
  rw [overflow_chunks_flatten] at hb
  simp only [List.mem_append, List.not_mem_nil, or_false] at hb
  rcases hb with hb | hb
  · exact zeros_no_sync _ b hb
  · exact zeros_no_sync _ b hb

theorem overflow_chunks_facts {σ : Type} (C : Codec σ) (g : Globals σ) (do_fec : Int) :
    (∀ c ∈ overflow_chunks, c ≠ []) ∧ overflow_chunks.flatten.length = 2147483136 ∧
    (∃ out g1, driver C do_fec g [] overflow_chunks = some (out, g1)) ∧
    oob_process_data_chunk C g overflow_chunks.flatten
      (overflow_chunks.flatten.length : Int) do_fec = none :=
  ⟨overflow_chunks_ne, overflow_chunks_length, overflow_chunks_driver C g do_fec,
    overflow_chunks_single C g do_fec⟩

/-- Claim C15. For every library (a function, hence deterministic), every `do_fec`, all
globals and every list of non-empty chunks of at most 2147482878 bytes in all: the
driver of `main` (each chunk is appended after the residual that the previous call
returned, the call gets the combined length, the `OutDataLen` emitted bytes are
collected) returns, and the concatenation of what it collects is what a single
`oob_process_data_chunk` call on the concatenation of the chunks emits. The claim fails
for longer streams: on the 2147483136 zero bytes of `overflow_chunks` the driver
returns, but in the single call on all the bytes the sum of line 292 exceeds `INT_MAX`
and the call has no defined result (as compiled it emits a frame that no chunked run
emits). -/
theorem C15_chunked_equals_single {σ : Type} (C : Codec σ) (g : Globals σ) (do_fec : Int)
    (chunks : List (List Nat)) (hne : ∀ c ∈ chunks, c ≠ [])
    (hmax : (chunks.flatten.length : Int) ≤ 2147482878) :
    (∃ out g1, driver C do_fec g [] chunks = some (out, g1) ∧
      ∃ r st, oob_process_data_chunk C g chunks.flatten (chunks.flatten.length : Int)
          do_fec = some (r, st) ∧
        out = st.ts_out.take st.out_len.toNat) ∧
    (∀ c ∈ overflow_chunks, c ≠ []) ∧ overflow_chunks.flatten.length = 2147483136 ∧
    (∃ out g1, driver C do_fec g [] overflow_chunks = some (out, g1)) ∧
    oob_process_data_chunk C g overflow_chunks.flatten
      (overflow_chunks.flatten.length : Int) do_fec = none := by
  refine ⟨?_, overflow_chunks_facts C g do_fec⟩
  obtain ⟨out, g1, h1, r, st, h2, h3⟩ :=
    driver_spec C do_fec chunks g [] hne (by rw [List.nil_append]; exact hmax)
      (call_empty C g do_fec)
  rw [List.nil_append] at h2
  obtain ⟨r', st', k1, _, _, k4, k5, _⟩ :=
    oob_process_data_chunk_spec C g chunks.flatten (chunks.flatten.length : Int) do_fec
      (le_refl _)
  have es : st' = st := congrArg Prod.snd (Option.some.inj (k1.symm.trans h2))
  subst es
  exact ⟨out, g1, h1, r, st',
    by rw [call_defined C g chunks.flatten _ do_fec (le_refl _) hmax]; exact h2, by
    rw [← h3]
    exact (List.take_of_length_le (by omega)).symm⟩

set_option maxRecDepth 100000 in
/-- Witness of claim C15: the 1152 bytes of `sample_aligned` (one frame with its
lookahead) delivered as 37 bytes, the other 1115 bytes, and one more byte; FEC enabled. -/
theorem C15_chunked_equals_single_witness :
    (∀ c ∈ [sample_aligned.take 37, sample_aligned.drop 37, [1]], c ≠ ([] : List Nat)) ∧
    (([sample_aligned.take 37, sample_aligned.drop 37, [1]].flatten.length : Nat) : Int) ≤
      2147482878 ∧
    ∃ out g1, driver null_codec 1 initial_globals []
        [sample_aligned.take 37, sample_aligned.drop 37, [1]] = some (out, g1) ∧
      ∃ r st, oob_process_data_chunk null_codec initial_globals
          [sample_aligned.take 37, sample_aligned.drop 37, [1]].flatten
          (([sample_aligned.take 37, sample_aligned.drop 37, [1]].flatten.length : Nat) : Int)
          1 = some (r, st) ∧
        out = st.ts_out.take st.out_len.toNat :=
  ⟨by decide, by decide, (C15_chunked_equals_single null_codec initial_globals 1
    [sample_aligned.take 37, sample_aligned.drop 37, [1]] (by decide) (by decide)).1⟩

end Oobin
